import Mathlib

/-!
A shallow embedding of the memory-allocation engine in
src/memory_allocation_engine.py, together with proofs about its
allocation, deallocation, bookkeeping and statistics behaviour.

Modelling conventions:
* Python integers are modelled as Nat; every quantity handled by the
  engine in the scenarios under study (addresses, sizes, frame ids,
  process ids) is a nonnegative integer.  Quantities that Python computes
  by subtraction and that can in principle go negative (free_memory,
  internal_fragmentation) are modelled as Int.
* Python floats (used_percentage, external_fragmentation) are modelled as
  exact rationals; no property below inspects their rounding behaviour.
* time.time() timestamps are wall-clock readings and are omitted from the
  Event record; no property below inspects them.
* The Python dict allocated_processes is modelled as an insertion-ordered
  association list, mirroring dict semantics: assignment to an existing
  key replaces the value in place, otherwise appends at the end.
* In-place mutation of the self.memory / self.page_table lists and of the
  dicts they hold is modelled by returning updated lists.
-/

/-- AllocationMethod enum (source lines 6-8). -/
inductive AllocationMethod
  | PAGING
  | SEGMENTATION
deriving DecidableEq, Repr

/-- A memory block, one entry of self.memory: a dict with keys
start, end, size, process_id (source line 16). -/
structure Block where
  start : Nat
  «end» : Nat
  size : Nat
  process_id : Option Nat
deriving DecidableEq, Repr

/-- A page frame, one entry of self.page_table: a dict with keys
frame_id, process_id, start_address, end_address (source lines 17-19). -/
structure Frame where
  frame_id : Nat
  process_id : Option Nat
  start_address : Nat
  end_address : Nat
deriving DecidableEq, Repr

/-- A value of self.allocated_processes: either a paging record
with keys size, frames, method = 'paging' (source lines 64-68), or a
segmentation record with keys size, start, end, method = 'segmentation'
(source lines 97-102). -/
inductive ProcInfo
  | paging (size : Nat) (frames : List Nat)
  | segmentation (size : Nat) (start «end» : Nat)
deriving DecidableEq, Repr

/-- An entry of self.recent_events (source lines 198-203); the wall-clock
timestamp field is omitted (see the module docstring). -/
structure Event where
  process_id : Nat
  event_type : String
  details : String
deriving DecidableEq, Repr

/-- The self.stats dict (source lines 22-31 and 186-195). -/
structure Stats where
  total_memory : Nat
  used_memory : Nat
  free_memory : Int
  used_percentage : Rat
  process_count : Nat
  page_faults : Nat
  external_fragmentation : Rat
  internal_fragmentation : Int
deriving DecidableEq, Repr

/-- The whole state owned by a MemoryManager instance
(source lines 13-31). -/
structure MemoryManager where
  memory_size : Nat
  page_size : Nat
  memory : List Block
  page_table : List Frame
  allocated_processes : List (Nat × ProcInfo)
  recent_events : List Event
  stats : Stats
deriving DecidableEq, Repr

/-- Python dict lookup pid in allocated_processes. -/
def dictLookup (pid : Nat) : List (Nat × ProcInfo) → Option ProcInfo
  | [] => none
  | (q, info) :: rest => if q = pid then some info else dictLookup pid rest

/-- Python dict assignment allocated_processes with key pid set to info:
replaces the value in place if the key is present, appends otherwise. -/
def dictInsert (pid : Nat) (info : ProcInfo) :
    List (Nat × ProcInfo) → List (Nat × ProcInfo)
  | [] => [(pid, info)]
  | (q, old) :: rest =>
    if q = pid then (q, info) :: rest else (q, old) :: dictInsert pid info rest

/-- Python del allocated_processes entry for pid (source line 134). -/
def dictErase (pid : Nat) : List (Nat × ProcInfo) → List (Nat × ProcInfo)
  | [] => []
  | (q, info) :: rest =>
    if q = pid then rest else (q, info) :: dictErase pid rest

/-- Stats as initialised by the constructor (source lines 22-31). -/
def initialStats (memory_size : Nat) : Stats :=
  { total_memory := memory_size
    used_memory := 0
    free_memory := (memory_size : Int)
    used_percentage := 0
    process_count := 0
    page_faults := 0
    external_fragmentation := 0
    internal_fragmentation := 0 }

/-- MemoryManager.__init__ (source lines 13-31).  The Python constructor
performs no validation whatsoever of memory_size / page_size; it always
produces an instance.  (With page_size = 0 Python would raise
ZeroDivisionError; all properties below assume page_size > 0.) -/
def MemoryManager.init (memory_size page_size : Nat) : MemoryManager :=
  { memory_size := memory_size
    page_size := page_size
    memory := [{ start := 0, «end» := memory_size - 1, size := memory_size,
                 process_id := none }]
    page_table := (List.range (memory_size / page_size)).map fun i =>
      { frame_id := i, process_id := none, start_address := i * page_size,
        end_address := (i + 1) * page_size - 1 }
    allocated_processes := []
    recent_events := []
    stats := initialStats memory_size }

/-- MemoryManager._log_event (source lines 197-206): append the event and
drop the oldest entry if the log now exceeds 10 entries. -/
def _log_event (m : MemoryManager) (process_id : Nat)
    (event_type details : String) : MemoryManager :=
  let events := m.recent_events ++
    [{ process_id := process_id, event_type := event_type, details := details }]
  { m with recent_events := if events.length > 10 then events.drop 1 else events }

/-- The contribution of one allocated_processes entry to the
internal_fragmentation accumulator of MemoryManager._update_stats
(source lines 180-184): paging entries contribute
len(frames) * page_size - size, others contribute nothing. -/
def internalFragContribution (page_size : Nat) : ProcInfo → Int
  | ProcInfo.paging size frames => (frames.length * page_size : Nat) - (size : Int)
  | ProcInfo.segmentation _ _ _ => 0

/-- MemoryManager._update_stats (source lines 171-195). -/
def _update_stats (m : MemoryManager) : MemoryManager :=
  let used_memory : Nat :=
    ((m.memory.filter fun b => b.process_id ≠ none).map Block.size).sum
  let free_memory : Int := (m.memory_size : Int) - used_memory
  let free_blocks := m.memory.filter fun b => b.process_id = none
  let largest_free_block : Nat := ((free_blocks.map Block.size).foldl max 0)
  let external_fragmentation : Rat :=
    if free_memory > 0 then 1 - (largest_free_block : Rat) / (free_memory : Rat)
    else 0
  let internal_fragmentation : Int :=
    m.allocated_processes.foldl
      (fun acc pr => acc + internalFragContribution m.page_size pr.2) 0
  { m with stats :=
    { total_memory := m.memory_size
      used_memory := used_memory
      free_memory := free_memory
      used_percentage :=
        if m.memory_size > 0 then
          ((used_memory : Rat) / (m.memory_size : Rat)) * 100
        else 0
      process_count := m.allocated_processes.length
      page_faults := 0
      external_fragmentation := external_fragmentation
      internal_fragmentation := internal_fragmentation } }

/-- The in-place for-loop of source lines 59-61: walk the page table and
give the first n ownerless frames to process_id.  (In the Python code the
slice free_frames[:pages_needed] holds aliases of the page-table dicts, so
mutating its members mutates exactly the first n free frames of
self.page_table, in place, in list order.) -/
def claimFreeFrames (process_id : Nat) : Nat → List Frame → List Frame
  | _, [] => []
  | 0, pt => pt
  | n + 1, f :: pt =>
    if f.process_id = none then
      { f with process_id := some process_id } :: claimFreeFrames process_id n pt
    else
      f :: claimFreeFrames process_id (n + 1) pt

/-- The frame_id list recorded in the paging registry entry (source line
66): ids of the first n free frames of the page table, in list order. -/
def claimedFrameIds (n : Nat) (pt : List Frame) : List Nat :=
  (((pt.filter fun f => f.process_id = none).take n).map Frame.frame_id)

/-- The body of MemoryManager._update_memory_from_page_table's scan
(source lines 141-159): current_block is the block being grown; a frame
with the same owner extends it, any other frame closes it and starts a
new one. -/
def rebuildScan (current_block : Block) : List Frame → List Block
  | [] => [current_block]
  | f :: fs =>
    if current_block.process_id = f.process_id then
      rebuildScan
        { current_block with
            «end» := f.end_address,
            size := f.end_address - current_block.start + 1 } fs
    else
      current_block ::
        rebuildScan
          { start := f.start_address, «end» := f.end_address,
            size := f.end_address - f.start_address + 1,
            process_id := f.process_id } fs

/-- Stable insertion used by sortByFrameId. -/
def insertByFrameId (f : Frame) : List Frame → List Frame
  | [] => [f]
  | g :: gs =>
    if f.frame_id < g.frame_id then f :: g :: gs else g :: insertByFrameId f gs

/-- The sorted(self.page_table, key=frame_id) call of source line 142,
as a stable insertion sort.  (The engine never reorders self.page_table,
so on every reachable page table this sort is the identity; the proof is
sortByFrameId_eq_self below.) -/
def sortByFrameId : List Frame → List Frame
  | [] => []
  | f :: fs => insertByFrameId f (sortByFrameId fs)

/-- MemoryManager._update_memory_from_page_table (source lines 139-159):
rebuild self.memory by scanning frames in frame_id order and merging
consecutive frames with the same owner into one block. -/
def _update_memory_from_page_table (pt : List Frame) : List Block :=
  match sortByFrameId pt with
  | [] => []
  | f :: fs =>
    rebuildScan
      { start := f.start_address, «end» := f.end_address,
        size := f.end_address - f.start_address + 1,
        process_id := f.process_id } fs

/-- The while-loop body of MemoryManager._merge_free_blocks (source lines
161-169): at each position either merge the two ownerless blocks at hand
(shortening the list) or move on.  Every iteration removes exactly one
element from the part of the list still to be scanned, so the loop runs
at most as many iterations as the list has elements; the scan carries
that bound explicitly so that it is structurally recursive (the bound can
never be exhausted before the scan ends). -/
def mergeScan : Nat → List Block → List Block
  | _, [] => []
  | _, [b] => [b]
  | 0, l => l
  | fuel + 1, b1 :: b2 :: rest =>
    if b1.process_id = none ∧ b2.process_id = none then
      mergeScan fuel
        ({ b1 with «end» := b2.«end», size := b1.size + b2.size } :: rest)
    else
      b1 :: mergeScan fuel (b2 :: rest)

/-- MemoryManager._merge_free_blocks (source lines 161-169): one pass over
self.memory merging every run of consecutive ownerless blocks. -/
def _merge_free_blocks (l : List Block) : List Block := mergeScan l.length l

/-- MemoryManager._allocate_process_paging (source lines 51-71). -/
def _allocate_process_paging (m : MemoryManager) (process_id size : Nat) :
    MemoryManager × Bool :=
  let pages_needed := (size + m.page_size - 1) / m.page_size
  let free_frames := m.page_table.filter fun f => f.process_id = none
  if free_frames.length < pages_needed then
    (_log_event m process_id "Allocation Failed"
      ("Not enough free frames. Needed " ++ toString pages_needed ++
       ", available " ++ toString free_frames.length), false)
  else
    let m1 := { m with
      page_table := claimFreeFrames process_id pages_needed m.page_table }
    let m2 := { m1 with
      memory := _update_memory_from_page_table m1.page_table }
    let m3 := { m2 with
      allocated_processes := dictInsert process_id
        (ProcInfo.paging size (claimedFrameIds pages_needed m.page_table))
        m2.allocated_processes }
    let m4 := _update_stats m3
    (_log_event m4 process_id "Allocation"
      ("Allocated " ++ toString pages_needed ++ " pages for size " ++
       toString size), true)

/-- The first-fit loop of MemoryManager._allocate_process_segmentation
(source lines 74-89): find the first ownerless block with size >= the
request; claim it whole on an exact fit, otherwise split it into a
claimed block of the exact size followed by an ownerless remainder.
Returns the updated block list and the claimed block (whose start/end the
caller uses for the frame overlay, the registry entry and the log). -/
def segFindAndClaim (process_id size : Nat) :
    List Block → Option (List Block × Block)
  | [] => none
  | b :: bs =>
    if b.process_id = none ∧ size ≤ b.size then
      if b.size = size then
        let claimed := { b with process_id := some process_id }
        some (claimed :: bs, claimed)
      else
        let claimed : Block :=
          { start := b.start, «end» := b.start + size - 1, size := size,
            process_id := some process_id }
        let new_block : Block :=
          { start := b.start + size, «end» := b.«end», size := b.size - size,
            process_id := none }
        some (claimed :: new_block :: bs, claimed)
    else
      match segFindAndClaim process_id size bs with
      | none => none
      | some (bs', claimed) => some (b :: bs', claimed)

/-- The frame-overlay loops of source lines 93-95 and 128-130: set the
owner of every frame whose frame_id lies in [start_page, end_page]. -/
def markFramesRange (owner : Option Nat) (start_page end_page : Nat)
    (pt : List Frame) : List Frame :=
  pt.map fun f =>
    if start_page ≤ f.frame_id ∧ f.frame_id ≤ end_page then
      { f with process_id := owner }
    else f

/-- MemoryManager._allocate_process_segmentation (source lines 73-108). -/
def _allocate_process_segmentation (m : MemoryManager)
    (process_id size : Nat) : MemoryManager × Bool :=
  match segFindAndClaim process_id size m.memory with
  | none =>
    (_log_event m process_id "Allocation Failed"
      ("No suitable free block found for size " ++ toString size), false)
  | some (mem', claimed) =>
    let start_page := claimed.start / m.page_size
    let end_page := claimed.«end» / m.page_size
    let m1 := { m with
      memory := mem',
      page_table :=
        markFramesRange (some process_id) start_page end_page m.page_table }
    let m2 := { m1 with
      allocated_processes := dictInsert process_id
        (ProcInfo.segmentation size claimed.start claimed.«end»)
        m1.allocated_processes }
    let m3 := _update_stats m2
    (_log_event m3 process_id "Allocation"
      ("Allocated segment of size " ++ toString size ++ " at address " ++
       toString claimed.start), true)

/-- MemoryManager.allocate_process (source lines 45-49): dispatch on the
method; note that no size or duplicate-pid validation happens here. -/
def allocate_process (m : MemoryManager) (process_id size : Nat)
    (method : AllocationMethod) : MemoryManager × Bool :=
  match method with
  | AllocationMethod.PAGING => _allocate_process_paging m process_id size
  | AllocationMethod.SEGMENTATION =>
    _allocate_process_segmentation m process_id size

/-- The paging branch of deallocation (source lines 117-120): clear the
owner of every frame whose frame_id is among the recorded ids. -/
def freeFramesByIds (ids : List Nat) (pt : List Frame) : List Frame :=
  pt.map fun f =>
    if f.frame_id ∈ ids then { f with process_id := none } else f

/-- The segmentation branch of deallocation (source lines 123-131): free
the first block owned by process_id (the loop breaks after one hit) and
report the block that was found, if any. -/
def segFreeFirst (process_id : Nat) : List Block → List Block × Option Block
  | [] => ([], none)
  | b :: bs =>
    if b.process_id = some process_id then
      ({ b with process_id := none } :: bs, some b)
    else
      let res := segFreeFirst process_id bs
      (b :: res.1, res.2)

/-- MemoryManager.deallocate_process (source lines 110-137).  Note that
the ProcessNotFound early return on lines 111-112 logs nothing. -/
def deallocate_process (m : MemoryManager) (process_id : Nat) :
    MemoryManager × Bool :=
  match dictLookup process_id m.allocated_processes with
  | none => (m, false)
  | some info =>
    let m1 :=
      match info with
      | ProcInfo.paging _ frames =>
        let mp := { m with page_table := freeFramesByIds frames m.page_table }
        { mp with memory := _update_memory_from_page_table mp.page_table }
      | ProcInfo.segmentation _ _ _ =>
        let res := segFreeFirst process_id m.memory
        let pt' :=
          match res.2 with
          | some blk =>
            markFramesRange none (blk.start / m.page_size)
              (blk.«end» / m.page_size) m.page_table
          | none => m.page_table
        { m with memory := _merge_free_blocks res.1, page_table := pt' }
    let m2 := { m1 with
      allocated_processes := dictErase process_id m1.allocated_processes }
    let m3 := _update_stats m2
    (_log_event m3 process_id "Deallocation" "Process removed from memory",
     true)

/-- MemoryManager.get_memory_snapshot (source lines 33-34); list.copy()
is the identity on the value level. -/
def get_memory_snapshot (m : MemoryManager) : List Block := m.memory

/-- MemoryManager.get_page_table_snapshot (source lines 36-37). -/
def get_page_table_snapshot (m : MemoryManager) : List Frame := m.page_table

/-- MemoryManager.get_memory_stats (source lines 39-40). -/
def get_memory_stats (m : MemoryManager) : Stats := m.stats

/-- MemoryManager.get_recent_events (source lines 42-43): the most recent
five events (the whole log if it is shorter). -/
def get_recent_events (m : MemoryManager) : List Event :=
  m.recent_events.drop (m.recent_events.length - 5)

/-- A command against the public mutating interface. -/
inductive Cmd
  | alloc (pid size : Nat) (method : AllocationMethod)
  | dealloc (pid : Nat)
deriving DecidableEq, Repr

/-- Run one command, discarding the returned success flag. -/
def execCmd (m : MemoryManager) : Cmd → MemoryManager
  | Cmd.alloc pid size method => (allocate_process m pid size method).1
  | Cmd.dealloc pid => (deallocate_process m pid).1

/-- Run a command sequence from left to right. -/
def execTrace (m : MemoryManager) (cs : List Cmd) : MemoryManager :=
  cs.foldl execCmd m

/-- The pid of an allocation command, if the command is one. -/
def allocPid : Cmd → Option Nat
  | Cmd.alloc pid _ _ => some pid
  | Cmd.dealloc _ => none

/-- The pids of all allocation commands of a trace, in order. -/
def allocPids (cs : List Cmd) : List Nat := cs.filterMap allocPid

/-- An allocation command requests a positive size (deallocations are
unconstrained). -/
def allocSizeOK : Cmd → Prop
  | Cmd.alloc _ size _ => 0 < size
  | Cmd.dealloc _ => True

instance : (c : Cmd) → Decidable (allocSizeOK c)
  | Cmd.alloc _ size _ => inferInstanceAs (Decidable (0 < size))
  | Cmd.dealloc _ => inferInstanceAs (Decidable True)

/-- Every allocation command of the trace requests a positive size. -/
def sizesPositive (cs : List Cmd) : Prop :=
  ∀ c ∈ cs, allocSizeOK c

instance (cs : List Cmd) : Decidable (sizesPositive cs) :=
  List.decidableBAll _ cs

/-- An allocation command uses the SEGMENTATION method (deallocations are
unconstrained). -/
def allocSegOK : Cmd → Prop
  | Cmd.alloc _ _ method => method = AllocationMethod.SEGMENTATION
  | Cmd.dealloc _ => True

instance : (c : Cmd) → Decidable (allocSegOK c)
  | Cmd.alloc _ _ method =>
    inferInstanceAs (Decidable (method = AllocationMethod.SEGMENTATION))
  | Cmd.dealloc _ => inferInstanceAs (Decidable True)

/-- Every allocation command of the trace uses only the SEGMENTATION
method. -/
def segOnly (cs : List Cmd) : Prop :=
  ∀ c ∈ cs, allocSegOK c

instance (cs : List Cmd) : Decidable (segOnly cs) :=
  List.decidableBAll _ cs

/-! ## Structural predicates on engine state -/

/-- The block list is an ordered, gapless chain: starting at address a,
each block begins where the previous one ended + 1, has positive size,
has a consistent end field, and the chain ends exactly at address N. -/
def BlocksOK : Nat → Nat → List Block → Prop
  | a, N, [] => a = N
  | a, N, b :: bs =>
    b.start = a ∧ 0 < b.size ∧ b.«end» + 1 = a + b.size ∧
      BlocksOK (a + b.size) N bs

def BlocksOK.dec : (a N : Nat) → (l : List Block) → Decidable (BlocksOK a N l)
  | a, N, [] => inferInstanceAs (Decidable (a = N))
  | a, N, b :: bs =>
    have : Decidable (BlocksOK (a + b.size) N bs) := BlocksOK.dec (a + b.size) N bs
    inferInstanceAs (Decidable (_ ∧ _ ∧ _ ∧ _))

instance (a N : Nat) (l : List Block) : Decidable (BlocksOK a N l) :=
  BlocksOK.dec a N l

/-- No two consecutive blocks have the same owner (free = free counts). -/
def noConsecSame : List Block → Prop
  | b1 :: b2 :: rest => b1.process_id ≠ b2.process_id ∧ noConsecSame (b2 :: rest)
  | _ => True

def noConsecSame.dec : (l : List Block) → Decidable (noConsecSame l)
  | [] => inferInstanceAs (Decidable True)
  | [_] => inferInstanceAs (Decidable True)
  | b1 :: b2 :: rest =>
    have : Decidable (noConsecSame (b2 :: rest)) := noConsecSame.dec (b2 :: rest)
    inferInstanceAs (Decidable (_ ∧ _))

instance (l : List Block) : Decidable (noConsecSame l) := noConsecSame.dec l

/-- No two consecutive blocks share the same concrete (some) owner; two
consecutive ownerless blocks are allowed.  This is the intermediate shape
of the block list between a segmentation free and the merge pass. -/
def sepHetero : List Block → Prop
  | b1 :: b2 :: rest =>
    (b1.process_id = none ∨ b1.process_id ≠ b2.process_id) ∧
      sepHetero (b2 :: rest)
  | _ => True

/-- Consecutive frames starting at frame_id k and address A: each frame
has the expected id, spans exactly [A, A + p - 1], and the next one
continues at A + p.  (For the page table built by the constructor,
A = k * p throughout; carrying the address explicitly keeps the
bookkeeping structural.) -/
def PtCanonFrom (p : Nat) : Nat → Nat → List Frame → Prop
  | _, _, [] => True
  | k, A, f :: fs =>
    f.frame_id = k ∧ f.start_address = A ∧
      f.end_address = A + p - 1 ∧ PtCanonFrom p (k + 1) (A + p) fs

def PtCanonFrom.dec (p : Nat) : (k A : Nat) → (pt : List Frame) →
    Decidable (PtCanonFrom p k A pt)
  | _, _, [] => inferInstanceAs (Decidable True)
  | k, A, f :: fs =>
    have : Decidable (PtCanonFrom p (k + 1) (A + p) fs) :=
      PtCanonFrom.dec p (k + 1) (A + p) fs
    inferInstanceAs (Decidable (_ ∧ _ ∧ _ ∧ _))

instance (p k A : Nat) (pt : List Frame) : Decidable (PtCanonFrom p k A pt) :=
  PtCanonFrom.dec p k A pt

/-- The canonical page table shape: frames 0, 1, 2, ... in order,
starting at address 0. -/
def PtCanon (p : Nat) (pt : List Frame) : Prop := PtCanonFrom p 0 0 pt

instance (p : Nat) (pt : List Frame) : Decidable (PtCanon p pt) :=
  PtCanonFrom.dec p 0 0 pt


/-! ## Basic lemmas about the chain predicate -/

theorem BlocksOK_nil {a N : Nat} : BlocksOK a N [] ↔ a = N := Iff.rfl

theorem BlocksOK_cons {a N : Nat} {b : Block} {bs : List Block} :
    BlocksOK a N (b :: bs) ↔
      b.start = a ∧ 0 < b.size ∧ b.«end» + 1 = a + b.size ∧
        BlocksOK (a + b.size) N bs := Iff.rfl

theorem BlocksOK_le {a N : Nat} {l : List Block} (h : BlocksOK a N l) :
    a ≤ N := by
  induction l generalizing a with
  | nil => exact Nat.le_of_eq h
  | cons b bs ih =>
    obtain ⟨-, -, -, h4⟩ := h
    exact le_trans (Nat.le_add_right a b.size) (ih h4)

theorem BlocksOK_append {a N : Nat} {l1 l2 : List Block} :
    BlocksOK a N (l1 ++ l2) ↔ ∃ m, BlocksOK a m l1 ∧ BlocksOK m N l2 := by
  induction l1 generalizing a with
  | nil =>
    constructor
    · intro h; exact ⟨a, rfl, h⟩
    · rintro ⟨m, hm, h⟩
      rw [show a = m from hm]
      exact h
  | cons b bs ih =>
    constructor
    · rintro ⟨h1, h2, h3, h4⟩
      obtain ⟨m, h5, h6⟩ := ih.mp h4
      exact ⟨m, ⟨h1, h2, h3, h5⟩, h6⟩
    · rintro ⟨m, ⟨h1, h2, h3, h5⟩, h6⟩
      exact ⟨h1, h2, h3, ih.mpr ⟨m, h5, h6⟩⟩

theorem BlocksOK_mem_bounds {a N : Nat} {l : List Block} (h : BlocksOK a N l)
    {b : Block} (hb : b ∈ l) :
    a ≤ b.start ∧ 0 < b.size ∧ b.«end» + 1 = b.start + b.size ∧ b.«end» < N := by
  induction l generalizing a with
  | nil => cases hb
  | cons c cs ih =>
    obtain ⟨h1, h2, h3, h4⟩ := h
    rcases List.mem_cons.mp hb with rfl | hb'
    · have htail : a + b.size ≤ N := BlocksOK_le h4
      omega
    · have := ih h4 hb'
      omega

theorem BlocksOK_sum {a N : Nat} {l : List Block} (h : BlocksOK a N l) :
    a + (l.map Block.size).sum = N := by
  induction l generalizing a with
  | nil => simpa using h
  | cons b bs ih =>
    obtain ⟨-, -, -, h4⟩ := h
    have := ih h4
    simp only [List.map_cons, List.sum_cons]
    omega

/-- In a chain, a single address is covered by at most one block. -/
theorem BlocksOK_unique_cover {a N : Nat} {l : List Block}
    (h : BlocksOK a N l) {x : Nat} {b1 b2 : Block}
    (h1 : b1 ∈ l) (h2 : b2 ∈ l)
    (hx1 : b1.start ≤ x ∧ x ≤ b1.«end») (hx2 : b2.start ≤ x ∧ x ≤ b2.«end») :
    b1 = b2 := by
  induction l generalizing a with
  | nil => cases h1
  | cons c cs ih =>
    obtain ⟨g1, g2, g3, g4⟩ := h
    rcases List.mem_cons.mp h1 with rfl | h1' <;>
      rcases List.mem_cons.mp h2 with rfl | h2'
    · rfl
    · exfalso
      have := BlocksOK_mem_bounds g4 h2'
      omega
    · exfalso
      have := BlocksOK_mem_bounds g4 h1'
      omega
    · exact ih g4 h1' h2'

/-! ## Lemmas about the separation predicates -/

theorem noConsecSame_cons {b : Block} {l : List Block} :
    noConsecSame (b :: l) ↔
      (∀ c, l.head? = some c → b.process_id ≠ c.process_id) ∧ noConsecSame l := by
  cases l with
  | nil => simp [noConsecSame]
  | cons c cs => simp [noConsecSame]

theorem sepHetero_cons {b : Block} {l : List Block} :
    sepHetero (b :: l) ↔
      (∀ c, l.head? = some c →
        b.process_id = none ∨ b.process_id ≠ c.process_id) ∧ sepHetero l := by
  cases l with
  | nil => simp [sepHetero]
  | cons c cs => simp [sepHetero]

theorem noConsecSame_sepHetero {l : List Block} (h : noConsecSame l) :
    sepHetero l := by
  induction l with
  | nil => trivial
  | cons b bs ih =>
    rw [noConsecSame_cons] at h
    rw [sepHetero_cons]
    exact ⟨fun c hc => Or.inr (h.1 c hc), ih h.2⟩

theorem noConsecSame_append {l1 l2 : List Block} :
    noConsecSame (l1 ++ l2) ↔
      noConsecSame l1 ∧ noConsecSame l2 ∧
        (∀ x y, l1.getLast? = some x → l2.head? = some y →
          x.process_id ≠ y.process_id) := by
  induction l1 with
  | nil =>
    simp only [List.nil_append, List.getLast?_nil]
    constructor
    · intro h
      exact ⟨trivial, h, by simp⟩
    · rintro ⟨-, h, -⟩
      exact h
  | cons b bs ih =>
    rw [List.cons_append, noConsecSame_cons, ih, noConsecSame_cons]
    cases bs with
    | nil =>
      simp only [List.nil_append, List.head?_nil, List.getLast?_singleton,
        List.getLast?_nil]
      constructor
      · rintro ⟨hh, -, h2, -⟩
        refine ⟨⟨fun c hc => absurd hc (by simp), trivial⟩, h2, ?_⟩
        rintro x y hx hy
        cases hx
        exact hh y hy
      · rintro ⟨-, h2, hj⟩
        exact ⟨fun c hc => hj b c rfl hc, trivial, h2, by simp⟩
    | cons c cs =>
      simp only [List.cons_append, List.head?_cons, List.getLast?_cons_cons]
      constructor
      · rintro ⟨hh, h1, h2, hj⟩
        exact ⟨⟨fun d hd => by cases hd; exact hh c rfl, h1⟩, h2, hj⟩
      · rintro ⟨⟨hh, h1⟩, h2, hj⟩
        exact ⟨fun d hd => by cases hd; exact hh c rfl, h1, h2, hj⟩

/-! ## Lemmas about the canonical page table -/

theorem PtCanonFrom_mem {p k A : Nat} {pt : List Frame}
    (h : PtCanonFrom p k A pt) (hA : A = k * p) :
    ∀ f ∈ pt, k ≤ f.frame_id ∧ f.frame_id < k + pt.length ∧
      f.start_address = f.frame_id * p ∧
      f.end_address = f.frame_id * p + p - 1 := by
  induction pt generalizing k A with
  | nil => simp
  | cons g gs ih =>
    obtain ⟨h1, h2, h3, h4⟩ := h
    intro f hf
    rcases List.mem_cons.mp hf with rfl | hf'
    · subst hA
      refine ⟨le_of_eq h1.symm, ?_, ?_, ?_⟩
      · rw [h1]; simp
      · rw [h1, h2]
      · rw [h1, h3]
    · have hA' : A + p = (k + 1) * p := by rw [hA]; ring
      obtain ⟨g1, g2, g3, g4⟩ := ih h4 hA' f hf'
      exact ⟨le_trans (Nat.le_succ k) g1, by simpa [Nat.add_comm, Nat.add_assoc,
        Nat.add_left_comm] using g2, g3, g4⟩

theorem PtCanonFrom_id_lower {p k A : Nat} {pt : List Frame}
    (h : PtCanonFrom p k A pt) : ∀ f ∈ pt, k ≤ f.frame_id := by
  induction pt generalizing k A with
  | nil => simp
  | cons g gs ih =>
    obtain ⟨h1, -, -, h4⟩ := h
    intro f hf
    rcases List.mem_cons.mp hf with rfl | hf'
    · exact le_of_eq h1.symm
    · exact le_trans (Nat.le_succ k) (ih h4 f hf')

theorem PtCanonFrom_pairwise {p k A : Nat} {pt : List Frame}
    (h : PtCanonFrom p k A pt) :
    pt.Pairwise fun f g => f.frame_id < g.frame_id := by
  induction pt generalizing k A with
  | nil => exact List.Pairwise.nil
  | cons g gs ih =>
    obtain ⟨h1, -, -, h4⟩ := h
    refine List.Pairwise.cons ?_ (ih h4)
    intro f hf
    have := PtCanonFrom_id_lower h4 f hf
    omega

theorem PtCanonFrom_length {p k A : Nat} {pt : List Frame}
    (h : PtCanonFrom p k A pt) : ∀ f ∈ pt, f.frame_id < k + pt.length := by
  induction pt generalizing k A with
  | nil => simp
  | cons g gs ih =>
    obtain ⟨h1, -, -, h4⟩ := h
    intro f hf
    rcases List.mem_cons.mp hf with rfl | hf'
    · simp [h1]
    · have := ih h4 f hf'
      simp only [List.length_cons]
      omega

/-- The engine never reorders the page table, so the sort in
_update_memory_from_page_table is the identity. -/
theorem insertByFrameId_of_lt {f : Frame} {pt : List Frame}
    (h : ∀ g, pt.head? = some g → f.frame_id < g.frame_id) :
    insertByFrameId f pt = f :: pt := by
  cases pt with
  | nil => rfl
  | cons g gs =>
    simp only [insertByFrameId, if_pos (h g rfl)]

theorem sortByFrameId_eq_self {pt : List Frame}
    (h : pt.Pairwise fun f g => f.frame_id < g.frame_id) :
    sortByFrameId pt = pt := by
  induction pt with
  | nil => rfl
  | cons f fs ih =>
    rw [List.pairwise_cons] at h
    rw [sortByFrameId, ih h.2]
    apply insertByFrameId_of_lt
    intro g hg
    exact h.1 g (List.mem_of_mem_head? hg)

/-- The page table built by the constructor is canonical. -/
theorem init_ptCanonFrom (p : Nat) :
    ∀ (n k : Nat), PtCanonFrom p k (k * p)
      ((List.range' k n).map fun i =>
        { frame_id := i, process_id := none, start_address := i * p,
          end_address := (i + 1) * p - 1 }) := by
  intro n
  induction n with
  | zero => intro k; trivial
  | succ n ih =>
    intro k
    rw [List.range'_succ, List.map_cons]
    refine ⟨rfl, rfl, ?_, ?_⟩
    · show (k + 1) * p - 1 = k * p + p - 1
      ring_nf
    · have : k * p + p = (k + 1) * p := by ring
      rw [this]
      exact ih (k + 1)

theorem init_ptCanon (N p : Nat) : PtCanon p (MemoryManager.init N p).page_table := by
  show PtCanonFrom p 0 0 _
  have := init_ptCanonFrom p (N / p) 0
  simpa [MemoryManager.init, List.range_eq_range'] using this

/-! ## Ownership-only page-table updates preserve the canonical shape -/

theorem PtCanonFrom_map_owner {p k A : Nat} {g : Frame → Frame}
    (hg : ∀ f, (g f).frame_id = f.frame_id ∧
      (g f).start_address = f.start_address ∧
      (g f).end_address = f.end_address) :
    ∀ {pt : List Frame}, PtCanonFrom p k A pt → PtCanonFrom p k A (pt.map g) := by
  intro pt
  induction pt generalizing k A with
  | nil => intro; trivial
  | cons f fs ih =>
    rintro ⟨h1, h2, h3, h4⟩
    obtain ⟨g1, g2, g3⟩ := hg f
    exact ⟨g1.trans h1, g2.trans h2, g3.trans h3, ih h4⟩

theorem markFramesRange_ptCanonFrom {p k A : Nat} {owner : Option Nat}
    {lo hi : Nat} {pt : List Frame} (h : PtCanonFrom p k A pt) :
    PtCanonFrom p k A (markFramesRange owner lo hi pt) := by
  apply PtCanonFrom_map_owner (g := fun f =>
    if lo ≤ f.frame_id ∧ f.frame_id ≤ hi then { f with process_id := owner }
    else f) _ h
  intro f
  by_cases hc : lo ≤ f.frame_id ∧ f.frame_id ≤ hi <;> simp [hc]

theorem freeFramesByIds_ptCanonFrom {p k A : Nat} {ids : List Nat}
    {pt : List Frame} (h : PtCanonFrom p k A pt) :
    PtCanonFrom p k A (freeFramesByIds ids pt) := by
  apply PtCanonFrom_map_owner (g := fun f =>
    if f.frame_id ∈ ids then { f with process_id := none } else f) _ h
  intro f
  by_cases hc : f.frame_id ∈ ids <;> simp [hc]

theorem claimFreeFrames_ptCanonFrom {p pid : Nat} :
    ∀ {pt : List Frame} {n k A : Nat}, PtCanonFrom p k A pt →
      PtCanonFrom p k A (claimFreeFrames pid n pt) := by
  intro pt
  induction pt with
  | nil => intro n k A h; cases n <;> exact h
  | cons f fs ih =>
    intro n k A h
    obtain ⟨h1, h2, h3, h4⟩ := h
    cases n with
    | zero => exact ⟨h1, h2, h3, h4⟩
    | succ n =>
      by_cases hf : f.process_id = none
      · simp only [claimFreeFrames, if_pos hf]
        exact ⟨h1, h2, h3, ih h4⟩
      · simp only [claimFreeFrames, if_neg hf]
        exact ⟨h1, h2, h3, ih h4⟩

theorem claimFreeFrames_length {pid : Nat} :
    ∀ {pt : List Frame} {n : Nat},
      (claimFreeFrames pid n pt).length = pt.length := by
  intro pt
  induction pt with
  | nil => intro n; cases n <;> rfl
  | cons f fs ih =>
    intro n
    cases n with
    | zero => rfl
    | succ n =>
      by_cases hf : f.process_id = none
      · simp only [claimFreeFrames, if_pos hf, List.length_cons, ih]
      · simp only [claimFreeFrames, if_neg hf, List.length_cons, ih]

/-! ## The rebuild pass: _update_memory_from_page_table -/

/-- The address one past the last frame of a canonical frame list that
starts at address A. -/
def ptEnd (p : Nat) : Nat → List Frame → Nat
  | A, [] => A
  | A, _ :: fs => ptEnd p (A + p) fs

theorem ptEnd_eq (p : Nat) : ∀ (fs : List Frame) (A : Nat),
    ptEnd p A fs = A + fs.length * p := by
  intro fs
  induction fs with
  | nil => intro A; simp [ptEnd]
  | cons f fs ih =>
    intro A
    rw [ptEnd, ih]
    simp only [List.length_cons]
    ring

/-- Core correctness of the rebuild scan: starting from a well-formed
current block that ends exactly where the remaining canonical frames
begin, the scan produces a gapless chain with no two consecutive owners
equal, whose first block extends the current one, whose owners all come
from the current block or the frames, and whose blocks cover every frame
with the frame's owner. -/
theorem rebuildScan_spec {p : Nat} (hp : 0 < p) :
    ∀ (fs : List Frame) (k A : Nat) (cur : Block),
    PtCanonFrom p k A fs →
    cur.start + cur.size = cur.«end» + 1 →
    0 < cur.size →
    cur.«end» + 1 = A →
    BlocksOK cur.start (ptEnd p A fs) (rebuildScan cur fs) ∧
    noConsecSame (rebuildScan cur fs) ∧
    (∃ b0 rest, rebuildScan cur fs = b0 :: rest ∧ b0.start = cur.start ∧
      b0.process_id = cur.process_id ∧ cur.«end» ≤ b0.«end») ∧
    (∀ b ∈ rebuildScan cur fs, b.process_id = cur.process_id ∨
      ∃ f ∈ fs, b.process_id = f.process_id) ∧
    (∀ f ∈ fs, ∃ b ∈ rebuildScan cur fs, b.process_id = f.process_id ∧
      b.start ≤ f.start_address ∧ f.end_address ≤ b.«end») := by
  intro fs
  induction fs with
  | nil =>
    intro k A cur hcanon hco hsz hend
    refine ⟨⟨rfl, hsz, by omega, ?_⟩, trivial, ⟨cur, [], rfl, rfl, rfl, le_refl _⟩,
      by simp [rebuildScan], by simp⟩
    show cur.start + cur.size = A
    omega
  | cons f fs ih =>
    intro k A cur hcanon hco hsz hend
    obtain ⟨hf1, hf2, hf3, hrest⟩ := hcanon
    have hstartlt : cur.start < A := by omega
    by_cases hsame : cur.process_id = f.process_id
    · -- the frame extends the current block
      set cur' : Block :=
        { cur with «end» := f.end_address,
                   size := f.end_address - cur.start + 1 } with hcur'
      have heq : rebuildScan cur (f :: fs) = rebuildScan cur' fs := by
        rw [rebuildScan, if_pos hsame]
      have hc1 : cur'.start + cur'.size = cur'.«end» + 1 := by
        simp only [hcur', hf3]
        omega
      have hc2 : 0 < cur'.size := by
        simp only [hcur', hf3]
        omega
      have hc3 : cur'.«end» + 1 = A + p := by
        simp only [hcur', hf3]
        omega
      obtain ⟨ih1, ih2, ⟨b0, rest, hb0, hb0s, hb0p, hb0e⟩, ih4, ih5⟩ :=
        ih (k + 1) (A + p) cur' hrest hc1 hc2 hc3
      rw [heq]
      refine ⟨ih1, ih2, ⟨b0, rest, hb0, hb0s, hb0p, ?_⟩, ?_, ?_⟩
      · have : cur'.«end» = f.end_address := rfl
        omega
      · intro b hb
        rcases ih4 b hb with h | ⟨g, hg, hgp⟩
        · exact Or.inl h
        · exact Or.inr ⟨g, List.mem_cons_of_mem f hg, hgp⟩
      · intro g hg
        rcases List.mem_cons.mp hg with rfl | hg'
        · have hmem : b0 ∈ rebuildScan cur' fs := by
            rw [hb0]
            exact List.mem_cons_self b0 rest
          refine ⟨b0, hmem, ?_, ?_, ?_⟩
          · exact hb0p.trans hsame
          · have e1 : b0.start = cur.start := hb0s
            have e2 : g.start_address = A := hf2
            omega
          · have e1 : g.end_address = A + p - 1 := hf3
            have e2 : cur'.«end» ≤ b0.«end» := hb0e
            have e3 : cur'.«end» + 1 = A + p := hc3
            omega
        · exact ih5 g hg'
    · -- the frame opens a new block
      set newb : Block :=
        { start := f.start_address, «end» := f.end_address,
          size := f.end_address - f.start_address + 1,
          process_id := f.process_id } with hnewb
      have heq : rebuildScan cur (f :: fs) = cur :: rebuildScan newb fs := by
        rw [rebuildScan, if_neg hsame]
      have hc1 : newb.start + newb.size = newb.«end» + 1 := by
        simp only [hnewb, hf2, hf3]
        omega
      have hc2 : 0 < newb.size := by
        simp only [hnewb, hf2, hf3]
        omega
      have hc3 : newb.«end» + 1 = A + p := by
        simp only [hnewb, hf3]
        omega
      obtain ⟨ih1, ih2, ⟨b0, rest, hb0, hb0s, hb0p, hb0e⟩, ih4, ih5⟩ :=
        ih (k + 1) (A + p) newb hrest hc1 hc2 hc3
      rw [heq]
      have hcurend : cur.start + cur.size = newb.start := by
        simp only [hnewb, hf2]
        omega
      refine ⟨⟨rfl, hsz, by omega, ?_⟩, ?_, ⟨cur, _, rfl, rfl, rfl, le_refl _⟩,
        ?_, ?_⟩
      · rw [show ptEnd p A (f :: fs) = ptEnd p (A + p) fs from rfl, hcurend]
        exact ih1
      · rw [noConsecSame_cons]
        refine ⟨?_, ih2⟩
        intro c hc
        rw [hb0] at hc
        simp only [List.head?_cons, Option.some_inj] at hc
        rw [← hc, hb0p]
        exact fun hcc => hsame (hcc.trans rfl)
      · intro b hb
        rcases List.mem_cons.mp hb with rfl | hb'
        · exact Or.inl rfl
        · rcases ih4 b hb' with h | ⟨g, hg, hgp⟩
          · exact Or.inr ⟨f, List.mem_cons_self f fs, h.trans rfl⟩
          · exact Or.inr ⟨g, List.mem_cons_of_mem f hg, hgp⟩
      · intro g hg
        rcases List.mem_cons.mp hg with rfl | hg'
        · have hmem : b0 ∈ rebuildScan newb fs := by
            rw [hb0]
            exact List.mem_cons_self b0 rest
          refine ⟨b0, List.mem_cons_of_mem cur hmem, ?_, ?_, ?_⟩
          · exact hb0p
          · have e1 : b0.start = newb.start := hb0s
            have e2 : newb.start = g.start_address := rfl
            omega
          · have e1 : newb.«end» = g.end_address := rfl
            have e2 : newb.«end» ≤ b0.«end» := hb0e
            omega
        · obtain ⟨b, hbmem, hrest'⟩ := ih5 g hg'
          exact ⟨b, List.mem_cons_of_mem cur hbmem, hrest'⟩

/-- Top-level correctness of _update_memory_from_page_table on a
nonempty canonical page table. -/
theorem update_memory_spec {p : Nat} (hp : 0 < p) :
    ∀ {pt : List Frame}, PtCanon p pt → pt ≠ [] →
    BlocksOK 0 (ptEnd p 0 pt) (_update_memory_from_page_table pt) ∧
    noConsecSame (_update_memory_from_page_table pt) ∧
    (∀ b ∈ _update_memory_from_page_table pt,
      ∃ f ∈ pt, b.process_id = f.process_id) ∧
    (∀ f ∈ pt, ∃ b ∈ _update_memory_from_page_table pt,
      b.process_id = f.process_id ∧ b.start ≤ f.start_address ∧
        f.end_address ≤ b.«end») := by
  intro pt hcanon hne
  have hsort : sortByFrameId pt = pt :=
    sortByFrameId_eq_self (PtCanonFrom_pairwise hcanon)
  cases pt with
  | nil => exact absurd rfl hne
  | cons f fs =>
    obtain ⟨hf1, hf2, hf3, hrest⟩ := hcanon
    have hred : _update_memory_from_page_table (f :: fs) =
        rebuildScan
          { start := f.start_address, «end» := f.end_address,
            size := f.end_address - f.start_address + 1,
            process_id := f.process_id } fs := by
      rw [_update_memory_from_page_table, hsort]
    set cur0 : Block :=
      { start := f.start_address, «end» := f.end_address,
        size := f.end_address - f.start_address + 1,
        process_id := f.process_id } with hcur0
    have hc1 : cur0.start + cur0.size = cur0.«end» + 1 := by
      simp only [hcur0, hf2, hf3]
      omega
    have hc2 : 0 < cur0.size := by
      simp only [hcur0, hf2, hf3]
      omega
    have hc3 : cur0.«end» + 1 = 0 + p := by
      simp only [hcur0, hf2, hf3]
      omega
    obtain ⟨s1, s2, ⟨b0, rest, hb0, hb0s, hb0p, hb0e⟩, s4, s5⟩ :=
      rebuildScan_spec hp fs 1 (0 + p) cur0 hrest hc1 hc2 hc3
    rw [hred]
    refine ⟨?_, s2, ?_, ?_⟩
    · have hc0 : cur0.start = 0 := by simp only [hcur0, hf2]
      rw [hc0] at s1
      exact s1
    · intro b hb
      rcases s4 b hb with h | ⟨g, hg, hgp⟩
      · exact ⟨f, List.mem_cons_self f fs, h.trans rfl⟩
      · exact ⟨g, List.mem_cons_of_mem f hg, hgp⟩
    · intro g hg
      rcases List.mem_cons.mp hg with rfl | hg'
      · have hmem : b0 ∈ rebuildScan cur0 fs := by
          rw [hb0]
          exact List.mem_cons_self b0 rest
        refine ⟨b0, hmem, hb0p, ?_, ?_⟩
        · have e1 : b0.start = cur0.start := hb0s
          have e2 : cur0.start = g.start_address := rfl
          omega
        · have e1 : cur0.«end» = g.end_address := rfl
          omega
      · exact s5 g hg'

/-! ## The merge pass: _merge_free_blocks -/

theorem merge_nil : _merge_free_blocks [] = [] := rfl

theorem merge_single (b : Block) : _merge_free_blocks [b] = [b] := rfl

theorem mergeScan_head_owner : ∀ (fuel : Nat) (l : List Block),
    (mergeScan fuel l).head?.map Block.process_id =
      l.head?.map Block.process_id := by
  intro fuel
  induction fuel with
  | zero =>
    intro l
    rcases l with - | ⟨b, - | ⟨c, rest⟩⟩ <;> rfl
  | succ fuel ih =>
    intro l
    rcases l with - | ⟨b1, - | ⟨b2, rest⟩⟩
    · rfl
    · rfl
    · by_cases h : b1.process_id = none ∧ b2.process_id = none
      · rw [mergeScan, if_pos h, ih]
        rfl
      · rw [mergeScan, if_neg h]
        rfl

theorem mergeScan_spec : ∀ (fuel : Nat) (l : List Block) (a N : Nat),
    l.length ≤ fuel + 1 →
    BlocksOK a N l → sepHetero l →
    BlocksOK a N (mergeScan fuel l) ∧
    noConsecSame (mergeScan fuel l) ∧
    (∀ b ∈ mergeScan fuel l, ∀ q, b.process_id = some q →
      ∃ b' ∈ l, b'.process_id = some q) ∧
    (∀ b ∈ l, b.process_id ≠ none → b ∈ mergeScan fuel l) ∧
    (∀ b ∈ mergeScan fuel l, b.process_id ≠ none → b ∈ l) := by
  intro fuel
  induction fuel with
  | zero =>
    intro l a N hlen h hs
    rcases l with - | ⟨b, - | ⟨c, rest⟩⟩
    · exact ⟨h, trivial, by simp [mergeScan], by simp, by simp [mergeScan]⟩
    · refine ⟨h, trivial, ?_, ?_, ?_⟩
      · intro c hc q hq
        exact ⟨c, hc, hq⟩
      · intro c hc _
        exact hc
      · intro c hc _
        exact hc
    · simp at hlen
  | succ fuel ih =>
    intro l a N hlen h hs
    rcases l with - | ⟨b1, - | ⟨b2, rest⟩⟩
    · exact ⟨h, trivial, by simp [mergeScan], by simp, by simp [mergeScan]⟩
    · refine ⟨h, trivial, ?_, ?_, ?_⟩
      · intro c hc q hq
        exact ⟨c, hc, hq⟩
      · intro c hc _
        exact hc
      · intro c hc _
        exact hc
    · obtain ⟨h1, h2, h3, g1, g2, g3, g4⟩ := h
      have hlen' : (b2 :: rest).length ≤ fuel + 1 := by
        simp only [List.length_cons] at hlen ⊢
        omega
      by_cases hnone : b1.process_id = none ∧ b2.process_id = none
      · have hmergeeq : mergeScan (fuel + 1) (b1 :: b2 :: rest) =
            mergeScan fuel
              ({ b1 with «end» := b2.«end», size := b1.size + b2.size } ::
                rest) := by
          rw [mergeScan, if_pos hnone]
        have hchain' : BlocksOK a N
            ({ b1 with «end» := b2.«end», size := b1.size + b2.size } ::
              rest) := by
          refine ⟨h1, ?_, ?_, ?_⟩
          · show 0 < b1.size + b2.size
            omega
          · show b2.«end» + 1 = a + (b1.size + b2.size)
            omega
          · show BlocksOK (a + (b1.size + b2.size)) N rest
            have : a + (b1.size + b2.size) = a + b1.size + b2.size := by omega
            rw [this]
            exact g4
        have hsep' : sepHetero
            ({ b1 with «end» := b2.«end», size := b1.size + b2.size } ::
              rest) := by
          rw [sepHetero_cons]
          refine ⟨fun c _ => Or.inl hnone.1, ?_⟩
          have := (sepHetero_cons.mp hs).2
          exact (sepHetero_cons.mp this).2
        obtain ⟨i1, i2, i3, i4, i5⟩ := ih _ a N (by
          simp only [List.length_cons] at hlen ⊢
          omega) hchain' hsep'
        rw [hmergeeq]
        refine ⟨i1, i2, ?_, ?_, ?_⟩
        · intro b hb q hq
          obtain ⟨b', hb', hb'q⟩ := i3 b hb q hq
          rcases List.mem_cons.mp hb' with rfl | hb''
          · exfalso
            simp only [hnone.1] at hb'q
            cases hb'q
          · exact ⟨b', List.mem_cons_of_mem b1
              (List.mem_cons_of_mem b2 hb''), hb'q⟩
        · intro b hb hbq
          rcases List.mem_cons.mp hb with rfl | hb'
          · exact absurd hnone.1 hbq
          · rcases List.mem_cons.mp hb' with rfl | hb''
            · exact absurd hnone.2 hbq
            · exact i4 b (List.mem_cons_of_mem _ hb'') hbq
        · intro b hb hbq
          have hmem := i5 b hb hbq
          rcases List.mem_cons.mp hmem with rfl | hb''
          · exact absurd hnone.1 hbq
          · exact List.mem_cons_of_mem b1 (List.mem_cons_of_mem b2 hb'')
      · have hpair : b1.process_id ≠ b2.process_id := by
          rcases (sepHetero_cons.mp hs).1 b2 rfl with hn | hne
          · intro hcc
            exact hnone ⟨hn, hcc ▸ hn⟩
          · exact hne
        have hsep' : sepHetero (b2 :: rest) := (sepHetero_cons.mp hs).2
        obtain ⟨i1, i2, i3, i4, i5⟩ :=
          ih _ (a + b1.size) N hlen' ⟨g1, g2, g3, g4⟩ hsep'
        have hmergeeq : mergeScan (fuel + 1) (b1 :: b2 :: rest) =
            b1 :: mergeScan fuel (b2 :: rest) := by
          rw [mergeScan, if_neg hnone]
        rw [hmergeeq]
        refine ⟨⟨h1, h2, h3, i1⟩, ?_, ?_, ?_, ?_⟩
        · rw [noConsecSame_cons]
          refine ⟨?_, i2⟩
          intro c hc
          have := mergeScan_head_owner fuel (b2 :: rest)
          rw [hc] at this
          simp only [List.head?_cons, Option.map_some'] at this
          intro hcc
          apply hpair
          rw [hcc]
          exact Option.some_inj.mp this.symm ▸ rfl
        · intro b hb q hq
          rcases List.mem_cons.mp hb with rfl | hb'
          · exact ⟨b, List.mem_cons_self _ _, hq⟩
          · obtain ⟨b', hb', hb'q⟩ := i3 b hb' q hq
            exact ⟨b', List.mem_cons_of_mem b1 hb', hb'q⟩
        · intro b hb hbq
          rcases List.mem_cons.mp hb with rfl | hb'
          · exact List.mem_cons_self _ _
          · exact List.mem_cons_of_mem b1 (i4 b hb' hbq)
        · intro b hb hbq
          rcases List.mem_cons.mp hb with rfl | hb'
          · exact List.mem_cons_self _ _
          · exact List.mem_cons_of_mem b1 (i5 b hb' hbq)

theorem merge_free_blocks_spec : ∀ {l : List Block} {a N : Nat},
    BlocksOK a N l → sepHetero l →
    BlocksOK a N (_merge_free_blocks l) ∧
    noConsecSame (_merge_free_blocks l) ∧
    (∀ b ∈ _merge_free_blocks l, ∀ q, b.process_id = some q →
      ∃ b' ∈ l, b'.process_id = some q) ∧
    (∀ b ∈ l, b.process_id ≠ none → b ∈ _merge_free_blocks l) := by
  intro l a N h hs
  obtain ⟨i1, i2, i3, i4, i5⟩ :=
    mergeScan_spec l.length l a N (by omega) h hs
  exact ⟨i1, i2, i3, i4⟩

/-- Blocks with a concrete owner in the merged list were already present
before the merge. -/
theorem merge_free_blocks_owned_mem {l : List Block} {a N : Nat}
    (h : BlocksOK a N l) (hs : sepHetero l) :
    ∀ b ∈ _merge_free_blocks l, b.process_id ≠ none → b ∈ l := by
  obtain ⟨-, -, -, -, i5⟩ := mergeScan_spec l.length l a N (by omega) h hs
  exact i5

/-! ## The first-fit search: segFindAndClaim -/

theorem segFindAndClaim_none {pid size : Nat} : ∀ {l : List Block},
    segFindAndClaim pid size l = none ↔
      ∀ b ∈ l, ¬(b.process_id = none ∧ size ≤ b.size) := by
  intro l
  induction l with
  | nil => simp [segFindAndClaim]
  | cons b bs ih =>
    by_cases hb : b.process_id = none ∧ size ≤ b.size
    · constructor
      · intro h
        rw [segFindAndClaim, if_pos hb] at h
        by_cases hsz : b.size = size <;> simp [hsz] at h
      · intro h
        exact absurd hb (h b (List.mem_cons_self b bs))
    · rw [segFindAndClaim, if_neg hb]
      constructor
      · intro h c hc
        rcases List.mem_cons.mp hc with rfl | hc'
        · exact hb
        · rcases hrec : segFindAndClaim pid size bs with - | pr
          · exact (ih.mp hrec) c hc'
          · rw [hrec] at h
            cases h
      · intro h
        have : segFindAndClaim pid size bs = none :=
          ih.mpr fun c hc => h c (List.mem_cons_of_mem b hc)
        rw [this]

theorem segFindAndClaim_some {pid size : Nat} : ∀ {l l' : List Block}
    {blk : Block}, segFindAndClaim pid size l = some (l', blk) →
    ∃ l1 F l2, l = l1 ++ F :: l2 ∧
      (∀ b ∈ l1, ¬(b.process_id = none ∧ size ≤ b.size)) ∧
      F.process_id = none ∧ size ≤ F.size ∧
      blk.start = F.start ∧ blk.size = size ∧ blk.process_id = some pid ∧
      ((F.size = size ∧ blk = { F with process_id := some pid } ∧
        l' = l1 ++ blk :: l2) ∨
       (size < F.size ∧
        blk = { start := F.start, «end» := F.start + size - 1, size := size,
                process_id := some pid } ∧
        l' = l1 ++ blk ::
          ({ start := F.start + size, «end» := F.«end»,
             size := F.size - size, process_id := none } : Block) :: l2)) := by
  intro l
  induction l with
  | nil => intro l' blk h; cases h
  | cons b bs ih =>
    intro l' blk h
    by_cases hb : b.process_id = none ∧ size ≤ b.size
    · rw [segFindAndClaim, if_pos hb] at h
      by_cases hsz : b.size = size
      · rw [if_pos hsz] at h
        simp only [Option.some_inj, Prod.mk.injEq] at h
        obtain ⟨hl', hblk⟩ := h
        refine ⟨[], b, bs, by simp, by simp, hb.1, hb.2, ?_, ?_, ?_, ?_⟩
        · rw [← hblk]
        · rw [← hblk]; exact hsz
        · rw [← hblk]
        · left
          refine ⟨hsz, hblk.symm, ?_⟩
          rw [← hl', ← hblk]
          simp
      · rw [if_neg hsz] at h
        simp only [Option.some_inj, Prod.mk.injEq] at h
        obtain ⟨hl', hblk⟩ := h
        refine ⟨[], b, bs, by simp, by simp, hb.1, hb.2, ?_, ?_, ?_, ?_⟩
        · rw [← hblk]
        · rw [← hblk]
        · rw [← hblk]
        · right
          refine ⟨lt_of_le_of_ne hb.2 fun hc => hsz hc.symm, hblk.symm, ?_⟩
          rw [← hl', ← hblk]
          simp
    · rw [segFindAndClaim, if_neg hb] at h
      rcases hrec : segFindAndClaim pid size bs with - | pr
      · rw [hrec] at h
        cases h
      · rw [hrec] at h
        obtain ⟨bs', blk'⟩ := pr
        simp only [Option.some_inj, Prod.mk.injEq] at h
        obtain ⟨hl', hblk⟩ := h
        obtain ⟨l1, F, l2, e1, e2, e3, e4, e5, e6, e7, e8⟩ := ih hrec
        subst hblk
        refine ⟨b :: l1, F, l2, by rw [e1]; rfl, ?_, e3, e4, e5, e6, e7, ?_⟩
        · intro c hc
          rcases List.mem_cons.mp hc with rfl | hc'
          · exact hb
          · exact e2 c hc'
        · rcases e8 with ⟨x1, x2, x3⟩ | ⟨x1, x2, x3⟩
          · exact Or.inl ⟨x1, x2, by rw [← hl', x3]; rfl⟩
          · exact Or.inr ⟨x1, x2, by rw [← hl', x3]; rfl⟩

/-! ## The first-owned-block search: segFreeFirst -/

theorem segFreeFirst_none {pid : Nat} : ∀ {l : List Block},
    (segFreeFirst pid l).2 = none →
      (segFreeFirst pid l).1 = l ∧ ∀ b ∈ l, b.process_id ≠ some pid := by
  intro l
  induction l with
  | nil => intro; exact ⟨rfl, by simp⟩
  | cons b bs ih =>
    intro h
    by_cases hb : b.process_id = some pid
    · rw [segFreeFirst, if_pos hb] at h
      cases h
    · rw [segFreeFirst, if_neg hb] at h ⊢
      simp only at h ⊢
      obtain ⟨h1, h2⟩ := ih h
      refine ⟨by rw [h1], ?_⟩
      intro c hc
      rcases List.mem_cons.mp hc with rfl | hc'
      · exact hb
      · exact h2 c hc'

theorem segFreeFirst_some {pid : Nat} : ∀ {l : List Block} {blk : Block},
    (segFreeFirst pid l).2 = some blk →
    blk.process_id = some pid ∧
    ∃ l1 l2, l = l1 ++ blk :: l2 ∧
      (segFreeFirst pid l).1 = l1 ++ { blk with process_id := none } :: l2 := by
  intro l
  induction l with
  | nil => intro blk h; cases h
  | cons b bs ih =>
    intro blk h
    by_cases hb : b.process_id = some pid
    · rw [segFreeFirst, if_pos hb] at h ⊢
      simp only [Option.some_inj] at h
      subst h
      exact ⟨hb, [], bs, by simp, by simp⟩
    · rw [segFreeFirst, if_neg hb] at h ⊢
      simp only at h ⊢
      obtain ⟨h1, l1, l2, h2, h3⟩ := ih h
      exact ⟨h1, b :: l1, l2, by rw [h2]; rfl, by rw [h3]; rfl⟩

/-! ## Dictionary lemmas -/

theorem dictLookup_eq_none {pid : Nat} : ∀ {l : List (Nat × ProcInfo)},
    dictLookup pid l = none ↔ ∀ pr ∈ l, pr.1 ≠ pid := by
  intro l
  induction l with
  | nil => simp [dictLookup]
  | cons pr rest ih =>
    obtain ⟨q, info⟩ := pr
    by_cases hq : q = pid
    · subst hq
      simp [dictLookup]
    · rw [dictLookup, if_neg hq, ih]
      constructor
      · intro h c hc
        rcases List.mem_cons.mp hc with rfl | hc'
        · exact hq
        · exact h c hc'
      · intro h c hc
        exact h c (List.mem_cons_of_mem _ hc)

theorem dictLookup_mem {pid : Nat} {info : ProcInfo} :
    ∀ {l : List (Nat × ProcInfo)}, dictLookup pid l = some info →
      (pid, info) ∈ l := by
  intro l
  induction l with
  | nil => intro h; cases h
  | cons pr rest ih =>
    obtain ⟨q, i⟩ := pr
    intro h
    by_cases hq : q = pid
    · subst hq
      rw [dictLookup, if_pos rfl] at h
      simp only [Option.some_inj] at h
      subst h
      exact List.mem_cons_self _ _
    · rw [dictLookup, if_neg hq] at h
      exact List.mem_cons_of_mem _ (ih h)

theorem mem_dictInsert {pid : Nat} {info : ProcInfo}
    {pr : Nat × ProcInfo} : ∀ {l : List (Nat × ProcInfo)},
    pr ∈ dictInsert pid info l → pr ∈ l ∨ pr = (pid, info) := by
  intro l
  induction l with
  | nil =>
    intro h
    simp only [dictInsert, List.mem_singleton] at h
    exact Or.inr h
  | cons c rest ih =>
    obtain ⟨q, i⟩ := c
    intro h
    by_cases hq : q = pid
    · subst hq
      rw [dictInsert, if_pos rfl] at h
      rcases List.mem_cons.mp h with rfl | h'
      · exact Or.inr rfl
      · exact Or.inl (List.mem_cons_of_mem _ h')
    · rw [dictInsert, if_neg hq] at h
      rcases List.mem_cons.mp h with rfl | h'
      · exact Or.inl (List.mem_cons_self _ _)
      · rcases ih h' with h'' | h''
        · exact Or.inl (List.mem_cons_of_mem _ h'')
        · exact Or.inr h''

theorem mem_dictInsert_of_ne {pid : Nat} {info : ProcInfo}
    {pr : Nat × ProcInfo} (hne : pr.1 ≠ pid) : ∀ {l : List (Nat × ProcInfo)},
    pr ∈ l → pr ∈ dictInsert pid info l := by
  intro l
  induction l with
  | nil => intro h; cases h
  | cons c rest ih =>
    obtain ⟨q, i⟩ := c
    intro h
    by_cases hq : q = pid
    · subst hq
      rw [dictInsert, if_pos rfl]
      rcases List.mem_cons.mp h with rfl | h'
      · exact absurd rfl hne
      · exact List.mem_cons_of_mem _ h'
    · rw [dictInsert, if_neg hq]
      rcases List.mem_cons.mp h with rfl | h'
      · exact List.mem_cons_self _ _
      · exact List.mem_cons_of_mem _ (ih h')

theorem dictInsert_of_fresh {pid : Nat} {info : ProcInfo} :
    ∀ {l : List (Nat × ProcInfo)}, (∀ pr ∈ l, pr.1 ≠ pid) →
      dictInsert pid info l = l ++ [(pid, info)] := by
  intro l
  induction l with
  | nil => intro; rfl
  | cons c rest ih =>
    obtain ⟨q, i⟩ := c
    intro h
    have hq : q ≠ pid := h (q, i) (List.mem_cons_self _ _)
    rw [dictInsert, if_neg hq, ih fun pr hpr => h pr (List.mem_cons_of_mem _ hpr)]
    rfl

theorem mem_dictErase {pid : Nat} {pr : Nat × ProcInfo} :
    ∀ {l : List (Nat × ProcInfo)}, pr ∈ dictErase pid l → pr ∈ l := by
  intro l
  induction l with
  | nil => intro h; cases h
  | cons c rest ih =>
    obtain ⟨q, i⟩ := c
    intro h
    by_cases hq : q = pid
    · subst hq
      rw [dictErase, if_pos rfl] at h
      exact List.mem_cons_of_mem _ h
    · rw [dictErase, if_neg hq] at h
      rcases List.mem_cons.mp h with rfl | h'
      · exact List.mem_cons_self _ _
      · exact List.mem_cons_of_mem _ (ih h')

theorem mem_dictErase_of_ne {pid : Nat} {pr : Nat × ProcInfo}
    (hne : pr.1 ≠ pid) : ∀ {l : List (Nat × ProcInfo)},
    pr ∈ l → pr ∈ dictErase pid l := by
  intro l
  induction l with
  | nil => intro h; cases h
  | cons c rest ih =>
    obtain ⟨q, i⟩ := c
    intro h
    by_cases hq : q = pid
    · subst hq
      rw [dictErase, if_pos rfl]
      rcases List.mem_cons.mp h with rfl | h'
      · exact absurd rfl hne
      · exact h'
    · rw [dictErase, if_neg hq]
      rcases List.mem_cons.mp h with rfl | h'
      · exact List.mem_cons_self _ _
      · exact List.mem_cons_of_mem _ (ih h')

theorem dictInsert_keys_nodup {pid : Nat} {info : ProcInfo} :
    ∀ {l : List (Nat × ProcInfo)}, (l.map Prod.fst).Nodup →
      ((dictInsert pid info l).map Prod.fst).Nodup := by
  intro l
  induction l with
  | nil => intro; simp [dictInsert]
  | cons c rest ih =>
    obtain ⟨q, i⟩ := c
    intro h
    simp only [List.map_cons, List.nodup_cons] at h
    by_cases hq : q = pid
    · subst hq
      rw [dictInsert, if_pos rfl]
      simp only [List.map_cons, List.nodup_cons]
      exact h
    · rw [dictInsert, if_neg hq]
      simp only [List.map_cons, List.nodup_cons]
      refine ⟨?_, ih h.2⟩
      intro hc
      rcases List.mem_map.mp hc with ⟨pr, hpr, hpr2⟩
      rcases mem_dictInsert hpr with h' | h'
      · exact h.1 (List.mem_map.mpr ⟨pr, h', hpr2⟩)
      · rw [h'] at hpr2
        exact hq hpr2.symm

theorem dictErase_keys_nodup {pid : Nat} :
    ∀ {l : List (Nat × ProcInfo)}, (l.map Prod.fst).Nodup →
      ((dictErase pid l).map Prod.fst).Nodup := by
  intro l
  induction l with
  | nil => intro; simp [dictErase]
  | cons c rest ih =>
    obtain ⟨q, i⟩ := c
    intro h
    simp only [List.map_cons, List.nodup_cons] at h
    by_cases hq : q = pid
    · subst hq
      rw [dictErase, if_pos rfl]
      exact h.2
    · rw [dictErase, if_neg hq]
      simp only [List.map_cons, List.nodup_cons]
      refine ⟨?_, ih h.2⟩
      intro hc
      rcases List.mem_map.mp hc with ⟨pr, hpr, hpr2⟩
      exact h.1 (List.mem_map.mpr ⟨pr, mem_dictErase hpr, hpr2⟩)

/-! ## Frame-ownership characterizations of the three frame updates -/

theorem claimFreeFrames_owners {pid q : Nat} : ∀ {pt : List Frame} {n : Nat}
    {g : Frame}, g ∈ claimFreeFrames pid n pt → g.process_id = some q →
    q = pid ∨ ∃ f ∈ pt, f.process_id = some q := by
  intro pt
  induction pt with
  | nil =>
    intro n g hg
    cases n <;> cases hg
  | cons f fs ih =>
    intro n g hg hq
    cases n with
    | zero => exact Or.inr ⟨g, hg, hq⟩
    | succ n =>
      by_cases hf : f.process_id = none
      · rw [claimFreeFrames, if_pos hf] at hg
        rcases List.mem_cons.mp hg with rfl | hg'
        · simp only at hq
          exact Or.inl (Option.some_inj.mp hq).symm
        · rcases ih hg' hq with h | ⟨f', hf', hf'q⟩
          · exact Or.inl h
          · exact Or.inr ⟨f', List.mem_cons_of_mem f hf', hf'q⟩
      · rw [claimFreeFrames, if_neg hf] at hg
        rcases List.mem_cons.mp hg with rfl | hg'
        · exact Or.inr ⟨g, List.mem_cons_self _ _, hq⟩
        · rcases ih hg' hq with h | ⟨f', hf', hf'q⟩
          · exact Or.inl h
          · exact Or.inr ⟨f', List.mem_cons_of_mem f hf', hf'q⟩

/-- Frames owned by a process other than the claimant are untouched by
claimFreeFrames (as full records). -/
theorem claimFreeFrames_other {pid q : Nat} (hq : q ≠ pid) :
    ∀ {pt : List Frame} {n : Nat} {g : Frame}, g.process_id = some q →
    (g ∈ claimFreeFrames pid n pt ↔ g ∈ pt) := by
  intro pt
  induction pt with
  | nil =>
    intro n g hg
    cases n <;> exact Iff.rfl
  | cons f fs ih =>
    intro n g hg
    cases n with
    | zero => exact Iff.rfl
    | succ n =>
      by_cases hf : f.process_id = none
      · rw [claimFreeFrames, if_pos hf]
        constructor
        · intro h
          rcases List.mem_cons.mp h with rfl | h'
          · simp only at hg
            exact absurd (Option.some_inj.mp hg).symm hq
          · exact List.mem_cons_of_mem f ((ih hg).mp h')
        · intro h
          rcases List.mem_cons.mp h with rfl | h'
          · rw [hf] at hg
            cases hg
          · exact List.mem_cons_of_mem _ ((ih hg).mpr h')
      · rw [claimFreeFrames, if_neg hf]
        constructor
        · intro h
          rcases List.mem_cons.mp h with rfl | h'
          · exact List.mem_cons_self _ _
          · exact List.mem_cons_of_mem f ((ih hg).mp h')
        · intro h
          rcases List.mem_cons.mp h with rfl | h'
          · exact List.mem_cons_self _ _
          · exact List.mem_cons_of_mem _ ((ih hg).mpr h')

/-- On a page table with no frame owned by the claimant, the frames owned
by the claimant after claimFreeFrames are exactly the recorded
claimedFrameIds. -/
theorem claimFreeFrames_new {pid : Nat} : ∀ {pt : List Frame} {n : Nat},
    (∀ f ∈ pt, f.process_id ≠ some pid) →
    ∀ i : Nat,
      ((∃ f ∈ claimFreeFrames pid n pt, f.frame_id = i ∧
          f.process_id = some pid) ↔ i ∈ claimedFrameIds n pt) := by
  intro pt
  induction pt with
  | nil =>
    intro n hfresh i
    cases n <;> simp [claimFreeFrames, claimedFrameIds]
  | cons f fs ih =>
    intro n hfresh i
    have hfresh' : ∀ g ∈ fs, g.process_id ≠ some pid :=
      fun g hg => hfresh g (List.mem_cons_of_mem f hg)
    cases n with
    | zero =>
      constructor
      · rintro ⟨g, hg, -, hgp⟩
        exact absurd hgp (hfresh g hg)
      · intro h
        simp [claimedFrameIds] at h
    | succ n =>
      by_cases hf : f.process_id = none
      · rw [claimFreeFrames, if_pos hf]
        have hclaimed : claimedFrameIds (n + 1) (f :: fs) =
            f.frame_id :: claimedFrameIds n fs := by
          simp [claimedFrameIds, List.filter_cons, hf]
        rw [hclaimed]
        constructor
        · rintro ⟨g, hg, hgi, hgp⟩
          rcases List.mem_cons.mp hg with rfl | hg'
          · simp only at hgi
            rw [← hgi]
            exact List.mem_cons_self _ _
          · exact List.mem_cons_of_mem _ ((ih hfresh' i).mp ⟨g, hg', hgi, hgp⟩)
        · intro h
          rcases List.mem_cons.mp h with rfl | h'
          · exact ⟨{ f with process_id := some pid }, List.mem_cons_self _ _,
              rfl, rfl⟩
          · obtain ⟨g, hg, hgi, hgp⟩ := (ih hfresh' i).mpr h'
            exact ⟨g, List.mem_cons_of_mem _ hg, hgi, hgp⟩
      · rw [claimFreeFrames, if_neg hf]
        have hclaimed : claimedFrameIds (n + 1) (f :: fs) =
            claimedFrameIds (n + 1) fs := by
          simp [claimedFrameIds, List.filter_cons, hf]
        rw [hclaimed]
        constructor
        · rintro ⟨g, hg, hgi, hgp⟩
          rcases List.mem_cons.mp hg with rfl | hg'
          · exact absurd hgp (hfresh g (List.mem_cons_self _ _))
          · exact (ih hfresh' i).mp ⟨g, hg', hgi, hgp⟩
        · intro h
          obtain ⟨g, hg, hgi, hgp⟩ := (ih hfresh' i).mpr h
          exact ⟨g, List.mem_cons_of_mem _ hg, hgi, hgp⟩

theorem markFramesRange_owners {owner : Option Nat} {lo hi : Nat}
    {pt : List Frame} {q : Nat} {g : Frame}
    (hg : g ∈ markFramesRange owner lo hi pt) (hq : g.process_id = some q) :
    owner = some q ∨ ∃ f ∈ pt, f.process_id = some q := by
  obtain ⟨f, hf, hfg⟩ := List.mem_map.mp hg
  by_cases hc : lo ≤ f.frame_id ∧ f.frame_id ≤ hi
  · rw [if_pos hc] at hfg
    rw [← hfg] at hq
    exact Or.inl hq
  · rw [if_neg hc] at hfg
    rw [← hfg] at hq
    exact Or.inr ⟨f, hf, hq⟩

/-- Frames owned by q are untouched by markFramesRange when the new owner
is not q and no q-owned frame lies in the marked id range. -/
theorem markFramesRange_other {owner : Option Nat} {lo hi : Nat}
    {pt : List Frame} {q : Nat} (howner : owner ≠ some q)
    (hsafe : ∀ f ∈ pt, f.process_id = some q →
      ¬(lo ≤ f.frame_id ∧ f.frame_id ≤ hi)) :
    ∀ g : Frame, g.process_id = some q →
      (g ∈ markFramesRange owner lo hi pt ↔ g ∈ pt) := by
  intro g hg
  constructor
  · intro h
    obtain ⟨f, hf, hfg⟩ := List.mem_map.mp h
    by_cases hc : lo ≤ f.frame_id ∧ f.frame_id ≤ hi
    · rw [if_pos hc] at hfg
      rw [← hfg] at hg
      exact absurd hg howner
    · rw [if_neg hc] at hfg
      exact hfg ▸ hf
  · intro h
    have hnr : ¬(lo ≤ g.frame_id ∧ g.frame_id ≤ hi) := hsafe g h hg
    have hid : (if lo ≤ g.frame_id ∧ g.frame_id ≤ hi then
        { g with process_id := owner } else g) = g := by rw [if_neg hnr]
    exact List.mem_map.mpr ⟨g, h, hid⟩

theorem freeFramesByIds_owners {ids : List Nat} {pt : List Frame} {q : Nat}
    {g : Frame} (hg : g ∈ freeFramesByIds ids pt)
    (hq : g.process_id = some q) : ∃ f ∈ pt, f.process_id = some q := by
  obtain ⟨f, hf, hfg⟩ := List.mem_map.mp hg
  by_cases hc : f.frame_id ∈ ids
  · rw [if_pos hc] at hfg
    rw [← hfg] at hq
    cases hq
  · rw [if_neg hc] at hfg
    rw [← hfg] at hq
    exact ⟨f, hf, hq⟩

theorem freeFramesByIds_other {ids : List Nat} {pt : List Frame} {q : Nat}
    (hsafe : ∀ f ∈ pt, f.process_id = some q → f.frame_id ∉ ids) :
    ∀ g : Frame, g.process_id = some q →
      (g ∈ freeFramesByIds ids pt ↔ g ∈ pt) := by
  intro g hg
  constructor
  · intro h
    obtain ⟨f, hf, hfg⟩ := List.mem_map.mp h
    by_cases hc : f.frame_id ∈ ids
    · rw [if_pos hc] at hfg
      rw [← hfg] at hg
      cases hg
    · rw [if_neg hc] at hfg
      exact hfg ▸ hf
  · intro h
    have hid : (if g.frame_id ∈ ids then { g with process_id := none }
        else g) = g := by rw [if_neg (hsafe g h hg)]
    exact List.mem_map.mpr ⟨g, h, hid⟩

theorem freeFramesByIds_clears {ids : List Nat} {pt : List Frame} {pid : Nat}
    (hall : ∀ f ∈ pt, f.process_id = some pid → f.frame_id ∈ ids) :
    ∀ g ∈ freeFramesByIds ids pt, g.process_id ≠ some pid := by
  intro g hg
  obtain ⟨f, hf, hfg⟩ := List.mem_map.mp hg
  by_cases hc : f.frame_id ∈ ids
  · rw [if_pos hc] at hfg
    rw [← hfg]
    simp
  · rw [if_neg hc] at hfg
    rw [← hfg]
    intro hgp
    exact hc (hall f hf hgp)

/-! ## Geometric safety: the frame range of a block inside one chain block
cannot touch frames fully covered by a different owner's block -/

theorem frame_range_safety {p : Nat} (hp : 0 < p) {mem : List Block}
    {a N : Nat} (hchain : BlocksOK a N mem) {F : Block} (hF : F ∈ mem)
    {q : Nat} (hFq : F.process_id ≠ some q)
    {B : Block} (hB : B ∈ mem) (hBq : B.process_id = some q)
    {i s e : Nat} (hFs : F.start ≤ s) (hs : s ≤ e) (he : e ≤ F.«end»)
    (hcovs : B.start ≤ i * p) (hcove : i * p + p - 1 ≤ B.«end»)
    (hlo : s / p ≤ i) (hhi : i ≤ e / p) : False := by
  have h1 : e / p * p ≤ e := Nat.div_mul_le_self e p
  have h2 : i * p ≤ e / p * p := Nat.mul_le_mul_right p hhi
  have h3 : s / p * p + s % p = s := by
    rw [Nat.mul_comm]
    exact Nat.div_add_mod s p
  have h4 : s % p < p := Nat.mod_lt s hp
  have h5 : s / p * p ≤ i * p := Nat.mul_le_mul_right p hlo
  set x := max (i * p) s with hx
  have hxip : i * p ≤ x := le_max_left _ _
  have hxs : s ≤ x := le_max_right _ _
  have hxe : x ≤ e := by
    apply max_le
    · omega
    · exact hs
  have hxf : x ≤ i * p + p - 1 := by
    apply max_le
    · omega
    · omega
  have hFcov : F.start ≤ x ∧ x ≤ F.«end» := ⟨le_trans hFs hxs, le_trans hxe he⟩
  have hBcov : B.start ≤ x ∧ x ≤ B.«end» :=
    ⟨le_trans hcovs hxip, le_trans hxf hcove⟩
  have := BlocksOK_unique_cover hchain hB hF hBcov hFcov
  rw [← this] at hFq
  exact hFq hBq

/-! ## The reachability invariant -/

/-- The inductive invariant maintained by every engine operation, relative
to the list `used` of process ids that allocation commands have used so
far: the block list is a gapless chain over [0, memory_size) with no two
consecutive owners equal, the page table is canonical, every owner
appearing anywhere was a used pid, registry keys are distinct used pids,
and every paging registry entry records exactly its owned frames, each of
which lies inside one of its blocks. -/
structure EngineInv (used : List Nat) (s : MemoryManager) : Prop where
  hp : 0 < s.page_size
  hN : 0 < s.memory_size
  hdvd : s.memory_size = s.memory_size / s.page_size * s.page_size
  ptcanon : PtCanon s.page_size s.page_table
  ptlen : s.page_table.length = s.memory_size / s.page_size
  chain : BlocksOK 0 s.memory_size s.memory
  sep : noConsecSame s.memory
  bOwn : ∀ b ∈ s.memory, ∀ q, b.process_id = some q → q ∈ used
  fOwn : ∀ f ∈ s.page_table, ∀ q, f.process_id = some q → q ∈ used
  regOwn : ∀ pr ∈ s.allocated_processes, pr.1 ∈ used
  regNodup : (s.allocated_processes.map Prod.fst).Nodup
  pagingRec : ∀ pid sz fr, (pid, ProcInfo.paging sz fr) ∈ s.allocated_processes →
    ∀ i : Nat, i ∈ fr ↔
      ∃ f ∈ s.page_table, f.frame_id = i ∧ f.process_id = some pid
  pagingCover : ∀ pid sz fr,
    (pid, ProcInfo.paging sz fr) ∈ s.allocated_processes →
    ∀ f ∈ s.page_table, f.process_id = some pid →
      ∃ b ∈ s.memory, b.process_id = some pid ∧
        b.start ≤ f.start_address ∧ f.end_address ≤ b.«end»

theorem EngineInv_mono {used used' : List Nat} {s : MemoryManager}
    (h : EngineInv used s) (hsub : ∀ x ∈ used, x ∈ used') :
    EngineInv used' s :=
  { h with
    bOwn := fun b hb q hq => hsub q (h.bOwn b hb q hq)
    fOwn := fun f hf q hq => hsub q (h.fOwn f hf q hq)
    regOwn := fun pr hpr => hsub pr.1 (h.regOwn pr hpr) }

/-- Logging touches only recent_events, which the invariant ignores. -/
theorem EngineInv_log {used : List Nat} {s : MemoryManager} {pid : Nat}
    {et d : String} (h : EngineInv used s) :
    EngineInv used (_log_event s pid et d) :=
  { h with }

/-- Stats recomputation touches only stats, which the invariant ignores. -/
theorem EngineInv_stats {used : List Nat} {s : MemoryManager}
    (h : EngineInv used s) : EngineInv used (_update_stats s) :=
  { h with }

theorem EngineInv_pt_nonempty {used : List Nat} {s : MemoryManager}
    (h : EngineInv used s) : s.page_table ≠ [] := by
  have : 0 < s.page_table.length := by
    rw [h.ptlen]
    rcases Nat.eq_zero_or_pos (s.memory_size / s.page_size) with hc | hc
    · exfalso
      have hd := h.hdvd
      rw [hc, Nat.zero_mul] at hd
      have := h.hN
      omega
    · exact hc
  exact List.ne_nil_of_length_pos this

theorem EngineInv_frame_addr {used : List Nat} {s : MemoryManager}
    (h : EngineInv used s) : ∀ f ∈ s.page_table,
      f.start_address = f.frame_id * s.page_size ∧
      f.end_address = f.frame_id * s.page_size + s.page_size - 1 := by
  intro f hf
  have := PtCanonFrom_mem h.ptcanon (by simp) f hf
  exact ⟨this.2.2.1, this.2.2.2⟩

/-! ## Branch equations for the engine operations -/

theorem alloc_paging_fail_eq {s : MemoryManager} {pid sz : Nat}
    (h : (s.page_table.filter fun f => f.process_id = none).length <
      (sz + s.page_size - 1) / s.page_size) :
    _allocate_process_paging s pid sz =
      (_log_event s pid "Allocation Failed"
        ("Not enough free frames. Needed " ++
         toString ((sz + s.page_size - 1) / s.page_size) ++ ", available " ++
         toString (s.page_table.filter fun f => f.process_id = none).length),
       false) := by
  simp only [_allocate_process_paging]
  rw [if_pos h]

theorem alloc_paging_success_eq {s : MemoryManager} {pid sz : Nat}
    (h : ¬ (s.page_table.filter fun f => f.process_id = none).length <
      (sz + s.page_size - 1) / s.page_size) :
    _allocate_process_paging s pid sz =
      (_log_event (_update_stats { s with
          page_table := claimFreeFrames pid
            ((sz + s.page_size - 1) / s.page_size) s.page_table,
          memory := _update_memory_from_page_table (claimFreeFrames pid
            ((sz + s.page_size - 1) / s.page_size) s.page_table),
          allocated_processes := dictInsert pid
            (ProcInfo.paging sz (claimedFrameIds
              ((sz + s.page_size - 1) / s.page_size) s.page_table))
            s.allocated_processes })
        pid "Allocation"
        ("Allocated " ++ toString ((sz + s.page_size - 1) / s.page_size) ++
         " pages for size " ++ toString sz), true) := by
  simp only [_allocate_process_paging]
  rw [if_neg h]

theorem alloc_seg_none_eq {s : MemoryManager} {pid sz : Nat}
    (h : segFindAndClaim pid sz s.memory = none) :
    _allocate_process_segmentation s pid sz =
      (_log_event s pid "Allocation Failed"
        ("No suitable free block found for size " ++ toString sz), false) := by
  rw [_allocate_process_segmentation, h]

theorem alloc_seg_some_eq {s : MemoryManager} {pid sz : Nat}
    {mem' : List Block} {blk : Block}
    (h : segFindAndClaim pid sz s.memory = some (mem', blk)) :
    _allocate_process_segmentation s pid sz =
      (_log_event (_update_stats { s with
          memory := mem',
          page_table := markFramesRange (some pid) (blk.start / s.page_size)
            (blk.«end» / s.page_size) s.page_table,
          allocated_processes := dictInsert pid
            (ProcInfo.segmentation sz blk.start blk.«end»)
            s.allocated_processes })
        pid "Allocation"
        ("Allocated segment of size " ++ toString sz ++ " at address " ++
         toString blk.start), true) := by
  rw [_allocate_process_segmentation, h]

theorem dealloc_none_eq {s : MemoryManager} {pid : Nat}
    (h : dictLookup pid s.allocated_processes = none) :
    deallocate_process s pid = (s, false) := by
  rw [deallocate_process, h]

theorem dealloc_paging_eq {s : MemoryManager} {pid sz : Nat} {fr : List Nat}
    (h : dictLookup pid s.allocated_processes = some (ProcInfo.paging sz fr)) :
    deallocate_process s pid =
      (_log_event (_update_stats { s with
          page_table := freeFramesByIds fr s.page_table,
          memory := _update_memory_from_page_table
            (freeFramesByIds fr s.page_table),
          allocated_processes := dictErase pid s.allocated_processes })
        pid "Deallocation" "Process removed from memory", true) := by
  rw [deallocate_process, h]

theorem dealloc_seg_none_eq {s : MemoryManager} {pid sz st en : Nat}
    (h : dictLookup pid s.allocated_processes =
      some (ProcInfo.segmentation sz st en))
    (hres : (segFreeFirst pid s.memory).2 = none) :
    deallocate_process s pid =
      (_log_event (_update_stats { s with
          memory := _merge_free_blocks (segFreeFirst pid s.memory).1,
          allocated_processes := dictErase pid s.allocated_processes })
        pid "Deallocation" "Process removed from memory", true) := by
  rw [deallocate_process, h]
  simp only [hres]

theorem dealloc_seg_some_eq {s : MemoryManager} {pid sz st en : Nat}
    {blk : Block}
    (h : dictLookup pid s.allocated_processes =
      some (ProcInfo.segmentation sz st en))
    (hres : (segFreeFirst pid s.memory).2 = some blk) :
    deallocate_process s pid =
      (_log_event (_update_stats { s with
          memory := _merge_free_blocks (segFreeFirst pid s.memory).1,
          page_table := markFramesRange none (blk.start / s.page_size)
            (blk.«end» / s.page_size) s.page_table,
          allocated_processes := dictErase pid s.allocated_processes })
        pid "Deallocation" "Process removed from memory", true) := by
  rw [deallocate_process, h]
  simp only [hres]

/-! ## Remaining auxiliary lemmas -/

theorem pt_id_inj {pt : List Frame}
    (h : pt.Pairwise fun f g => f.frame_id < g.frame_id) :
    ∀ f ∈ pt, ∀ g ∈ pt, f.frame_id = g.frame_id → f = g := by
  induction pt with
  | nil => simp
  | cons c cs ih =>
    rw [List.pairwise_cons] at h
    intro f hf g hg hfg
    rcases List.mem_cons.mp hf with rfl | hf' <;>
      rcases List.mem_cons.mp hg with rfl | hg'
    · rfl
    · exact absurd hfg (Nat.ne_of_lt (h.1 g hg'))
    · exact absurd hfg.symm (Nat.ne_of_lt (h.1 f hf'))
    · exact ih h.2 f hf' g hg' hfg

theorem mem_dictErase_ne {pid : Nat} {pr : Nat × ProcInfo} :
    ∀ {l : List (Nat × ProcInfo)}, (l.map Prod.fst).Nodup →
      pr ∈ dictErase pid l → pr.1 ≠ pid := by
  intro l
  induction l with
  | nil => intro _ h; cases h
  | cons c rest ih =>
    obtain ⟨q, i⟩ := c
    intro hnd h
    simp only [List.map_cons, List.nodup_cons] at hnd
    by_cases hq : q = pid
    · subst hq
      rw [dictErase, if_pos rfl] at h
      intro hc
      apply hnd.1
      exact List.mem_map.mpr ⟨pr, h, hc⟩
    · rw [dictErase, if_neg hq] at h
      rcases List.mem_cons.mp h with rfl | h'
      · exact hq
      · exact ih hnd.2 h'

theorem mem_of_getLast?_eq {α : Type} {l : List α} {x : α}
    (h : l.getLast? = some x) : x ∈ l := by
  obtain ⟨hne, hx⟩ :=
    List.mem_getLast?_eq_getLast (show x ∈ l.getLast? from h)
  rw [hx]
  exact List.getLast_mem hne

theorem sepHetero_append {l1 l2 : List Block} :
    sepHetero (l1 ++ l2) ↔
      sepHetero l1 ∧ sepHetero l2 ∧
        (∀ x y, l1.getLast? = some x → l2.head? = some y →
          (x.process_id = none ∨ x.process_id ≠ y.process_id)) := by
  induction l1 with
  | nil =>
    simp only [List.nil_append, List.getLast?_nil]
    constructor
    · intro h
      exact ⟨trivial, h, by simp⟩
    · rintro ⟨-, h, -⟩
      exact h
  | cons b bs ih =>
    rw [List.cons_append, sepHetero_cons, ih, sepHetero_cons]
    cases bs with
    | nil =>
      simp only [List.nil_append, List.head?_nil, List.getLast?_singleton,
        List.getLast?_nil]
      constructor
      · rintro ⟨hh, -, h2, -⟩
        refine ⟨⟨fun c hc => absurd hc (by simp), trivial⟩, h2, ?_⟩
        rintro x y hx hy
        cases hx
        exact hh y hy
      · rintro ⟨-, h2, hj⟩
        exact ⟨fun c hc => hj b c rfl hc, trivial, h2, by simp⟩
    | cons c cs =>
      simp only [List.cons_append, List.head?_cons, List.getLast?_cons_cons]
      constructor
      · rintro ⟨hh, h1, h2, hj⟩
        exact ⟨⟨fun d hd => by cases hd; exact hh c rfl, h1⟩, h2, hj⟩
      · rintro ⟨⟨hh, h1⟩, h2, hj⟩
        exact ⟨fun d hd => by cases hd; exact hh c rfl, h1, h2, hj⟩

/-! ## Invariant preservation: the four engine mutations -/

theorem EngineInv_alloc_paging {used : List Nat} {s : MemoryManager}
    {pid sz : Nat} (inv : EngineInv used s) (hfresh : pid ∉ used) :
    EngineInv (pid :: used) (_allocate_process_paging s pid sz).1 := by
  have hmono : ∀ x ∈ used, x ∈ pid :: used :=
    fun x hx => List.mem_cons_of_mem pid hx
  by_cases hfail : (s.page_table.filter fun f => f.process_id = none).length <
      (sz + s.page_size - 1) / s.page_size
  · rw [alloc_paging_fail_eq hfail]
    exact EngineInv_log (EngineInv_mono inv hmono)
  · rw [alloc_paging_success_eq hfail]
    apply EngineInv_log
    apply EngineInv_stats
    set k := (sz + s.page_size - 1) / s.page_size with hk
    set pt' := claimFreeFrames pid k s.page_table with hpt'
    have hfreshf : ∀ f ∈ s.page_table, f.process_id ≠ some pid := by
      intro f hf hc
      exact hfresh (inv.fOwn f hf pid hc)
    have hcanon' : PtCanon s.page_size pt' :=
      claimFreeFrames_ptCanonFrom inv.ptcanon
    have hlen' : pt'.length = s.page_table.length := claimFreeFrames_length
    have hne' : pt' ≠ [] := by
      intro hc
      apply EngineInv_pt_nonempty inv
      rw [← List.length_eq_zero]
      rw [← hlen', hc]
      rfl
    obtain ⟨r1, r2, r3, r4⟩ := update_memory_spec inv.hp hcanon' hne'
    have hend : ptEnd s.page_size 0 pt' = s.memory_size := by
      rw [ptEnd_eq, hlen', inv.ptlen]
      simp only [Nat.zero_add]
      exact inv.hdvd.symm
    rw [hend] at r1
    refine
      { hp := inv.hp, hN := inv.hN, hdvd := inv.hdvd
        ptcanon := hcanon'
        ptlen := by rw [hlen', inv.ptlen]
        chain := r1
        sep := r2
        bOwn := ?_, fOwn := ?_, regOwn := ?_, regNodup := ?_
        pagingRec := ?_, pagingCover := ?_ }
    · intro b hb q hq
      obtain ⟨f, hf, hfp⟩ := r3 b hb
      rw [hq] at hfp
      rcases claimFreeFrames_owners hf hfp.symm with h | ⟨f0, hf0, hf0q⟩
      · rw [h]; exact List.mem_cons_self _ _
      · exact List.mem_cons_of_mem pid (inv.fOwn f0 hf0 q hf0q)
    · intro f hf q hq
      rcases claimFreeFrames_owners hf hq with h | ⟨f0, hf0, hf0q⟩
      · rw [h]; exact List.mem_cons_self _ _
      · exact List.mem_cons_of_mem pid (inv.fOwn f0 hf0 q hf0q)
    · intro pr hpr
      rcases mem_dictInsert hpr with h | h
      · exact List.mem_cons_of_mem pid (inv.regOwn pr h)
      · rw [h]; exact List.mem_cons_self _ _
    · exact dictInsert_keys_nodup inv.regNodup
    · intro q sz' fr' hq i
      rcases mem_dictInsert hq with h | h
      · have hqne : q ≠ pid := by
          intro hc
          rw [hc] at h
          exact hfresh (inv.regOwn _ h)
        rw [inv.pagingRec q sz' fr' h i]
        constructor
        · rintro ⟨f, hf, hfi, hfp⟩
          exact ⟨f, (claimFreeFrames_other hqne hfp).mpr hf, hfi, hfp⟩
        · rintro ⟨f, hf, hfi, hfp⟩
          exact ⟨f, (claimFreeFrames_other hqne hfp).mp hf, hfi, hfp⟩
      · have : q = pid ∧ sz' = sz ∧
            fr' = claimedFrameIds k s.page_table := by
          have h1 := congrArg Prod.fst h
          have h2 := congrArg Prod.snd h
          simp only at h1 h2
          cases h2
          exact ⟨h1, rfl, rfl⟩
        obtain ⟨rfl, -, rfl⟩ := this
        exact (claimFreeFrames_new hfreshf i).symm
    · intro q sz' fr' hq f hf hfp
      obtain ⟨b, hb, hbp, hbs, hbe⟩ := r4 f hf
      exact ⟨b, hb, by rw [hbp, hfp], hbs, hbe⟩

theorem EngineInv_alloc_seg {used : List Nat} {s : MemoryManager}
    {pid sz : Nat} (inv : EngineInv used s) (hsz : 0 < sz)
    (hfresh : pid ∉ used) :
    EngineInv (pid :: used) (_allocate_process_segmentation s pid sz).1 := by
  have hmono : ∀ x ∈ used, x ∈ pid :: used :=
    fun x hx => List.mem_cons_of_mem pid hx
  rcases hfind : segFindAndClaim pid sz s.memory with - | ⟨mem', blk⟩
  · rw [alloc_seg_none_eq hfind]
    exact EngineInv_log (EngineInv_mono inv hmono)
  · rw [alloc_seg_some_eq hfind]
    apply EngineInv_log
    apply EngineInv_stats
    obtain ⟨l1, F, l2, e1, e2, e3, e4, e5, e6, e7, e8⟩ :=
      segFindAndClaim_some hfind
    have hchain0 := inv.chain
    rw [e1] at hchain0
    obtain ⟨m, hcl1, hcF⟩ := BlocksOK_append.mp hchain0
    obtain ⟨hF1, hF2, hF3, hcl2⟩ := hcF
    have hsep0 := inv.sep
    rw [e1] at hsep0
    obtain ⟨hsepl1, hsepF, hjunc1⟩ := noConsecSame_append.mp hsep0
    have hsepFl2 := noConsecSame_cons.mp hsepF
    have hFmem : F ∈ s.memory := by
      rw [e1]
      exact List.mem_append.mpr (Or.inr (List.mem_cons_self F l2))
    have hblkend : blk.«end» + 1 = F.start + sz := by
      rcases e8 with ⟨hfs, hbeq, -⟩ | ⟨hlt, hbeq, -⟩
      · rw [hbeq]
        show F.«end» + 1 = F.start + sz
        omega
      · rw [hbeq]
        show F.start + sz - 1 + 1 = F.start + sz
        omega
    have hblkendle : blk.«end» ≤ F.«end» := by
      rcases e8 with ⟨hfs, hbeq, -⟩ | ⟨hlt, hbeq, -⟩
      · rw [hbeq]
      · rw [hbeq]
        show F.start + sz - 1 ≤ F.«end»
        omega
    have hsidenotpid : ∀ b : Block, b ∈ l1 ∨ b ∈ l2 →
        b.process_id ≠ some pid := by
      intro b hb hc
      apply hfresh
      apply inv.bOwn b _ pid hc
      rw [e1]
      rcases hb with hb | hb
      · exact List.mem_append.mpr (Or.inl hb)
      · exact List.mem_append.mpr (Or.inr (List.mem_cons_of_mem F hb))
    have hsafety : ∀ q, q ≠ pid →
        (∀ f ∈ s.page_table, f.process_id = some q →
          ∃ b ∈ s.memory, b.process_id = some q ∧
            b.start ≤ f.start_address ∧ f.end_address ≤ b.«end») →
        ∀ f ∈ s.page_table, f.process_id = some q →
          ¬(blk.start / s.page_size ≤ f.frame_id ∧
            f.frame_id ≤ blk.«end» / s.page_size) := by
      intro q hqne hcov f hf hfq hrange
      obtain ⟨B, hBmem, hBq, hBs, hBe⟩ := hcov f hf hfq
      obtain ⟨ha1, ha2⟩ := EngineInv_frame_addr inv f hf
      refine frame_range_safety inv.hp inv.chain hFmem ?_ hBmem hBq
        (i := f.frame_id) (s := blk.start) (e := blk.«end»)
        ?_ ?_ ?_ ?_ ?_ ?_ ?_
      · rw [e3]; simp
      · rw [e5]
      · omega
      · exact hblkendle
      · rw [← ha1]; exact hBs
      · rw [← ha2]; exact hBe
      · exact hrange.1
      · exact hrange.2
    have main : ∀ mid : List Block,
        mem' = l1 ++ mid ++ l2 →
        BlocksOK m (m + F.size) mid →
        noConsecSame mid →
        mid.head? = some blk →
        (∀ x y, mid.getLast? = some x → l2.head? = some y →
          x.process_id ≠ y.process_id) →
        (∀ b ∈ mid, b.process_id = some pid ∨ b.process_id = none) →
        EngineInv (pid :: used) { s with
          memory := mem',
          page_table := markFramesRange (some pid)
            (blk.start / s.page_size) (blk.«end» / s.page_size) s.page_table,
          allocated_processes := dictInsert pid
            (ProcInfo.segmentation sz blk.start blk.«end»)
            s.allocated_processes } := by
      intro mid hmem' hmid hsepmid hmidhead hjunc2 hmidown
      have hmidne : mid ≠ [] := by
        intro hc
        rw [hc] at hmidhead
        cases hmidhead
      have hmem'mem : ∀ b ∈ mem', b ∈ l1 ∨ b ∈ mid ∨ b ∈ l2 := by
        intro b hb
        rw [hmem'] at hb
        rcases List.mem_append.mp hb with hb' | hb'
        · rcases List.mem_append.mp hb' with h | h
          · exact Or.inl h
          · exact Or.inr (Or.inl h)
        · exact Or.inr (Or.inr hb')
      refine
        { hp := inv.hp, hN := inv.hN, hdvd := inv.hdvd
          ptcanon := markFramesRange_ptCanonFrom inv.ptcanon
          ptlen := by
            rw [show (markFramesRange (some pid) (blk.start / s.page_size)
              (blk.«end» / s.page_size) s.page_table).length =
              s.page_table.length from List.length_map _ _]
            exact inv.ptlen
          chain := ?_, sep := ?_, bOwn := ?_, fOwn := ?_, regOwn := ?_
          regNodup := dictInsert_keys_nodup inv.regNodup
          pagingRec := ?_, pagingCover := ?_ }
      · show BlocksOK 0 s.memory_size mem'
        rw [hmem', List.append_assoc]
        refine BlocksOK_append.mpr ⟨m, hcl1, ?_⟩
        exact BlocksOK_append.mpr ⟨m + F.size, hmid, hcl2⟩
      · show noConsecSame mem'
        rw [hmem', List.append_assoc]
        rw [noConsecSame_append]
        refine ⟨hsepl1, ?_, ?_⟩
        · rw [noConsecSame_append]
          refine ⟨hsepmid, hsepFl2.2, hjunc2⟩
        · intro x y hx hy
          rw [List.head?_append_of_ne_nil _ hmidne] at hy
          rw [hmidhead] at hy
          cases hy
          have hxmem : x ∈ l1 := mem_of_getLast?_eq hx
          intro hc
          apply hsidenotpid x (Or.inl hxmem)
          rw [hc, e7]
      · intro b hb q hq
        rcases hmem'mem b hb with h | h | h
        · exact hmono q (inv.bOwn b (by
            rw [e1]; exact List.mem_append.mpr (Or.inl h)) q hq)
        · rcases hmidown b h with h' | h'
          · rw [h'] at hq
            cases hq
            exact List.mem_cons_self _ _
          · rw [h'] at hq
            cases hq
        · exact hmono q (inv.bOwn b (by
            rw [e1]
            exact List.mem_append.mpr (Or.inr (List.mem_cons_of_mem F h)))
            q hq)
      · intro f hf q hq
        rcases markFramesRange_owners hf hq with h | ⟨f0, hf0, hf0q⟩
        · cases h
          exact List.mem_cons_self _ _
        · exact hmono q (inv.fOwn f0 hf0 q hf0q)
      · intro pr hpr
        rcases mem_dictInsert hpr with h | h
        · exact hmono pr.1 (inv.regOwn pr h)
        · rw [h]
          exact List.mem_cons_self _ _
      · intro q sz' fr' hq i
        rcases mem_dictInsert hq with h | h
        · have hqne : q ≠ pid := by
            intro hc
            rw [hc] at h
            exact hfresh (inv.regOwn _ h)
          have howner : some pid ≠ some q := by
            intro hc
            exact hqne (Option.some_inj.mp hc).symm
          have hs := hsafety q hqne (inv.pagingCover q sz' fr' h)
          rw [inv.pagingRec q sz' fr' h i]
          constructor
          · rintro ⟨f, hf, hfi, hfp⟩
            exact ⟨f, (markFramesRange_other howner hs f hfp).mpr hf, hfi, hfp⟩
          · rintro ⟨f, hf, hfi, hfp⟩
            exact ⟨f, (markFramesRange_other howner hs f hfp).mp hf, hfi, hfp⟩
        · exfalso
          have h2 := congrArg Prod.snd h
          simp only at h2
          cases h2
      · intro q sz' fr' hq f hf hfp
        rcases mem_dictInsert hq with h | h
        · have hqne : q ≠ pid := by
            intro hc
            rw [hc] at h
            exact hfresh (inv.regOwn _ h)
          have howner : some pid ≠ some q := by
            intro hc
            exact hqne (Option.some_inj.mp hc).symm
          have hs := hsafety q hqne (inv.pagingCover q sz' fr' h)
          have hfpt : f ∈ s.page_table :=
            (markFramesRange_other howner hs f hfp).mp hf
          obtain ⟨B, hBmem, hBq, hBs, hBe⟩ :=
            inv.pagingCover q sz' fr' h f hfpt hfp
          have hBne : B ≠ F := by
            intro hc
            rw [hc, e3] at hBq
            cases hBq
          have hBmem' : B ∈ mem' := by
            rw [e1] at hBmem
            rw [hmem']
            rcases List.mem_append.mp hBmem with h' | h'
            · exact List.mem_append.mpr (Or.inl (List.mem_append.mpr (Or.inl h')))
            · rcases List.mem_cons.mp h' with h'' | h''
              · exact absurd h'' hBne
              · exact List.mem_append.mpr (Or.inr h'')
          exact ⟨B, hBmem', hBq, hBs, hBe⟩
        · exfalso
          have h2 := congrArg Prod.snd h
          simp only at h2
          cases h2
    rcases e8 with ⟨hfs, hbeq, hl'⟩ | ⟨hlt, hbeq, hl'⟩
    · refine main [blk] (by rw [hl']; simp) ?_ trivial rfl ?_ ?_
      · refine ⟨by omega, by rw [e6]; omega, ?_, ?_⟩
        · show blk.«end» + 1 = m + blk.size
          rw [e6]
          omega
        · show BlocksOK (m + blk.size) (m + F.size) []
          rw [BlocksOK_nil, e6]
          omega
      · intro x y hx hy
        simp only [List.getLast?_singleton, Option.some_inj] at hx
        cases hx
        have hymem : y ∈ l2 := List.mem_of_mem_head? hy
        rw [e7]
        rcases hyq : y.process_id with - | q
        · simp
        · intro hc
          apply hsidenotpid y (Or.inr hymem)
          rw [hyq, ← hc]
      · intro b hb
        rcases List.mem_cons.mp hb with rfl | hb'
        · exact Or.inl e7
        · cases hb'
    · set nb : Block :=
        { start := F.start + sz, size := F.size - sz,
          «end» := F.«end», process_id := none } with hnb
      refine main [blk, nb] (by rw [hl']; simp [hnb]) ?_ ?_ rfl ?_ ?_
      · refine ⟨by omega, by rw [e6]; omega, ?_, ?_⟩
        · show blk.«end» + 1 = m + blk.size
          rw [e6]
          omega
        · rw [e6]
          refine ⟨?_, ?_, ?_, ?_⟩
          · show F.start + sz = m + sz
            omega
          · show 0 < F.size - sz
            omega
          · show F.«end» + 1 = m + sz + (F.size - sz)
            omega
          · show BlocksOK (m + sz + (F.size - sz)) (m + F.size) []
            rw [BlocksOK_nil]
            omega
      · refine ⟨?_, trivial⟩
        rw [e7]
        simp [hnb]
      · intro x y hx hy
        simp only [List.getLast?_cons_cons, List.getLast?_singleton,
          Option.some_inj] at hx
        cases hx
        have hyne : F.process_id ≠ y.process_id := hsepFl2.1 y hy
        rw [e3] at hyne
        show nb.process_id ≠ y.process_id
        simp only [hnb]
        exact hyne
      · intro b hb
        rcases List.mem_cons.mp hb with rfl | hb'
        · exact Or.inl e7
        · rcases List.mem_cons.mp hb' with rfl | hb''
          · exact Or.inr rfl
          · cases hb''

theorem EngineInv_dealloc {used : List Nat} {s : MemoryManager} {pid : Nat}
    (inv : EngineInv used s) : EngineInv used (deallocate_process s pid).1 := by
  rcases hlook : dictLookup pid s.allocated_processes with - | info
  · rw [dealloc_none_eq hlook]
    exact inv
  · rcases info with ⟨sz, fr⟩ | ⟨sz, st, en⟩
    · -- paging deallocation
      rw [dealloc_paging_eq hlook]
      apply EngineInv_log
      apply EngineInv_stats
      have hreg : (pid, ProcInfo.paging sz fr) ∈ s.allocated_processes :=
        dictLookup_mem hlook
      have hcanon' : PtCanon s.page_size (freeFramesByIds fr s.page_table) :=
        freeFramesByIds_ptCanonFrom inv.ptcanon
      have hlen' : (freeFramesByIds fr s.page_table).length =
          s.page_table.length := List.length_map _ _
      have hne' : freeFramesByIds fr s.page_table ≠ [] := by
        intro hc
        apply EngineInv_pt_nonempty inv
        rw [← List.length_eq_zero, ← hlen', hc]
        rfl
      obtain ⟨r1, r2, r3, r4⟩ := update_memory_spec inv.hp hcanon' hne'
      have hend : ptEnd s.page_size 0 (freeFramesByIds fr s.page_table) =
          s.memory_size := by
        rw [ptEnd_eq, hlen', inv.ptlen]
        simp only [Nat.zero_add]
        exact inv.hdvd.symm
      rw [hend] at r1
      have hsafe : ∀ q, q ≠ pid → ∀ f ∈ s.page_table,
          f.process_id = some q → f.frame_id ∉ fr := by
        intro q hqne f hf hfq hin
        obtain ⟨f', hf', hfid, hfp⟩ :=
          (inv.pagingRec pid sz fr hreg f.frame_id).mp hin
        have : f = f' :=
          pt_id_inj (PtCanonFrom_pairwise inv.ptcanon) f hf f' hf' hfid.symm
        rw [← this] at hfp
        rw [hfq] at hfp
        exact hqne (Option.some_inj.mp hfp)
      refine
        { hp := inv.hp, hN := inv.hN, hdvd := inv.hdvd
          ptcanon := hcanon'
          ptlen := by rw [hlen', inv.ptlen]
          chain := r1, sep := r2
          bOwn := ?_, fOwn := ?_, regOwn := ?_
          regNodup := dictErase_keys_nodup inv.regNodup
          pagingRec := ?_, pagingCover := ?_ }
      · intro b hb q hq
        obtain ⟨f, hf, hfp⟩ := r3 b hb
        rw [hq] at hfp
        obtain ⟨f0, hf0, hf0q⟩ := freeFramesByIds_owners hf hfp.symm
        exact inv.fOwn f0 hf0 q hf0q
      · intro f hf q hq
        obtain ⟨f0, hf0, hf0q⟩ := freeFramesByIds_owners hf hq
        exact inv.fOwn f0 hf0 q hf0q
      · intro pr hpr
        exact inv.regOwn pr (mem_dictErase hpr)
      · intro q sz' fr' hq i
        have hqne : q ≠ pid := mem_dictErase_ne inv.regNodup hq
        have hq' := mem_dictErase hq
        rw [inv.pagingRec q sz' fr' hq' i]
        constructor
        · rintro ⟨f, hf, hfi, hfp⟩
          exact ⟨f, (freeFramesByIds_other (hsafe q hqne) f hfp).mpr hf,
            hfi, hfp⟩
        · rintro ⟨f, hf, hfi, hfp⟩
          exact ⟨f, (freeFramesByIds_other (hsafe q hqne) f hfp).mp hf,
            hfi, hfp⟩
      · intro q sz' fr' hq f hf hfp
        obtain ⟨b, hb, hbp, hbs, hbe⟩ := r4 f hf
        exact ⟨b, hb, by rw [hbp, hfp], hbs, hbe⟩
    · -- segmentation deallocation
      rcases hres : (segFreeFirst pid s.memory).2 with - | blk
      · rw [dealloc_seg_none_eq hlook hres]
        apply EngineInv_log
        apply EngineInv_stats
        obtain ⟨hid, -⟩ := segFreeFirst_none hres
        rw [hid]
        obtain ⟨m1, m2, m3, m4⟩ :=
          merge_free_blocks_spec inv.chain (noConsecSame_sepHetero inv.sep)
        refine
          { hp := inv.hp, hN := inv.hN, hdvd := inv.hdvd
            ptcanon := inv.ptcanon, ptlen := inv.ptlen
            chain := m1, sep := m2
            bOwn := ?_, fOwn := inv.fOwn, regOwn := ?_
            regNodup := dictErase_keys_nodup inv.regNodup
            pagingRec := ?_, pagingCover := ?_ }
        · intro b hb q hq
          obtain ⟨b', hb', hb'q⟩ := m3 b hb q hq
          exact inv.bOwn b' hb' q hb'q
        · intro pr hpr
          exact inv.regOwn pr (mem_dictErase hpr)
        · intro q sz' fr' hq i
          exact inv.pagingRec q sz' fr' (mem_dictErase hq) i
        · intro q sz' fr' hq f hf hfp
          obtain ⟨B, hBmem, hBq, hBs, hBe⟩ :=
            inv.pagingCover q sz' fr' (mem_dictErase hq) f hf hfp
          refine ⟨B, m4 B hBmem ?_, hBq, hBs, hBe⟩
          rw [hBq]
          simp
      · rw [dealloc_seg_some_eq hlook hres]
        apply EngineInv_log
        apply EngineInv_stats
        obtain ⟨hblkpid, l1, l2, e1, efree⟩ := segFreeFirst_some hres
        rw [efree]
        have hchain0 := inv.chain
        rw [e1] at hchain0
        obtain ⟨m, hcl1, hb1, hb2, hb3, hcl2⟩ := BlocksOK_append.mp hchain0
        have hblkmem : blk ∈ s.memory := by
          rw [e1]
          exact List.mem_append.mpr (Or.inr (List.mem_cons_self blk l2))
        have hchainf : BlocksOK 0 s.memory_size
            (l1 ++ { blk with process_id := none } :: l2) :=
          BlocksOK_append.mpr ⟨m, hcl1, hb1, hb2, hb3, hcl2⟩
        have hsep0 := inv.sep
        rw [e1] at hsep0
        obtain ⟨hsepl1, hsepbl2, hjunc1⟩ := noConsecSame_append.mp hsep0
        have hsepf : sepHetero (l1 ++ { blk with process_id := none } :: l2) := by
          rw [sepHetero_append]
          refine ⟨noConsecSame_sepHetero hsepl1, ?_, ?_⟩
          · rw [sepHetero_cons]
            exact ⟨fun c hc => Or.inl rfl,
              noConsecSame_sepHetero (noConsecSame_cons.mp hsepbl2).2⟩
          · intro x y hx hy
            simp only [List.head?_cons, Option.some_inj] at hy
            rcases hxq : x.process_id with - | q
            · exact Or.inl rfl
            · refine Or.inr ?_
              rw [← hy]
              simp
        obtain ⟨m1, m2, m3, m4⟩ := merge_free_blocks_spec hchainf hsepf
        have hsafe : ∀ q, q ≠ pid →
            (∀ f ∈ s.page_table, f.process_id = some q →
              ∃ b ∈ s.memory, b.process_id = some q ∧
                b.start ≤ f.start_address ∧ f.end_address ≤ b.«end») →
            ∀ f ∈ s.page_table, f.process_id = some q →
              ¬(blk.start / s.page_size ≤ f.frame_id ∧
                f.frame_id ≤ blk.«end» / s.page_size) := by
          intro q hqne hcov f hf hfq hrange
          obtain ⟨B, hBmem, hBq, hBs, hBe⟩ := hcov f hf hfq
          obtain ⟨ha1, ha2⟩ := EngineInv_frame_addr inv f hf
          have hblkb := BlocksOK_mem_bounds inv.chain hblkmem
          refine frame_range_safety inv.hp inv.chain hblkmem ?_ hBmem hBq
            (i := f.frame_id) (s := blk.start) (e := blk.«end»)
            (le_refl _) ?_ (le_refl _) ?_ ?_ hrange.1 hrange.2
          · rw [hblkpid]
            intro hc
            exact hqne (Option.some_inj.mp hc).symm
          · omega
          · rw [← ha1]; exact hBs
          · rw [← ha2]; exact hBe
        refine
          { hp := inv.hp, hN := inv.hN, hdvd := inv.hdvd
            ptcanon := markFramesRange_ptCanonFrom inv.ptcanon
            ptlen := by
              rw [show (markFramesRange none (blk.start / s.page_size)
                (blk.«end» / s.page_size) s.page_table).length =
                s.page_table.length from List.length_map _ _]
              exact inv.ptlen
            chain := m1, sep := m2
            bOwn := ?_, fOwn := ?_, regOwn := ?_
            regNodup := dictErase_keys_nodup inv.regNodup
            pagingRec := ?_, pagingCover := ?_ }
        · intro b hb q hq
          obtain ⟨b', hb', hb'q⟩ := m3 b hb q hq
          rcases List.mem_append.mp hb' with h | h
          · exact inv.bOwn b' (by
              rw [e1]; exact List.mem_append.mpr (Or.inl h)) q hb'q
          · rcases List.mem_cons.mp h with rfl | h'
            · cases hb'q
            · exact inv.bOwn b' (by
                rw [e1]
                exact List.mem_append.mpr (Or.inr (List.mem_cons_of_mem _ h')))
                q hb'q
        · intro f hf q hq
          rcases markFramesRange_owners hf hq with h | ⟨f0, hf0, hf0q⟩
          · cases h
          · exact inv.fOwn f0 hf0 q hf0q
        · intro pr hpr
          exact inv.regOwn pr (mem_dictErase hpr)
        · intro q sz' fr' hq i
          have hqne : q ≠ pid := mem_dictErase_ne inv.regNodup hq
          have hq' := mem_dictErase hq
          have howner : (none : Option Nat) ≠ some q := by simp
          have hs := hsafe q hqne (inv.pagingCover q sz' fr' hq')
          rw [inv.pagingRec q sz' fr' hq' i]
          constructor
          · rintro ⟨f, hf, hfi, hfp⟩
            exact ⟨f, (markFramesRange_other howner hs f hfp).mpr hf, hfi, hfp⟩
          · rintro ⟨f, hf, hfi, hfp⟩
            exact ⟨f, (markFramesRange_other howner hs f hfp).mp hf, hfi, hfp⟩
        · intro q sz' fr' hq f hf hfp
          have hqne : q ≠ pid := mem_dictErase_ne inv.regNodup hq
          have hq' := mem_dictErase hq
          have howner : (none : Option Nat) ≠ some q := by simp
          have hs := hsafe q hqne (inv.pagingCover q sz' fr' hq')
          have hfpt : f ∈ s.page_table :=
            (markFramesRange_other howner hs f hfp).mp hf
          obtain ⟨B, hBmem, hBq, hBs, hBe⟩ :=
            inv.pagingCover q sz' fr' hq' f hfpt hfp
          have hBne : B ≠ blk := by
            intro hc
            rw [hc, hblkpid] at hBq
            exact hqne (Option.some_inj.mp hBq).symm
          have hBmemf : B ∈ l1 ++ { blk with process_id := none } :: l2 := by
            rw [e1] at hBmem
            rcases List.mem_append.mp hBmem with h | h
            · exact List.mem_append.mpr (Or.inl h)
            · rcases List.mem_cons.mp h with h' | h'
              · exact absurd h' hBne
              · exact List.mem_append.mpr (Or.inr (List.mem_cons_of_mem _ h'))
          refine ⟨B, m4 B hBmemf ?_, hBq, hBs, hBe⟩
          rw [hBq]
          simp

/-! ## The invariant holds initially and along every well-formed trace -/

theorem EngineInv_init {N p : Nat} (hp : 0 < p) (hN : 0 < N) (hdvd : p ∣ N) :
    EngineInv [] (MemoryManager.init N p) := by
  refine
    { hp := hp, hN := hN
      hdvd := (Nat.div_mul_cancel hdvd).symm
      ptcanon := init_ptCanon N p
      ptlen := by
        show ((List.range (N / p)).map _).length = N / p
        rw [List.length_map, List.length_range]
      chain := ?_, sep := trivial
      bOwn := ?_, fOwn := ?_
      regOwn := by simp [MemoryManager.init]
      regNodup := by simp [MemoryManager.init]
      pagingRec := by simp [MemoryManager.init]
      pagingCover := by simp [MemoryManager.init] }
  · show BlocksOK 0 N
      [{ start := 0, «end» := N - 1, size := N, process_id := none }]
    refine ⟨rfl, hN, by simp only; omega, ?_⟩
    show 0 + N = N
    omega
  · intro b hb q hq
    simp only [MemoryManager.init, List.mem_singleton] at hb
    rw [hb] at hq
    cases hq
  · intro f hf q hq
    simp only [MemoryManager.init, List.mem_map, List.mem_range] at hf
    obtain ⟨i, -, hfi⟩ := hf
    rw [← hfi] at hq
    cases hq

theorem EngineInv_trace : ∀ (cs : List Cmd) (used : List Nat)
    (s : MemoryManager), EngineInv used s →
    sizesPositive cs → (allocPids cs).Nodup →
    (∀ x ∈ allocPids cs, x ∉ used) →
    EngineInv (used ++ allocPids cs) (execTrace s cs) := by
  intro cs
  induction cs with
  | nil =>
    intro used s inv _ _ _
    simpa [execTrace, allocPids] using inv
  | cons c cs ih =>
    intro used s inv hpos hnodup hdisj
    have hpos' : sizesPositive cs :=
      fun d hd => hpos d (List.mem_cons_of_mem c hd)
    have hexec : execTrace s (c :: cs) = execTrace (execCmd s c) cs := rfl
    rw [hexec]
    cases c with
    | alloc pid sz mth =>
      have hpids : allocPids (Cmd.alloc pid sz mth :: cs) =
          pid :: allocPids cs := rfl
      rw [hpids] at hnodup hdisj ⊢
      have hfresh : pid ∉ used := hdisj pid (List.mem_cons_self _ _)
      have hnodup' : (allocPids cs).Nodup := (List.nodup_cons.mp hnodup).2
      have hpidnotin : pid ∉ allocPids cs := (List.nodup_cons.mp hnodup).1
      have hstep : EngineInv (pid :: used) (execCmd s (Cmd.alloc pid sz mth)) := by
        show EngineInv (pid :: used) (allocate_process s pid sz mth).1
        cases mth with
        | PAGING => exact EngineInv_alloc_paging inv hfresh
        | SEGMENTATION =>
          have hsz : 0 < sz := hpos _ (List.mem_cons_self _ _)
          exact EngineInv_alloc_seg inv hsz hfresh
      have hdisj' : ∀ x ∈ allocPids cs, x ∉ pid :: used := by
        intro x hx
        rw [List.mem_cons]
        push_neg
        constructor
        · intro hc
          rw [hc] at hx
          exact hpidnotin hx
        · exact hdisj x (List.mem_cons_of_mem _ hx)
      have := ih (pid :: used) _ hstep hpos' hnodup' hdisj'
      refine EngineInv_mono this ?_
      intro x hx
      simp only [List.mem_append, List.mem_cons] at hx ⊢
      tauto
    | dealloc pid =>
      have hpids : allocPids (Cmd.dealloc pid :: cs) = allocPids cs := rfl
      rw [hpids] at hnodup hdisj ⊢
      exact ih used _ (EngineInv_dealloc inv) hpos' hnodup hdisj

/-! ## From the chain predicate to the spec-level block properties -/

theorem BlocksOK_chain_gapless {a N : Nat} : ∀ {l : List Block},
    BlocksOK a N l → l.Chain' fun b c => b.«end» + 1 = c.start := by
  intro l
  induction l generalizing a with
  | nil => intro; trivial
  | cons b bs ih =>
    intro h
    obtain ⟨h1, h2, h3, h4⟩ := h
    cases bs with
    | nil => simp
    | cons c cs =>
      rw [List.chain'_cons]
      have g1 := h4.1
      exact ⟨by omega, ih h4⟩

theorem noConsecSame_chain' : ∀ {l : List Block},
    noConsecSame l → l.Chain' fun b c => b.process_id ≠ c.process_id := by
  intro l
  induction l with
  | nil => intro; trivial
  | cons b bs ih =>
    intro h
    cases bs with
    | nil => simp
    | cons c cs =>
      rw [List.chain'_cons]
      exact ⟨h.1, ih h.2⟩

theorem BlocksOK_ne_nil {a N : Nat} {l : List Block} (h : BlocksOK a N l)
    (hlt : a < N) : l ≠ [] := by
  intro hc
  rw [hc] at h
  exact absurd h (Nat.ne_of_lt hlt)

theorem BlocksOK_head_start {a N : Nat} {l : List Block} (h : BlocksOK a N l) :
    ∀ hne : l ≠ [], (l.head hne).start = a := by
  intro hne
  cases l with
  | nil => exact absurd rfl hne
  | cons b bs => exact h.1

theorem BlocksOK_getLast_end {a N : Nat} : ∀ {l : List Block},
    BlocksOK a N l → ∀ hne : l ≠ [], (l.getLast hne).«end» = N - 1 := by
  intro l
  induction l generalizing a with
  | nil => intro h hne; exact absurd rfl hne
  | cons b bs ih =>
    intro h hne
    obtain ⟨h1, h2, h3, h4⟩ := h
    cases bs with
    | nil =>
      simp only [List.getLast_singleton]
      obtain rfl : a + b.size = N := h4
      omega
    | cons c cs =>
      rw [List.getLast_cons (List.cons_ne_nil c cs)]
      exact ih h4 (List.cons_ne_nil c cs)

/-- No engine command ever changes memory_size or page_size. -/
theorem execCmd_config (s : MemoryManager) (c : Cmd) :
    (execCmd s c).memory_size = s.memory_size ∧
    (execCmd s c).page_size = s.page_size := by
  cases c with
  | alloc pid sz mth =>
    cases mth with
    | PAGING =>
      show (_allocate_process_paging s pid sz).1.memory_size = s.memory_size ∧
        (_allocate_process_paging s pid sz).1.page_size = s.page_size
      by_cases h : (s.page_table.filter fun f => f.process_id = none).length <
          (sz + s.page_size - 1) / s.page_size
      · rw [alloc_paging_fail_eq h]
        exact ⟨rfl, rfl⟩
      · rw [alloc_paging_success_eq h]
        exact ⟨rfl, rfl⟩
    | SEGMENTATION =>
      show (_allocate_process_segmentation s pid sz).1.memory_size =
          s.memory_size ∧
        (_allocate_process_segmentation s pid sz).1.page_size = s.page_size
      rcases hfind : segFindAndClaim pid sz s.memory with - | ⟨mem', blk⟩
      · rw [alloc_seg_none_eq hfind]
        exact ⟨rfl, rfl⟩
      · rw [alloc_seg_some_eq hfind]
        exact ⟨rfl, rfl⟩
  | dealloc pid =>
    show (deallocate_process s pid).1.memory_size = s.memory_size ∧
      (deallocate_process s pid).1.page_size = s.page_size
    rcases hlook : dictLookup pid s.allocated_processes with - | info
    · rw [dealloc_none_eq hlook]
      exact ⟨rfl, rfl⟩
    · rcases info with ⟨sz, fr⟩ | ⟨sz, st, en⟩
      · rw [dealloc_paging_eq hlook]
        exact ⟨rfl, rfl⟩
      · rcases hres : (segFreeFirst pid s.memory).2 with - | blk
        · rw [dealloc_seg_none_eq hlook hres]
          exact ⟨rfl, rfl⟩
        · rw [dealloc_seg_some_eq hlook hres]
          exact ⟨rfl, rfl⟩

theorem execTrace_config : ∀ (cs : List Cmd) (s : MemoryManager),
    (execTrace s cs).memory_size = s.memory_size ∧
    (execTrace s cs).page_size = s.page_size := by
  intro cs
  induction cs with
  | nil => intro s; exact ⟨rfl, rfl⟩
  | cons c cs ih =>
    intro s
    have h1 := execCmd_config s c
    have h2 := ih (execCmd s c)
    exact ⟨h2.1.trans h1.1, h2.2.trans h1.2⟩

/-- The invariant holds in every state reached from a valid construction
by a trace of positive-size commands whose allocation pids are pairwise
distinct. -/
theorem EngineInv_reachable {N p : Nat} (hp : 0 < p) (hN : 0 < N)
    (hdvd : p ∣ N) {cs : List Cmd} (hpos : sizesPositive cs)
    (hnodup : (allocPids cs).Nodup) :
    EngineInv (allocPids cs) (execTrace (MemoryManager.init N p) cs) := by
  have := EngineInv_trace cs [] (MemoryManager.init N p)
    (EngineInv_init hp hN hdvd) hpos hnodup (by simp)
  simpa using this

/-- Claim C2: in every state reachable from a valid construction
(positive memory_size and page_size, page_size dividing memory_size) by
any sequence of allocate/deallocate commands with positive sizes and
pairwise distinct allocation pids, the block sequence returned by the
blocks query is an ordered, gapless chain (consecutive blocks satisfy
end + 1 = start, the first block starts at 0, the last ends at
memory_size - 1) covering exactly [0, memory_size), its block sizes sum
to memory_size, and no two consecutive blocks have the same owner. -/
theorem claim_C2 (N p : Nat) (hp : 0 < p) (hN : 0 < N) (hdvd : p ∣ N)
    (cs : List Cmd) (hpos : sizesPositive cs)
    (hnodup : (allocPids cs).Nodup) :
    BlocksOK 0 N (get_memory_snapshot (execTrace (MemoryManager.init N p) cs)) ∧
    (get_memory_snapshot (execTrace (MemoryManager.init N p) cs)).Chain'
      (fun b c => b.«end» + 1 = c.start) ∧
    get_memory_snapshot (execTrace (MemoryManager.init N p) cs) ≠ [] ∧
    (∀ hne : get_memory_snapshot (execTrace (MemoryManager.init N p) cs) ≠ [],
      ((get_memory_snapshot
        (execTrace (MemoryManager.init N p) cs)).head hne).start = 0 ∧
      ((get_memory_snapshot
        (execTrace (MemoryManager.init N p) cs)).getLast hne).«end» = N - 1) ∧
    ((get_memory_snapshot
      (execTrace (MemoryManager.init N p) cs)).map Block.size).sum = N ∧
    noConsecSame (get_memory_snapshot (execTrace (MemoryManager.init N p) cs)) := by
  have hinv := EngineInv_reachable hp hN hdvd hpos hnodup
  have hsz := (execTrace_config cs (MemoryManager.init N p)).1
  have hN' : (execTrace (MemoryManager.init N p) cs).memory_size = N := hsz
  have hchain := hinv.chain
  rw [hN'] at hchain
  have hsep := hinv.sep
  have hne : get_memory_snapshot (execTrace (MemoryManager.init N p) cs) ≠ [] :=
    BlocksOK_ne_nil hchain hN
  refine ⟨hchain, BlocksOK_chain_gapless hchain, hne, ?_, ?_, hsep⟩
  · intro hne'
    exact ⟨BlocksOK_head_start hchain hne', BlocksOK_getLast_end hchain hne'⟩
  · have h := BlocksOK_sum hchain
    rw [Nat.zero_add] at h
    exact h

/-- Concrete witness for claim C2: a mixed paging/segmentation trace on a
100-byte space with 10-byte pages. -/
theorem claim_C2_witness :
    BlocksOK 0 100 (get_memory_snapshot (execTrace (MemoryManager.init 100 10)
      [Cmd.alloc 1 25 AllocationMethod.SEGMENTATION,
       Cmd.alloc 2 10 AllocationMethod.PAGING, Cmd.dealloc 1])) ∧
    (get_memory_snapshot (execTrace (MemoryManager.init 100 10)
      [Cmd.alloc 1 25 AllocationMethod.SEGMENTATION,
       Cmd.alloc 2 10 AllocationMethod.PAGING, Cmd.dealloc 1])).Chain'
      (fun b c => b.«end» + 1 = c.start) ∧
    get_memory_snapshot (execTrace (MemoryManager.init 100 10)
      [Cmd.alloc 1 25 AllocationMethod.SEGMENTATION,
       Cmd.alloc 2 10 AllocationMethod.PAGING, Cmd.dealloc 1]) ≠ [] ∧
    (∀ hne : get_memory_snapshot (execTrace (MemoryManager.init 100 10)
      [Cmd.alloc 1 25 AllocationMethod.SEGMENTATION,
       Cmd.alloc 2 10 AllocationMethod.PAGING, Cmd.dealloc 1]) ≠ [],
      ((get_memory_snapshot (execTrace (MemoryManager.init 100 10)
        [Cmd.alloc 1 25 AllocationMethod.SEGMENTATION,
         Cmd.alloc 2 10 AllocationMethod.PAGING,
         Cmd.dealloc 1])).head hne).start = 0 ∧
      ((get_memory_snapshot (execTrace (MemoryManager.init 100 10)
        [Cmd.alloc 1 25 AllocationMethod.SEGMENTATION,
         Cmd.alloc 2 10 AllocationMethod.PAGING,
         Cmd.dealloc 1])).getLast hne).«end» = 100 - 1) ∧
    ((get_memory_snapshot (execTrace (MemoryManager.init 100 10)
      [Cmd.alloc 1 25 AllocationMethod.SEGMENTATION,
       Cmd.alloc 2 10 AllocationMethod.PAGING,
       Cmd.dealloc 1])).map Block.size).sum = 100 ∧
    noConsecSame (get_memory_snapshot (execTrace (MemoryManager.init 100 10)
      [Cmd.alloc 1 25 AllocationMethod.SEGMENTATION,
       Cmd.alloc 2 10 AllocationMethod.PAGING, Cmd.dealloc 1])) :=
  claim_C2 100 10 (by decide) (by decide) (by decide)
    [Cmd.alloc 1 25 AllocationMethod.SEGMENTATION,
     Cmd.alloc 2 10 AllocationMethod.PAGING, Cmd.dealloc 1]
    (by decide) (by decide)

theorem dictLookup_dictInsert (pid : Nat) (info : ProcInfo) :
    ∀ l : List (Nat × ProcInfo), dictLookup pid (dictInsert pid info l) =
      some info := by
  intro l
  induction l with
  | nil => simp [dictInsert, dictLookup]
  | cons c rest ih =>
    obtain ⟨q, i⟩ := c
    by_cases hq : q = pid
    · subst hq
      rw [dictInsert, if_pos rfl, dictLookup, if_pos rfl]
    · rw [dictInsert, if_neg hq, dictLookup, if_neg hq]
      exact ih

/-- Claim C1 counterexample (Scenario E as specified): on a fresh
(256, 16) engine, after allocate(1, 50, Paging), a second
allocate(1, 10, Paging) does NOT fail — it returns True and mutates the
engine — and an allocate with size 0 (a non-positive size) also returns
True instead of failing with InvalidSize. -/
theorem claim_C1_counterexample :
    (allocate_process (allocate_process (MemoryManager.init 256 16) 1 50
      AllocationMethod.PAGING).1 1 10 AllocationMethod.PAGING).2 = true ∧
    (allocate_process (allocate_process (MemoryManager.init 256 16) 1 50
      AllocationMethod.PAGING).1 1 10 AllocationMethod.PAGING).1 ≠
      (allocate_process (MemoryManager.init 256 16) 1 50
        AllocationMethod.PAGING).1 ∧
    (allocate_process (MemoryManager.init 256 16) 1 0
      AllocationMethod.PAGING).2 = true := by
  decide

/-- Claim C1, amended to match the code: allocate_process performs no
size or duplicate-pid validation at all — it dispatches directly to the
chosen strategy — so on the Scenario E input the duplicate
allocate(1, 10, Paging) succeeds, overwrites pid 1's registry entry with
the new frame set [4], leaves frames 0-3 still owned by pid 1, and
appends exactly one (success) event. -/
theorem claim_C1_amended :
    (∀ (m : MemoryManager) (pid sz : Nat),
      allocate_process m pid sz AllocationMethod.PAGING =
        _allocate_process_paging m pid sz ∧
      allocate_process m pid sz AllocationMethod.SEGMENTATION =
        _allocate_process_segmentation m pid sz) ∧
    (allocate_process (allocate_process (MemoryManager.init 256 16) 1 50
      AllocationMethod.PAGING).1 1 10 AllocationMethod.PAGING).2 = true ∧
    dictLookup 1 (allocate_process (allocate_process
      (MemoryManager.init 256 16) 1 50 AllocationMethod.PAGING).1 1 10
      AllocationMethod.PAGING).1.allocated_processes =
        some (ProcInfo.paging 10 [4]) ∧
    ((allocate_process (allocate_process (MemoryManager.init 256 16) 1 50
      AllocationMethod.PAGING).1 1 10
      AllocationMethod.PAGING).1.page_table.filter
        (fun f => f.process_id = some 1)).map Frame.frame_id =
      [0, 1, 2, 3, 4] ∧
    (allocate_process (allocate_process (MemoryManager.init 256 16) 1 50
      AllocationMethod.PAGING).1 1 10
      AllocationMethod.PAGING).1.recent_events.length = 2 := by
  refine ⟨fun m pid sz => ⟨rfl, rfl⟩, ?_⟩
  decide

/-- Claim C9 counterexample: the constructor performs no validation.
With memory_size = 10 and page_size = 3 (not a divisor), construction is
not refused: an engine instance is produced, with three frames covering
only [0, 8] and one block covering [0, 9]. -/
theorem claim_C9_counterexample :
    (MemoryManager.init 10 3).page_table.length = 3 ∧
    (MemoryManager.init 10 3).memory =
      [{ start := 0, «end» := 9, size := 10, process_id := none }] ∧
    (MemoryManager.init 10 3).page_table.map Frame.end_address =
      [2, 5, 8] := by
  decide

/-- Claim C9, amended to match the code: the constructor never fails and
always produces an instance; for valid arguments (both positive,
page_size dividing memory_size) it initializes exactly one free block
covering the whole space and memory_size / page_size free frames. -/
theorem claim_C9_amended (N p : Nat) (hp : 0 < p) (hN : 0 < N)
    (hdvd : p ∣ N) :
    (MemoryManager.init N p).memory =
      [{ start := 0, «end» := N - 1, size := N, process_id := none }] ∧
    (MemoryManager.init N p).page_table.length = N / p ∧
    (∀ f ∈ (MemoryManager.init N p).page_table, f.process_id = none) ∧
    PtCanon p (MemoryManager.init N p).page_table ∧
    (MemoryManager.init N p).allocated_processes = [] ∧
    (MemoryManager.init N p).recent_events = [] ∧
    (MemoryManager.init N p).stats = initialStats N := by
  refine ⟨rfl, ?_, ?_, init_ptCanon N p, rfl, rfl, rfl⟩
  · show ((List.range (N / p)).map _).length = N / p
    rw [List.length_map, List.length_range]
  · intro f hf
    simp only [MemoryManager.init, List.mem_map, List.mem_range] at hf
    obtain ⟨i, -, hfi⟩ := hf
    rw [← hfi]

theorem claim_C9_witness :
    (MemoryManager.init 100 10).memory =
      [{ start := 0, «end» := 99, size := 100, process_id := none }] ∧
    (MemoryManager.init 100 10).page_table.length = 10 ∧
    (∀ f ∈ (MemoryManager.init 100 10).page_table, f.process_id = none) ∧
    PtCanon 10 (MemoryManager.init 100 10).page_table ∧
    (MemoryManager.init 100 10).allocated_processes = [] ∧
    (MemoryManager.init 100 10).recent_events = [] ∧
    (MemoryManager.init 100 10).stats = initialStats 100 :=
  claim_C9_amended 100 10 (by decide) (by decide) (by decide)

/-- Claim C6 counterexample: deallocating a pid that is not allocated
returns False without appending any Event — the engine state (event log
included) is completely unchanged. -/
theorem claim_C6_counterexample :
    deallocate_process (MemoryManager.init 100 10) 1 =
      (MemoryManager.init 100 10, false) ∧
    (deallocate_process (MemoryManager.init 100 10) 1).1.recent_events
      = [] := by
  decide

/-- Claim C6, amended to match the code: every allocate call, success or
failure, appends exactly one Event (the log then keeps at most the 10
most recent entries); a deallocate appends exactly one Event when the
pid is allocated, but a ProcessNotFound deallocate returns False without
logging anything and without touching any state. -/
theorem claim_C6_amended :
    (∀ (m : MemoryManager) (pid sz : Nat) (mth : AllocationMethod),
      ∃ et d, (allocate_process m pid sz mth).1.recent_events =
        (_log_event m pid et d).recent_events) ∧
    (∀ (m : MemoryManager) (pid : Nat),
      (dictLookup pid m.allocated_processes ≠ none →
        ∃ et d, (deallocate_process m pid).1.recent_events =
          (_log_event m pid et d).recent_events) ∧
      (dictLookup pid m.allocated_processes = none →
        deallocate_process m pid = (m, false))) := by
  constructor
  · intro m pid sz mth
    cases mth with
    | PAGING =>
      show ∃ et d, (_allocate_process_paging m pid sz).1.recent_events = _
      by_cases h : (m.page_table.filter fun f => f.process_id = none).length <
          (sz + m.page_size - 1) / m.page_size
      · rw [alloc_paging_fail_eq h]
        exact ⟨_, _, rfl⟩
      · rw [alloc_paging_success_eq h]
        exact ⟨_, _, rfl⟩
    | SEGMENTATION =>
      show ∃ et d, (_allocate_process_segmentation m pid sz).1.recent_events = _
      rcases hfind : segFindAndClaim pid sz m.memory with - | ⟨mem', blk⟩
      · rw [alloc_seg_none_eq hfind]
        exact ⟨_, _, rfl⟩
      · rw [alloc_seg_some_eq hfind]
        exact ⟨_, _, rfl⟩
  · intro m pid
    constructor
    · intro hne
      rcases hlook : dictLookup pid m.allocated_processes with - | info
      · exact absurd hlook hne
      · rcases info with ⟨sz, fr⟩ | ⟨sz, st, en⟩
        · rw [dealloc_paging_eq hlook]
          exact ⟨_, _, rfl⟩
        · rcases hres : (segFreeFirst pid m.memory).2 with - | blk
          · rw [dealloc_seg_none_eq hlook hres]
            exact ⟨_, _, rfl⟩
          · rw [dealloc_seg_some_eq hlook hres]
            exact ⟨_, _, rfl⟩
    · intro hnone
      exact dealloc_none_eq hnone

theorem claim_C6_witness :
    ∃ et d, (deallocate_process (allocate_process (MemoryManager.init 100 10)
      1 30 AllocationMethod.SEGMENTATION).1 1).1.recent_events =
      (_log_event (allocate_process (MemoryManager.init 100 10) 1 30
        AllocationMethod.SEGMENTATION).1 1 et d).recent_events :=
  (claim_C6_amended.2 (allocate_process (MemoryManager.init 100 10) 1 30
    AllocationMethod.SEGMENTATION).1 1).1 (by decide)

theorem claimedFrameIds_length {n : Nat} {pt : List Frame}
    (h : n ≤ (pt.filter fun f => f.process_id = none).length) :
    (claimedFrameIds n pt).length = n := by
  rw [claimedFrameIds, List.length_map, List.length_take]
  omega

/-- Claim C8: after a successful paging allocation of a positive size,
the process's registry entry records ceil(size / page_size) frames, its
contribution to internal_fragmentation equals
ceil(size / page_size) * page_size - size (where the recorded pages_needed
is the least k with size <= k * page_size), this contribution is 0 exactly
when page_size divides size, and any segmentation entry contributes 0. -/
theorem claim_C8 (m : MemoryManager) (pid sz : Nat) (hp : 0 < m.page_size)
    (hsz : 0 < sz)
    (hsucc : (_allocate_process_paging m pid sz).2 = true) :
    ∃ fr, dictLookup pid
        (_allocate_process_paging m pid sz).1.allocated_processes =
      some (ProcInfo.paging sz fr) ∧
    fr.length = (sz + m.page_size - 1) / m.page_size ∧
    sz ≤ ((sz + m.page_size - 1) / m.page_size) * m.page_size ∧
    ((sz + m.page_size - 1) / m.page_size) * m.page_size < sz + m.page_size ∧
    internalFragContribution m.page_size (ProcInfo.paging sz fr) =
      (((sz + m.page_size - 1) / m.page_size) * m.page_size : Nat) -
        (sz : Int) ∧
    (internalFragContribution m.page_size (ProcInfo.paging sz fr) = 0 ↔
      m.page_size ∣ sz) ∧
    (∀ sz' st en, internalFragContribution m.page_size
      (ProcInfo.segmentation sz' st en) = 0) := by
  by_cases h : (m.page_table.filter fun f => f.process_id = none).length <
      (sz + m.page_size - 1) / m.page_size
  · rw [alloc_paging_fail_eq h] at hsucc
    cases hsucc
  · set p := m.page_size with hpdef
    set k := (sz + p - 1) / p with hkdef
    have hkp1 : k * p ≤ sz + p - 1 := Nat.div_mul_le_self _ _
    have hkp2 : k * p + (sz + p - 1) % p = sz + p - 1 := by
      rw [hkdef, Nat.mul_comm]
      exact Nat.div_add_mod _ _
    have hkp3 : (sz + p - 1) % p < p := Nat.mod_lt _ hp
    have hle : sz ≤ k * p := by omega
    have hlt : k * p < sz + p := by omega
    have hfr : dictLookup pid
        (_allocate_process_paging m pid sz).1.allocated_processes =
        some (ProcInfo.paging sz (claimedFrameIds k m.page_table)) := by
      rw [alloc_paging_success_eq h]
      exact dictLookup_dictInsert pid _ _
    refine ⟨claimedFrameIds k m.page_table, hfr, ?_, hle, hlt, ?_, ?_, ?_⟩
    · exact claimedFrameIds_length (by omega)
    · rw [internalFragContribution,
        claimedFrameIds_length (n := k) (by omega)]
    · rw [internalFragContribution,
        claimedFrameIds_length (n := k) (by omega)]
      constructor
      · intro hzero
        have hksz : k * p = sz := by omega
        exact ⟨k, by rw [← hksz, Nat.mul_comm]⟩
      · rintro ⟨c, rfl⟩
        have h1 : c * p ≤ k * p := by
          rw [Nat.mul_comm c p]
          exact hle
        have hck : c ≤ k := Nat.le_of_mul_le_mul_right h1 hp
        have hkc : k ≤ c := by
          by_contra hcon
          push_neg at hcon
          have h2 : (c + 1) * p ≤ k * p :=
            Nat.mul_le_mul_right p (by omega)
          rw [Nat.add_mul, Nat.one_mul, Nat.mul_comm c p] at h2
          omega
        have hkeq : k = c := le_antisymm hkc hck
        rw [hkeq, Nat.mul_comm c p]
        omega
    · intro sz' st en
      rfl

theorem claim_C8_witness :
    ∃ fr, dictLookup 2
        (_allocate_process_paging (MemoryManager.init 256 16) 2 40).1.allocated_processes =
      some (ProcInfo.paging 40 fr) ∧
    fr.length = (40 + 16 - 1) / 16 ∧
    40 ≤ ((40 + 16 - 1) / 16) * 16 ∧
    ((40 + 16 - 1) / 16) * 16 < 40 + 16 ∧
    internalFragContribution 16 (ProcInfo.paging 40 fr) =
      (((40 + 16 - 1) / 16) * 16 : Nat) - (40 : Int) ∧
    (internalFragContribution 16 (ProcInfo.paging 40 fr) = 0 ↔ 16 ∣ 40) ∧
    (∀ sz' st en, internalFragContribution 16
      (ProcInfo.segmentation sz' st en) = 0) :=
  claim_C8 (MemoryManager.init 256 16) 2 40 (by decide) (by decide) (by decide)

/-- A frame id i lies in [s / p, e / p] exactly when the frame's address
range [i * p, i * p + p - 1] overlaps the address range [s, e]. -/
theorem frameRange_overlap {p : Nat} (hp : 0 < p) {s e i : Nat}
    (hse : s ≤ e) :
    (s / p ≤ i ∧ i ≤ e / p) ↔ (i * p ≤ e ∧ s ≤ i * p + p - 1) := by
  have hs1 : s / p * p + s % p = s := by
    rw [Nat.mul_comm]
    exact Nat.div_add_mod s p
  have hs2 : s % p < p := Nat.mod_lt s hp
  have he1 : e / p * p + e % p = e := by
    rw [Nat.mul_comm]
    exact Nat.div_add_mod e p
  have he2 : e % p < p := Nat.mod_lt e hp
  constructor
  · rintro ⟨hlo, hhi⟩
    have h1 : i * p ≤ e / p * p := Nat.mul_le_mul_right p hhi
    have h2 : s / p * p ≤ i * p := Nat.mul_le_mul_right p hlo
    omega
  · rintro ⟨h1, h2⟩
    constructor
    · by_contra hcon
      push_neg at hcon
      have h3 : (i + 1) * p ≤ s / p * p := Nat.mul_le_mul_right p (by omega)
      rw [Nat.add_mul, Nat.one_mul] at h3
      omega
    · by_contra hcon
      push_neg at hcon
      have h3 : (e / p + 1) * p ≤ i * p := Nat.mul_le_mul_right p (by omega)
      rw [Nat.add_mul, Nat.one_mul] at h3
      omega

/-- Claim C10 (implicit behaviour): a segmentation allocate that claims
block blk overwrites the owner of every frame whose id lies in
[blk.start / page_size, blk.end / page_size]; a segmentation deallocate
that frees block blk clears the owner of every frame in the same range;
that id range is exactly the set of frames whose address range overlaps
the block at all; and consequently, on a (100, 10) engine after
allocate(1, 25, Seg) and allocate(2, 25, Seg), the boundary frame 2 is
owned by pid 2 (the most recent mutation), and deallocate(2) then marks
frame 2 free even though pid 1 is still allocated and its block [0, 24]
overlaps frame 2's address range [20, 29]. -/
theorem claim_C10 :
    (∀ (m : MemoryManager) (pid sz : Nat) (mem' : List Block) (blk : Block),
      segFindAndClaim pid sz m.memory = some (mem', blk) →
      (_allocate_process_segmentation m pid sz).1.page_table =
        markFramesRange (some pid) (blk.start / m.page_size)
          (blk.«end» / m.page_size) m.page_table) ∧
    (∀ (m : MemoryManager) (pid sz st en : Nat) (blk : Block),
      dictLookup pid m.allocated_processes =
        some (ProcInfo.segmentation sz st en) →
      (segFreeFirst pid m.memory).2 = some blk →
      (deallocate_process m pid).1.page_table =
        markFramesRange none (blk.start / m.page_size)
          (blk.«end» / m.page_size) m.page_table) ∧
    (∀ (owner : Option Nat) (lo hi : Nat) (pt : List Frame) (f : Frame),
      f ∈ pt →
      ((lo ≤ f.frame_id ∧ f.frame_id ≤ hi) →
        { f with process_id := owner } ∈ markFramesRange owner lo hi pt) ∧
      (¬(lo ≤ f.frame_id ∧ f.frame_id ≤ hi) →
        f ∈ markFramesRange owner lo hi pt)) ∧
    (∀ (p s e i : Nat), 0 < p → s ≤ e →
      ((s / p ≤ i ∧ i ≤ e / p) ↔ (i * p ≤ e ∧ s ≤ i * p + p - 1))) ∧
    ((execTrace (MemoryManager.init 100 10)
        [Cmd.alloc 1 25 AllocationMethod.SEGMENTATION,
         Cmd.alloc 2 25 AllocationMethod.SEGMENTATION]).page_table.map
          Frame.process_id =
      [some 1, some 1, some 2, some 2, some 2,
       none, none, none, none, none] ∧
     (execTrace (MemoryManager.init 100 10)
        [Cmd.alloc 1 25 AllocationMethod.SEGMENTATION,
         Cmd.alloc 2 25 AllocationMethod.SEGMENTATION,
         Cmd.dealloc 2]).page_table.map Frame.process_id =
      [some 1, some 1, none, none, none, none, none, none, none, none] ∧
     dictLookup 1 (execTrace (MemoryManager.init 100 10)
        [Cmd.alloc 1 25 AllocationMethod.SEGMENTATION,
         Cmd.alloc 2 25 AllocationMethod.SEGMENTATION,
         Cmd.dealloc 2]).allocated_processes =
       some (ProcInfo.segmentation 25 0 24) ∧
     (∃ b ∈ (execTrace (MemoryManager.init 100 10)
        [Cmd.alloc 1 25 AllocationMethod.SEGMENTATION,
         Cmd.alloc 2 25 AllocationMethod.SEGMENTATION,
         Cmd.dealloc 2]).memory, b.process_id = some 1 ∧
        b.start ≤ 29 ∧ 20 ≤ b.«end»)) := by
  refine ⟨?_, ?_, ?_, ?_, by decide⟩
  · intro m pid sz mem' blk hfind
    rw [alloc_seg_some_eq hfind]
    rfl
  · intro m pid sz st en blk hlook hres
    rw [dealloc_seg_some_eq hlook hres]
    rfl
  · intro owner lo hi pt f hf
    constructor
    · intro hin
      refine List.mem_map.mpr ⟨f, hf, ?_⟩
      rw [if_pos hin]
    · intro hout
      refine List.mem_map.mpr ⟨f, hf, ?_⟩
      rw [if_neg hout]
  · intro p s e i hp hse
    exact frameRange_overlap hp hse

theorem claim_C10_witness :
    (0 < 10 ∧ 0 ≤ 24) ∧
    ((0 / 10 ≤ 2 ∧ 2 ≤ 24 / 10) ↔ (2 * 10 ≤ 24 ∧ 0 ≤ 2 * 10 + 10 - 1)) :=
  ⟨⟨by decide, by decide⟩,
    claim_C10.2.2.2.1 10 0 24 2 (by decide) (by decide)⟩

theorem claimedFrameIds_pairwise {n : Nat} {pt : List Frame}
    (h : pt.Pairwise fun f g => f.frame_id < g.frame_id) :
    (claimedFrameIds n pt).Pairwise (· < ·) := by
  rw [claimedFrameIds, List.pairwise_map]
  have hsub : ((pt.filter fun f => f.process_id = none).take n).Sublist pt :=
    (List.take_sublist n _).trans (List.filter_sublist pt)
  exact h.sublist hsub

/-- Claim C4: a paging allocation with positive size computes
pages_needed = ceil(size / page_size); if fewer frames are free it fails,
logging the shortfall and changing no state; otherwise it succeeds,
marking exactly the first pages_needed free frames in increasing
frame-id order (recorded as the process's frame-id set), and leaves
every other owner's frames untouched. -/
theorem claim_C4 (m : MemoryManager) (pid sz : Nat) (hsz : 0 < sz)
    (hcanon : PtCanon m.page_size m.page_table)
    (hfresh : ∀ f ∈ m.page_table, f.process_id ≠ some pid) :
    ((m.page_table.filter fun f => f.process_id = none).length <
        (sz + m.page_size - 1) / m.page_size →
      _allocate_process_paging m pid sz =
        (_log_event m pid "Allocation Failed"
          ("Not enough free frames. Needed " ++
           toString ((sz + m.page_size - 1) / m.page_size) ++
           ", available " ++
           toString (m.page_table.filter
             fun f => f.process_id = none).length), false) ∧
      (_allocate_process_paging m pid sz).1.memory = m.memory ∧
      (_allocate_process_paging m pid sz).1.page_table = m.page_table ∧
      (_allocate_process_paging m pid sz).1.allocated_processes =
        m.allocated_processes ∧
      (_allocate_process_paging m pid sz).1.stats = m.stats) ∧
    (¬ (m.page_table.filter fun f => f.process_id = none).length <
        (sz + m.page_size - 1) / m.page_size →
      (_allocate_process_paging m pid sz).2 = true ∧
      (_allocate_process_paging m pid sz).1.page_table =
        claimFreeFrames pid ((sz + m.page_size - 1) / m.page_size)
          m.page_table ∧
      dictLookup pid
          (_allocate_process_paging m pid sz).1.allocated_processes =
        some (ProcInfo.paging sz (claimedFrameIds
          ((sz + m.page_size - 1) / m.page_size) m.page_table)) ∧
      claimedFrameIds ((sz + m.page_size - 1) / m.page_size) m.page_table =
        ((m.page_table.filter fun f => f.process_id = none).take
          ((sz + m.page_size - 1) / m.page_size)).map Frame.frame_id ∧
      (claimedFrameIds ((sz + m.page_size - 1) / m.page_size)
        m.page_table).length = (sz + m.page_size - 1) / m.page_size ∧
      (claimedFrameIds ((sz + m.page_size - 1) / m.page_size)
        m.page_table).Pairwise (· < ·) ∧
      (∀ i : Nat, (∃ f ∈ (_allocate_process_paging m pid sz).1.page_table,
          f.frame_id = i ∧ f.process_id = some pid) ↔
        i ∈ claimedFrameIds ((sz + m.page_size - 1) / m.page_size)
          m.page_table) ∧
      (∀ q, q ≠ pid → ∀ g : Frame, g.process_id = some q →
        (g ∈ (_allocate_process_paging m pid sz).1.page_table ↔
          g ∈ m.page_table))) := by
  constructor
  · intro h
    rw [alloc_paging_fail_eq h]
    exact ⟨rfl, rfl, rfl, rfl, rfl⟩
  · intro h
    rw [alloc_paging_success_eq h]
    refine ⟨rfl, rfl, dictLookup_dictInsert pid _ _, rfl,
      claimedFrameIds_length (by omega),
      claimedFrameIds_pairwise (PtCanonFrom_pairwise hcanon), ?_, ?_⟩
    · intro i
      exact claimFreeFrames_new hfresh i
    · intro q hq g hg
      exact claimFreeFrames_other hq hg

theorem claim_C4_witness :
    (_allocate_process_paging (MemoryManager.init 256 16) 1 50).2 = true ∧
    (_allocate_process_paging (MemoryManager.init 256 16) 1 50).1.page_table =
      claimFreeFrames 1 ((50 + 16 - 1) / 16)
        (MemoryManager.init 256 16).page_table :=
  ⟨((claim_C4 (MemoryManager.init 256 16) 1 50 (by decide) (by decide)
      (by decide)).2 (by decide)).1,
   ((claim_C4 (MemoryManager.init 256 16) 1 50 (by decide) (by decide)
      (by decide)).2 (by decide)).2.1⟩

/-- Claim C5: a segmentation allocation with positive size does a
first-fit scan in address order; with no free block of sufficient size it
fails with no state change (one failure event aside); otherwise the first
suitable block is claimed whole on an exact fit, and otherwise split into
exactly two blocks — a claimed block of exactly the requested size at the
original start, followed immediately by an ownerless remainder ending at
the original end address. -/
theorem claim_C5 (m : MemoryManager) (pid sz : Nat) (hsz : 0 < sz) :
    ((∀ b ∈ m.memory, ¬(b.process_id = none ∧ sz ≤ b.size)) →
      _allocate_process_segmentation m pid sz =
        (_log_event m pid "Allocation Failed"
          ("No suitable free block found for size " ++ toString sz),
         false) ∧
      (_allocate_process_segmentation m pid sz).1.memory = m.memory ∧
      (_allocate_process_segmentation m pid sz).1.page_table =
        m.page_table ∧
      (_allocate_process_segmentation m pid sz).1.allocated_processes =
        m.allocated_processes ∧
      (_allocate_process_segmentation m pid sz).1.stats = m.stats) ∧
    (∀ (mem' : List Block) (blk : Block),
      segFindAndClaim pid sz m.memory = some (mem', blk) →
      (_allocate_process_segmentation m pid sz).2 = true ∧
      (_allocate_process_segmentation m pid sz).1.memory = mem' ∧
      ∃ l1 F l2, m.memory = l1 ++ F :: l2 ∧
        (∀ b ∈ l1, ¬(b.process_id = none ∧ sz ≤ b.size)) ∧
        F.process_id = none ∧ sz ≤ F.size ∧
        blk.start = F.start ∧ blk.size = sz ∧ blk.process_id = some pid ∧
        (BlocksOK 0 m.memory_size m.memory →
          ∀ b ∈ l1, b.«end» < F.start) ∧
        ((F.size = sz ∧
          mem' = l1 ++ ({ F with process_id := some pid }) :: l2) ∨
         (sz < F.size ∧
          blk = { start := F.start, «end» := F.start + sz - 1, size := sz,
                  process_id := some pid } ∧
          mem' = l1 ++ blk ::
            ({ start := F.start + sz, «end» := F.«end»,
               size := F.size - sz, process_id := none } : Block) :: l2))) := by
  constructor
  · intro h
    have hnone : segFindAndClaim pid sz m.memory = none :=
      segFindAndClaim_none.mpr h
    rw [alloc_seg_none_eq hnone]
    exact ⟨rfl, rfl, rfl, rfl, rfl⟩
  · intro mem' blk hfind
    rw [alloc_seg_some_eq hfind]
    obtain ⟨l1, F, l2, e1, e2, e3, e4, e5, e6, e7, e8⟩ :=
      segFindAndClaim_some hfind
    refine ⟨rfl, rfl, l1, F, l2, e1, e2, e3, e4, e5, e6, e7, ?_, ?_⟩
    · intro hchain b hb
      rw [e1] at hchain
      obtain ⟨mid, hcl1, hcF⟩ := BlocksOK_append.mp hchain
      have := BlocksOK_mem_bounds hcl1 hb
      have hFs : F.start = mid := hcF.1
      omega
    · rcases e8 with ⟨x1, x2, x3⟩ | ⟨x1, x2, x3⟩
      · refine Or.inl ⟨x1, ?_⟩
        rw [← x2]
        exact x3
      · exact Or.inr ⟨x1, x2, x3⟩

theorem claim_C5_witness :
    (_allocate_process_segmentation (MemoryManager.init 100 10) 1 30).2 =
      true ∧
    (_allocate_process_segmentation
      (MemoryManager.init 100 10) 1 30).1.memory =
      [{ start := 0, «end» := 29, size := 30, process_id := some 1 },
       { start := 30, «end» := 99, size := 70, process_id := none }] :=
  ⟨((claim_C5 (MemoryManager.init 100 10) 1 30 (by decide)).2
      [{ start := 0, «end» := 29, size := 30, process_id := some 1 },
       { start := 30, «end» := 99, size := 70, process_id := none }]
      { start := 0, «end» := 29, size := 30, process_id := some 1 }
      (by decide)).1,
   ((claim_C5 (MemoryManager.init 100 10) 1 30 (by decide)).2
      [{ start := 0, «end» := 29, size := 30, process_id := some 1 },
       { start := 30, «end» := 99, size := 70, process_id := none }]
      { start := 0, «end» := 29, size := 30, process_id := some 1 }
      (by decide)).2.1⟩

/-- Claim C3 counterexample: mixing strategies breaks the recorded
range / owned blocks correspondence.  On a (100, 10) engine,
allocate(1, 25, Segmentation) records range [0, 24] for pid 1, but the
following allocate(2, 10, Paging) rebuilds the block list from the frame
overlay, which extends pid 1's block to the frame boundary [0, 29]:
address 29 is covered by a block owned by pid 1 but lies outside the
recorded range. -/
theorem claim_C3_counterexample :
    ¬ (∀ pid sz st en,
        (pid, ProcInfo.segmentation sz st en) ∈
          (execTrace (MemoryManager.init 100 10)
            [Cmd.alloc 1 25 AllocationMethod.SEGMENTATION,
             Cmd.alloc 2 10 AllocationMethod.PAGING]).allocated_processes →
        ∀ a : Nat,
          ((∃ b ∈ (execTrace (MemoryManager.init 100 10)
              [Cmd.alloc 1 25 AllocationMethod.SEGMENTATION,
               Cmd.alloc 2 10 AllocationMethod.PAGING]).memory,
            b.process_id = some pid ∧ b.start ≤ a ∧ a ≤ b.«end») ↔
          (st ≤ a ∧ a ≤ en))) := by
  intro h
  have h29 := (h 1 25 0 24 (by decide) 29).mp (by decide)
  exact absurd h29 (by decide)

/-! ## The segmentation-only invariant -/

/-- The inductive invariant of segmentation-only traces: on top of the
block-chain structure, every registry entry is a segmentation record and
describes exactly the one block owned by its pid. -/
structure SegInv (used : List Nat) (s : MemoryManager) : Prop where
  chain : BlocksOK 0 s.memory_size s.memory
  sep : noConsecSame s.memory
  bOwn : ∀ b ∈ s.memory, ∀ q, b.process_id = some q → q ∈ used
  regOwn : ∀ pr ∈ s.allocated_processes, pr.1 ∈ used
  regNodup : (s.allocated_processes.map Prod.fst).Nodup
  regSeg : ∀ pr ∈ s.allocated_processes, ∀ sz fr,
    pr.2 ≠ ProcInfo.paging sz fr
  segRec : ∀ pid sz st en,
    (pid, ProcInfo.segmentation sz st en) ∈ s.allocated_processes →
    (∃ b ∈ s.memory, b.process_id = some pid ∧ b.start = st ∧
      b.«end» = en ∧ b.size = sz) ∧
    (∀ b ∈ s.memory, b.process_id = some pid →
      b.start = st ∧ b.«end» = en ∧ b.size = sz)

theorem SegInv_mono {used used' : List Nat} {s : MemoryManager}
    (h : SegInv used s) (hsub : ∀ x ∈ used, x ∈ used') : SegInv used' s :=
  { h with
    bOwn := fun b hb q hq => hsub q (h.bOwn b hb q hq)
    regOwn := fun pr hpr => hsub pr.1 (h.regOwn pr hpr) }

theorem SegInv_log {used : List Nat} {s : MemoryManager} {pid : Nat}
    {et d : String} (h : SegInv used s) :
    SegInv used (_log_event s pid et d) :=
  { h with }

theorem SegInv_stats {used : List Nat} {s : MemoryManager}
    (h : SegInv used s) : SegInv used (_update_stats s) :=
  { h with }

theorem SegInv_alloc_seg {used : List Nat} {s : MemoryManager}
    {pid sz : Nat} (inv : SegInv used s) (hsz : 0 < sz)
    (hfresh : pid ∉ used) :
    SegInv (pid :: used) (_allocate_process_segmentation s pid sz).1 := by
  have hmono : ∀ x ∈ used, x ∈ pid :: used :=
    fun x hx => List.mem_cons_of_mem pid hx
  rcases hfind : segFindAndClaim pid sz s.memory with - | ⟨mem', blk⟩
  · rw [alloc_seg_none_eq hfind]
    exact SegInv_log (SegInv_mono inv hmono)
  · rw [alloc_seg_some_eq hfind]
    apply SegInv_log
    apply SegInv_stats
    obtain ⟨l1, F, l2, e1, e2, e3, e4, e5, e6, e7, e8⟩ :=
      segFindAndClaim_some hfind
    have hchain0 := inv.chain
    rw [e1] at hchain0
    obtain ⟨m, hcl1, hF1, hF2, hF3, hcl2⟩ := BlocksOK_append.mp hchain0
    have hsep0 := inv.sep
    rw [e1] at hsep0
    obtain ⟨hsepl1, hsepF, hjunc1⟩ := noConsecSame_append.mp hsep0
    have hsepFl2 := noConsecSame_cons.mp hsepF
    have hsidemem : ∀ b : Block, b ∈ l1 ∨ b ∈ l2 → b ∈ s.memory := by
      intro b hb
      rw [e1]
      rcases hb with hb | hb
      · exact List.mem_append.mpr (Or.inl hb)
      · exact List.mem_append.mpr (Or.inr (List.mem_cons_of_mem F hb))
    have hsidenotpid : ∀ b : Block, b ∈ l1 ∨ b ∈ l2 →
        b.process_id ≠ some pid := by
      intro b hb hc
      exact hfresh (inv.bOwn b (hsidemem b hb) pid hc)
    have hblkend : blk.«end» + 1 = F.start + sz := by
      rcases e8 with ⟨hfs, hbeq, -⟩ | ⟨hlt, hbeq, -⟩
      · rw [hbeq]
        show F.«end» + 1 = F.start + sz
        omega
      · rw [hbeq]
        show F.start + sz - 1 + 1 = F.start + sz
        omega
    have main : ∀ mid : List Block,
        mem' = l1 ++ mid ++ l2 →
        BlocksOK m (m + F.size) mid →
        noConsecSame mid →
        mid.head? = some blk →
        (∀ x y, mid.getLast? = some x → l2.head? = some y →
          x.process_id ≠ y.process_id) →
        (∀ b ∈ mid, b = blk ∨ b.process_id = none) →
        SegInv (pid :: used) { s with
          memory := mem',
          page_table := markFramesRange (some pid)
            (blk.start / s.page_size) (blk.«end» / s.page_size) s.page_table,
          allocated_processes := dictInsert pid
            (ProcInfo.segmentation sz blk.start blk.«end»)
            s.allocated_processes } := by
      intro mid hmem' hmid hsepmid hmidhead hjunc2 hmidown
      have hmidne : mid ≠ [] := by
        intro hc
        rw [hc] at hmidhead
        cases hmidhead
      have hblkmem' : blk ∈ mem' := by
        rw [hmem']
        refine List.mem_append.mpr (Or.inl (List.mem_append.mpr (Or.inr ?_)))
        cases mid with
        | nil => exact absurd rfl hmidne
        | cons x xs =>
          simp only [List.head?_cons, Option.some_inj] at hmidhead
          rw [hmidhead]
          exact List.mem_cons_self _ _
      have hmem'mem : ∀ b ∈ mem', b ∈ l1 ∨ b ∈ mid ∨ b ∈ l2 := by
        intro b hb
        rw [hmem'] at hb
        rcases List.mem_append.mp hb with hb' | hb'
        · rcases List.mem_append.mp hb' with h | h
          · exact Or.inl h
          · exact Or.inr (Or.inl h)
        · exact Or.inr (Or.inr hb')
      refine
        { chain := ?_, sep := ?_, bOwn := ?_, regOwn := ?_
          regNodup := dictInsert_keys_nodup inv.regNodup
          regSeg := ?_, segRec := ?_ }
      · show BlocksOK 0 s.memory_size mem'
        rw [hmem', List.append_assoc]
        exact BlocksOK_append.mpr ⟨m, hcl1,
          BlocksOK_append.mpr ⟨m + F.size, hmid, hcl2⟩⟩
      · show noConsecSame mem'
        rw [hmem', List.append_assoc, noConsecSame_append]
        refine ⟨hsepl1, ?_, ?_⟩
        · rw [noConsecSame_append]
          exact ⟨hsepmid, hsepFl2.2, hjunc2⟩
        · intro x y hx hy
          rw [List.head?_append_of_ne_nil _ hmidne, hmidhead] at hy
          cases hy
          intro hc
          apply hsidenotpid x (Or.inl (mem_of_getLast?_eq hx))
          rw [hc, e7]
      · intro b hb q hq
        rcases hmem'mem b hb with h | h | h
        · exact hmono q (inv.bOwn b (hsidemem b (Or.inl h)) q hq)
        · rcases hmidown b h with rfl | h'
          · rw [e7] at hq
            cases hq
            exact List.mem_cons_self _ _
          · rw [h'] at hq
            cases hq
        · exact hmono q (inv.bOwn b (hsidemem b (Or.inr h)) q hq)
      · intro pr hpr
        rcases mem_dictInsert hpr with h | h
        · exact hmono pr.1 (inv.regOwn pr h)
        · rw [h]
          exact List.mem_cons_self _ _
      · intro pr hpr sz' fr'
        rcases mem_dictInsert hpr with h | h
        · exact inv.regSeg pr h sz' fr'
        · rw [h]
          intro hc
          cases hc
      · intro q sz' st' en' hq
        rcases mem_dictInsert hq with h | h
        · have hqne : q ≠ pid := by
            intro hc
            rw [hc] at h
            exact hfresh (inv.regOwn _ h)
          obtain ⟨⟨B, hBmem, hBq, hBrest⟩, huniq⟩ :=
            inv.segRec q sz' st' en' h
          have hBne : B ≠ F := by
            intro hc
            rw [hc, e3] at hBq
            cases hBq
          have hBside : B ∈ l1 ∨ B ∈ l2 := by
            rw [e1] at hBmem
            rcases List.mem_append.mp hBmem with h' | h'
            · exact Or.inl h'
            · rcases List.mem_cons.mp h' with h'' | h''
              · exact absurd h'' hBne
              · exact Or.inr h''
          refine ⟨⟨B, ?_, hBq, hBrest⟩, ?_⟩
          · rw [hmem']
            rcases hBside with h' | h'
            · exact List.mem_append.mpr
                (Or.inl (List.mem_append.mpr (Or.inl h')))
            · exact List.mem_append.mpr (Or.inr h')
          · intro b hb hbq
            rcases hmem'mem b hb with h' | h' | h'
            · exact huniq b (hsidemem b (Or.inl h')) hbq
            · exfalso
              rcases hmidown b h' with rfl | h''
              · rw [e7] at hbq
                exact hqne (Option.some_inj.mp hbq).symm
              · rw [h''] at hbq
                cases hbq
            · exact huniq b (hsidemem b (Or.inr h')) hbq
        · have hinj := congrArg Prod.fst h
          have hinj2 := congrArg Prod.snd h
          simp only at hinj hinj2
          cases hinj2
          subst hinj
          refine ⟨⟨blk, hblkmem', e7, rfl, rfl, e6⟩, ?_⟩
          intro b hb hbq
          rcases hmem'mem b hb with h' | h' | h'
          · exact absurd hbq (hsidenotpid b (Or.inl h'))
          · rcases hmidown b h' with rfl | h''
            · exact ⟨rfl, rfl, e6⟩
            · rw [h''] at hbq
              cases hbq
          · exact absurd hbq (hsidenotpid b (Or.inr h'))
    rcases e8 with ⟨hfs, hbeq, hl'⟩ | ⟨hlt, hbeq, hl'⟩
    · refine main [blk] (by rw [hl']; simp) ?_ trivial rfl ?_ ?_
      · refine ⟨by omega, by rw [e6]; omega, ?_, ?_⟩
        · show blk.«end» + 1 = m + blk.size
          rw [e6]
          omega
        · show BlocksOK (m + blk.size) (m + F.size) []
          rw [BlocksOK_nil, e6]
          omega
      · intro x y hx hy
        simp only [List.getLast?_singleton, Option.some_inj] at hx
        cases hx
        rcases hyq : y.process_id with - | q
        · rw [e7]
          simp
        · intro hc
          apply hsidenotpid y (Or.inr (List.mem_of_mem_head? hy))
          rw [hyq, ← hc, e7]
      · intro b hb
        rcases List.mem_cons.mp hb with rfl | hb'
        · exact Or.inl rfl
        · cases hb'
    · set nb : Block :=
        { start := F.start + sz, size := F.size - sz,
          «end» := F.«end», process_id := none } with hnb
      refine main [blk, nb] (by rw [hl']; simp [hnb]) ?_ ?_ rfl ?_ ?_
      · refine ⟨by omega, by rw [e6]; omega, ?_, ?_⟩
        · show blk.«end» + 1 = m + blk.size
          rw [e6]
          omega
        · rw [e6]
          refine ⟨?_, ?_, ?_, ?_⟩
          · show F.start + sz = m + sz
            omega
          · show 0 < F.size - sz
            omega
          · show F.«end» + 1 = m + sz + (F.size - sz)
            omega
          · show BlocksOK (m + sz + (F.size - sz)) (m + F.size) []
            rw [BlocksOK_nil]
            omega
      · refine ⟨?_, trivial⟩
        rw [e7]
        simp [hnb]
      · intro x y hx hy
        simp only [List.getLast?_cons_cons, List.getLast?_singleton,
          Option.some_inj] at hx
        cases hx
        have hyne : F.process_id ≠ y.process_id :=
          hsepFl2.1 y hy
        rw [e3] at hyne
        show nb.process_id ≠ y.process_id
        simp only [hnb]
        exact hyne
      · intro b hb
        rcases List.mem_cons.mp hb with rfl | hb'
        · exact Or.inl rfl
        · rcases List.mem_cons.mp hb' with rfl | hb''
          · exact Or.inr rfl
          · cases hb''

theorem SegInv_dealloc {used : List Nat} {s : MemoryManager} {pid : Nat}
    (inv : SegInv used s) : SegInv used (deallocate_process s pid).1 := by
  rcases hlook : dictLookup pid s.allocated_processes with - | info
  · rw [dealloc_none_eq hlook]
    exact inv
  · cases info with
    | paging sz fr =>
      exact absurd rfl (inv.regSeg _ (dictLookup_mem hlook) sz fr)
    | segmentation sz st en =>
      rcases hres : (segFreeFirst pid s.memory).2 with - | blk
      · rw [dealloc_seg_none_eq hlook hres]
        apply SegInv_log
        apply SegInv_stats
        obtain ⟨hid, -⟩ := segFreeFirst_none hres
        rw [hid]
        obtain ⟨m1, m2, m3, m4⟩ :=
          merge_free_blocks_spec inv.chain (noConsecSame_sepHetero inv.sep)
        have m5 := merge_free_blocks_owned_mem inv.chain
          (noConsecSame_sepHetero inv.sep)
        refine
          { chain := m1, sep := m2, bOwn := ?_, regOwn := ?_
            regNodup := dictErase_keys_nodup inv.regNodup
            regSeg := ?_, segRec := ?_ }
        · intro b hb q hq
          obtain ⟨b', hb', hb'q⟩ := m3 b hb q hq
          exact inv.bOwn b' hb' q hb'q
        · intro pr hpr
          exact inv.regOwn pr (mem_dictErase hpr)
        · intro pr hpr sz' fr'
          exact inv.regSeg pr (mem_dictErase hpr) sz' fr'
        · intro q sz' st' en' hq
          obtain ⟨⟨B, hBmem, hBq, hBrest⟩, huniq⟩ :=
            inv.segRec q sz' st' en' (mem_dictErase hq)
          refine ⟨⟨B, m4 B hBmem (by rw [hBq]; simp), hBq, hBrest⟩, ?_⟩
          intro b hb hbq
          exact huniq b (m5 b hb (by rw [hbq]; simp)) hbq
      · rw [dealloc_seg_some_eq hlook hres]
        apply SegInv_log
        apply SegInv_stats
        obtain ⟨hblkpid, l1, l2, e1, efree⟩ := segFreeFirst_some hres
        rw [efree]
        have hchain0 := inv.chain
        rw [e1] at hchain0
        obtain ⟨m, hcl1, hb1, hb2, hb3, hcl2⟩ := BlocksOK_append.mp hchain0
        have hchainf : BlocksOK 0 s.memory_size
            (l1 ++ { blk with process_id := none } :: l2) :=
          BlocksOK_append.mpr ⟨m, hcl1, hb1, hb2, hb3, hcl2⟩
        have hsep0 := inv.sep
        rw [e1] at hsep0
        obtain ⟨hsepl1, hsepbl2, hjunc1⟩ := noConsecSame_append.mp hsep0
        have hsepf : sepHetero
            (l1 ++ { blk with process_id := none } :: l2) := by
          rw [sepHetero_append]
          refine ⟨noConsecSame_sepHetero hsepl1, ?_, ?_⟩
          · rw [sepHetero_cons]
            exact ⟨fun c hc => Or.inl rfl,
              noConsecSame_sepHetero (noConsecSame_cons.mp hsepbl2).2⟩
          · intro x y hx hy
            simp only [List.head?_cons, Option.some_inj] at hy
            rcases hxq : x.process_id with - | q
            · exact Or.inl rfl
            · refine Or.inr ?_
              rw [← hy]
              simp
        obtain ⟨m1, m2, m3, m4⟩ := merge_free_blocks_spec hchainf hsepf
        have m5 := merge_free_blocks_owned_mem hchainf hsepf
        have hsidemem : ∀ b : Block, b ∈ l1 ∨ b ∈ l2 → b ∈ s.memory := by
          intro b hb
          rw [e1]
          rcases hb with hb | hb
          · exact List.mem_append.mpr (Or.inl hb)
          · exact List.mem_append.mpr (Or.inr (List.mem_cons_of_mem blk hb))
        have hfreedmem : ∀ b : Block,
            b ∈ l1 ++ { blk with process_id := none } :: l2 →
            b.process_id ≠ none → b ∈ s.memory := by
          intro b hb hbo
          rcases List.mem_append.mp hb with h | h
          · exact hsidemem b (Or.inl h)
          · rcases List.mem_cons.mp h with rfl | h'
            · exact absurd rfl hbo
            · exact hsidemem b (Or.inr h')
        refine
          { chain := m1, sep := m2, bOwn := ?_, regOwn := ?_
            regNodup := dictErase_keys_nodup inv.regNodup
            regSeg := ?_, segRec := ?_ }
        · intro b hb q hq
          obtain ⟨b', hb', hb'q⟩ := m3 b hb q hq
          exact inv.bOwn b'
            (hfreedmem b' hb' (by rw [hb'q]; simp)) q hb'q
        · intro pr hpr
          exact inv.regOwn pr (mem_dictErase hpr)
        · intro pr hpr sz' fr'
          exact inv.regSeg pr (mem_dictErase hpr) sz' fr'
        · intro q sz' st' en' hq
          have hqne : q ≠ pid := mem_dictErase_ne inv.regNodup hq
          obtain ⟨⟨B, hBmem, hBq, hBrest⟩, huniq⟩ :=
            inv.segRec q sz' st' en' (mem_dictErase hq)
          have hBne : B ≠ blk := by
            intro hc
            rw [hc, hblkpid] at hBq
            exact hqne (Option.some_inj.mp hBq).symm
          have hBfreed : B ∈ l1 ++ { blk with process_id := none } :: l2 := by
            rw [e1] at hBmem
            rcases List.mem_append.mp hBmem with h | h
            · exact List.mem_append.mpr (Or.inl h)
            · rcases List.mem_cons.mp h with rfl | h'
              · exact absurd rfl hBne
              · exact List.mem_append.mpr (Or.inr (List.mem_cons_of_mem _ h'))
          refine ⟨⟨B, m4 B hBfreed (by rw [hBq]; simp), hBq, hBrest⟩, ?_⟩
          intro b hb hbq
          exact huniq b
            (hfreedmem b (m5 b hb (by rw [hbq]; simp)) (by rw [hbq]; simp))
            hbq

theorem SegInv_init {N p : Nat} (hN : 0 < N) :
    SegInv [] (MemoryManager.init N p) := by
  refine
    { chain := ?_, sep := trivial
      bOwn := ?_
      regOwn := by simp [MemoryManager.init]
      regNodup := by simp [MemoryManager.init]
      regSeg := by simp [MemoryManager.init]
      segRec := by simp [MemoryManager.init] }
  · show BlocksOK 0 N
      [{ start := 0, «end» := N - 1, size := N, process_id := none }]
    refine ⟨rfl, hN, by simp only; omega, ?_⟩
    show 0 + N = N
    omega
  · intro b hb q hq
    simp only [MemoryManager.init, List.mem_singleton] at hb
    rw [hb] at hq
    cases hq

theorem SegInv_trace : ∀ (cs : List Cmd) (used : List Nat)
    (s : MemoryManager), SegInv used s →
    sizesPositive cs → segOnly cs → (allocPids cs).Nodup →
    (∀ x ∈ allocPids cs, x ∉ used) →
    SegInv (used ++ allocPids cs) (execTrace s cs) := by
  intro cs
  induction cs with
  | nil =>
    intro used s inv _ _ _ _
    simpa [execTrace, allocPids] using inv
  | cons c cs ih =>
    intro used s inv hpos hseg hnodup hdisj
    have hpos' : sizesPositive cs :=
      fun d hd => hpos d (List.mem_cons_of_mem c hd)
    have hseg' : segOnly cs :=
      fun d hd => hseg d (List.mem_cons_of_mem c hd)
    have hexec : execTrace s (c :: cs) = execTrace (execCmd s c) cs := rfl
    rw [hexec]
    cases c with
    | alloc pid sz mth =>
      have hmth : mth = AllocationMethod.SEGMENTATION :=
        hseg _ (List.mem_cons_self _ _)
      subst hmth
      have hpids : allocPids
          (Cmd.alloc pid sz AllocationMethod.SEGMENTATION :: cs) =
          pid :: allocPids cs := rfl
      rw [hpids] at hnodup hdisj ⊢
      have hfresh : pid ∉ used := hdisj pid (List.mem_cons_self _ _)
      have hnodup' : (allocPids cs).Nodup := (List.nodup_cons.mp hnodup).2
      have hpidnotin : pid ∉ allocPids cs := (List.nodup_cons.mp hnodup).1
      have hsz : 0 < sz := hpos _ (List.mem_cons_self _ _)
      have hstep : SegInv (pid :: used)
          (execCmd s (Cmd.alloc pid sz AllocationMethod.SEGMENTATION)) :=
        SegInv_alloc_seg inv hsz hfresh
      have hdisj' : ∀ x ∈ allocPids cs, x ∉ pid :: used := by
        intro x hx
        rw [List.mem_cons]
        push_neg
        constructor
        · intro hc
          rw [hc] at hx
          exact hpidnotin hx
        · exact hdisj x (List.mem_cons_of_mem _ hx)
      have := ih (pid :: used) _ hstep hpos' hseg' hnodup' hdisj'
      refine SegInv_mono this ?_
      intro x hx
      simp only [List.mem_append, List.mem_cons] at hx ⊢
      tauto
    | dealloc pid =>
      have hpids : allocPids (Cmd.dealloc pid :: cs) = allocPids cs := rfl
      rw [hpids] at hnodup hdisj ⊢
      exact ih used _ (SegInv_dealloc inv) hpos' hseg' hnodup hdisj

/-- Claim C3 amended: the registry/ownership correspondence holds in the
two regimes the code actually maintains it in.  (a) Paging records are
exact in every reachable state, even under mixed methods: for every
registry entry (pid, paging sz fr), the recorded frame-id set fr is
exactly the set of frame ids whose owner is pid.  (b) Segmentation
records are exact on segmentation-only traces: for every registry entry
(pid, segmentation sz st en) there is exactly one block owned by pid,
and it spans [st, en] with size sz — so the recorded address range is
exactly the set of addresses covered by pid's blocks.  (Mixing methods
breaks part (b): a paging allocation rebuilds the block list from the
page-aligned frame overlay, which can widen a segmentation process's
block beyond its recorded range, see the counterexample.) -/
theorem claim_C3_amended :
    (∀ (N p : Nat), 0 < p → 0 < N → p ∣ N →
      ∀ cs : List Cmd, sizesPositive cs → (allocPids cs).Nodup →
      ∀ pid sz fr, (pid, ProcInfo.paging sz fr) ∈
          (execTrace (MemoryManager.init N p) cs).allocated_processes →
        ∀ i : Nat, i ∈ fr ↔
          ∃ f ∈ (execTrace (MemoryManager.init N p) cs).page_table,
            f.frame_id = i ∧ f.process_id = some pid) ∧
    (∀ (N p : Nat), 0 < p → 0 < N → p ∣ N →
      ∀ cs : List Cmd, sizesPositive cs → segOnly cs →
        (allocPids cs).Nodup →
      ∀ pid sz st en, (pid, ProcInfo.segmentation sz st en) ∈
          (execTrace (MemoryManager.init N p) cs).allocated_processes →
        (∃ b ∈ (execTrace (MemoryManager.init N p) cs).memory,
          b.process_id = some pid ∧ b.start = st ∧ b.«end» = en ∧
            b.size = sz) ∧
        (∀ b ∈ (execTrace (MemoryManager.init N p) cs).memory,
          b.process_id = some pid →
            b.start = st ∧ b.«end» = en ∧ b.size = sz)) := by
  constructor
  · intro N p hp hN hdvd cs hpos hnodup pid sz fr hmem i
    exact (EngineInv_reachable hp hN hdvd hpos hnodup).pagingRec
      pid sz fr hmem i
  · intro N p hp hN hdvd cs hpos hseg hnodup pid sz st en hmem
    have hinv : SegInv (allocPids cs)
        (execTrace (MemoryManager.init N p) cs) := by
      have := SegInv_trace cs [] (MemoryManager.init N p)
        (SegInv_init hN) hpos hseg hnodup (by simp)
      simpa using this
    exact hinv.segRec pid sz st en hmem

/-- Concrete instance of the amended C3: on (100, 10), after
allocate(1, 25, Segmentation); allocate(2, 10, Paging) the paging record
[3] of pid 2 is exact, and on the segmentation-only trace
allocate(1, 25, Segmentation) pid 1 owns exactly one block, spanning its
recorded range [0, 24]. -/
theorem claim_C3_amended_witness :
    (3 ∈ ([3] : List Nat) ↔
      ∃ f ∈ (execTrace (MemoryManager.init 100 10)
          [Cmd.alloc 1 25 AllocationMethod.SEGMENTATION,
           Cmd.alloc 2 10 AllocationMethod.PAGING]).page_table,
        f.frame_id = 3 ∧ f.process_id = some 2) ∧
    (∃ b ∈ (execTrace (MemoryManager.init 100 10)
        [Cmd.alloc 1 25 AllocationMethod.SEGMENTATION]).memory,
      b.process_id = some 1 ∧ b.start = 0 ∧ b.«end» = 24 ∧ b.size = 25) :=
  ⟨claim_C3_amended.1 100 10 (by decide) (by decide) (by decide)
    [Cmd.alloc 1 25 AllocationMethod.SEGMENTATION,
     Cmd.alloc 2 10 AllocationMethod.PAGING]
    (by decide) (by decide) 2 10 [3] (by decide) 3,
   (claim_C3_amended.2 100 10 (by decide) (by decide) (by decide)
    [Cmd.alloc 1 25 AllocationMethod.SEGMENTATION]
    (by decide) (by decide) (by decide) 1 25 0 24 (by decide)).1⟩

/-! ## Round-trip helpers -/

theorem frame_eta_free {f : Frame} (h : f.process_id = none) :
    ({ f with process_id := none } : Frame) = f := by
  cases f with
  | mk i pidf sa ea =>
    have h' : pidf = none := h
    rw [h']

theorem block_eta_free {b : Block} (h : b.process_id = none) :
    ({ b with process_id := none } : Block) = b := by
  cases b with
  | mk st en sz pidb =>
    have h' : pidb = none := h
    rw [h']

theorem freeFramesByIds_allfree {ids : List Nat} : ∀ {pt : List Frame},
    (∀ f ∈ pt, f.process_id = none) → freeFramesByIds ids pt = pt := by
  intro pt
  induction pt with
  | nil => intro; rfl
  | cons f fs ih =>
    intro h
    show (if f.frame_id ∈ ids then ({ f with process_id := none } : Frame)
        else f) :: freeFramesByIds ids fs = f :: fs
    rw [ih fun g hg => h g (List.mem_cons_of_mem f hg)]
    by_cases hf : f.frame_id ∈ ids
    · rw [if_pos hf, frame_eta_free (h f (List.mem_cons_self f fs))]
    · rw [if_neg hf]

/-- Claiming n free frames of an all-free table and then clearing the
recorded frame ids restores the table exactly. -/
theorem claim_then_free_allfree {pid : Nat} : ∀ {pt : List Frame}
    {n : Nat} {ids : List Nat},
    (∀ f ∈ pt, f.process_id = none) →
    (∀ i ∈ claimedFrameIds n pt, i ∈ ids) →
    freeFramesByIds ids (claimFreeFrames pid n pt) = pt := by
  intro pt
  induction pt with
  | nil =>
    intro n ids h hsub
    cases n <;> rfl
  | cons f fs ih =>
    intro n ids h hsub
    have hf : f.process_id = none := h f (List.mem_cons_self f fs)
    have h' : ∀ g ∈ fs, g.process_id = none :=
      fun g hg => h g (List.mem_cons_of_mem f hg)
    cases n with
    | zero => exact freeFramesByIds_allfree h
    | succ n =>
      rw [claimFreeFrames, if_pos hf]
      have hids : claimedFrameIds (n + 1) (f :: fs) =
          f.frame_id :: claimedFrameIds n fs := by
        simp [claimedFrameIds, List.filter_cons, hf]
      rw [hids] at hsub
      show (if f.frame_id ∈ ids then ({ f with process_id := none } : Frame)
          else { f with process_id := some pid }) ::
        freeFramesByIds ids (claimFreeFrames pid n fs) = f :: fs
      rw [ih h' fun i hi => hsub i (List.mem_cons_of_mem _ hi)]
      rw [if_pos (hsub f.frame_id (List.mem_cons_self _ _))]
      rw [frame_eta_free hf]

/-- A gapless chain of all-free blocks with no two consecutive owners
equal is a single free block spanning the whole range. -/
theorem chain_all_free_singleton : ∀ {l : List Block} {a M : Nat},
    BlocksOK a M l → noConsecSame l →
    (∀ b ∈ l, b.process_id = none) → a < M →
    l =
      [{ start := a, «end» := M - 1, size := M - a, process_id := none }] := by
  intro l
  induction l with
  | nil =>
    intro a M h _ _ hlt
    have h' : a = M := h
    omega
  | cons b bs ih =>
    intro a M h hsep hfree hlt
    obtain ⟨h1, h2, h3, h4⟩ := h
    cases bs with
    | nil =>
      have hM : a + b.size = M := h4
      have hbf : b.process_id = none := hfree b (List.mem_cons_self _ _)
      have hb :
          b = { start := a, «end» := M - 1, size := M - a, process_id := none } := by
        cases b with
        | mk st en sz pidb =>
          have g1 : st = a := h1
          have g2 : en + 1 = a + sz := h3
          have g3 : pidb = none := hbf
          have g4 : a + sz = M := hM
          rw [g1, g3, show en = M - 1 by omega, show sz = M - a by omega]
      rw [hb]
    | cons c cs =>
      exfalso
      have hbc : b.process_id ≠ c.process_id := hsep.1
      apply hbc
      rw [hfree b (List.mem_cons_self _ _),
        hfree c (List.mem_cons_of_mem b (List.mem_cons_self _ _))]

theorem merge_two_free {x y : Block} (hx : x.process_id = none)
    (hy : y.process_id = none) :
    _merge_free_blocks [x, y] =
      [{ x with «end» := y.«end», size := x.size + y.size }] := by
  show mergeScan 2 [x, y] = _
  rw [show mergeScan 2 [x, y] =
      if x.process_id = none ∧ y.process_id = none then
        mergeScan 1 [{ x with «end» := y.«end», size := x.size + y.size }]
      else x :: mergeScan 1 [y] from rfl]
  rw [if_pos ⟨hx, hy⟩]
  rfl

theorem segFreeFirst_head {pid : Nat} {b : Block} {bs : List Block}
    (h : b.process_id = some pid) :
    segFreeFirst pid (b :: bs) =
      ({ b with process_id := none } :: bs, some b) := by
  rw [segFreeFirst, if_pos h]

/-- Claim C7: round-trip.  On a quiescent engine (valid configuration,
one free block spanning the whole space, canonical all-free page table,
empty registry), if allocate(pid, sz, mth) succeeds for either method,
then the immediately following deallocate(pid) returns True and restores
the block view to exactly one free block spanning [0, memory_size). -/
theorem claim_C7 (s : MemoryManager) (pid sz : Nat) (mth : AllocationMethod)
    (hp : 0 < s.page_size) (hN : 0 < s.memory_size)
    (hdvd : s.page_size ∣ s.memory_size)
    (hmem : s.memory =
      [{ start := 0, «end» := s.memory_size - 1, size := s.memory_size,
         process_id := none }])
    (hcanon : PtCanon s.page_size s.page_table)
    (hlen : s.page_table.length = s.memory_size / s.page_size)
    (hfree : ∀ f ∈ s.page_table, f.process_id = none)
    (hreg : s.allocated_processes = [])
    (hsucc : (allocate_process s pid sz mth).2 = true) :
    (deallocate_process (allocate_process s pid sz mth).1 pid).2 = true ∧
    (deallocate_process (allocate_process s pid sz mth).1 pid).1.memory =
      [{ start := 0, «end» := s.memory_size - 1, size := s.memory_size,
         process_id := none }] := by
  cases mth with
  | PAGING =>
    by_cases hlt : (s.page_table.filter fun f => f.process_id = none).length <
        (sz + s.page_size - 1) / s.page_size
    · exfalso
      have hsucc' : (_allocate_process_paging s pid sz).2 = true := hsucc
      rw [alloc_paging_fail_eq hlt] at hsucc'
      cases hsucc'
    · have heq := @alloc_paging_success_eq s pid sz hlt
      have hregs : (allocate_process s pid sz
            AllocationMethod.PAGING).1.allocated_processes =
          [(pid, ProcInfo.paging sz (claimedFrameIds
            ((sz + s.page_size - 1) / s.page_size) s.page_table))] := by
        show (_allocate_process_paging s pid sz).1.allocated_processes = _
        rw [heq]
        show dictInsert pid _ s.allocated_processes = _
        rw [hreg]
        rfl
      have hpts : (allocate_process s pid sz
            AllocationMethod.PAGING).1.page_table =
          claimFreeFrames pid ((sz + s.page_size - 1) / s.page_size)
            s.page_table := by
        show (_allocate_process_paging s pid sz).1.page_table = _
        rw [heq]
        rfl
      have hlook : dictLookup pid (allocate_process s pid sz
            AllocationMethod.PAGING).1.allocated_processes =
          some (ProcInfo.paging sz (claimedFrameIds
            ((sz + s.page_size - 1) / s.page_size) s.page_table)) := by
        rw [hregs]
        show (if pid = pid then _ else _) = _
        rw [if_pos rfl]
      have hdeq := dealloc_paging_eq hlook
      constructor
      · rw [hdeq]
      · rw [hdeq]
        show _update_memory_from_page_table
          (freeFramesByIds
            (claimedFrameIds ((sz + s.page_size - 1) / s.page_size)
              s.page_table)
            (allocate_process s pid sz
              AllocationMethod.PAGING).1.page_table) = _
        rw [hpts, claim_then_free_allfree hfree fun i hi => hi]
        have hptne : s.page_table ≠ [] := by
          intro hc
          rw [hc] at hlen
          have hq : 0 < s.memory_size / s.page_size :=
            Nat.div_pos (Nat.le_of_dvd hN hdvd) hp
          simp at hlen
          omega
        obtain ⟨u1, u2, u3, -⟩ := update_memory_spec hp hcanon hptne
        have hend : ptEnd s.page_size 0 s.page_table = s.memory_size := by
          rw [ptEnd_eq, hlen]
          have := Nat.div_mul_cancel hdvd
          omega
        rw [hend] at u1
        have hallfree : ∀ b ∈ _update_memory_from_page_table s.page_table,
            b.process_id = none := by
          intro b hb
          obtain ⟨f, hf, hbf⟩ := u3 b hb
          rw [hbf]
          exact hfree f hf
        exact chain_all_free_singleton u1 u2 hallfree hN
  | SEGMENTATION =>
    rcases hfind : segFindAndClaim pid sz s.memory with - | ⟨mem', blk⟩
    · exfalso
      have hsucc' : (_allocate_process_segmentation s pid sz).2 = true := hsucc
      rw [alloc_seg_none_eq hfind] at hsucc'
      cases hsucc'
    · have heq := alloc_seg_some_eq hfind
      have hfind0 := hfind
      rw [hmem] at hfind0
      obtain ⟨l1, F, l2, e1, e2, e3, e4, e5, e6, e7, e8⟩ :=
        segFindAndClaim_some hfind0
      cases l1 with
      | cons x xs =>
        exfalso
        simp only [List.cons_append] at e1
        have := congrArg List.tail e1
        simp at this
      | nil =>
        simp only [List.nil_append, List.cons.injEq] at e1
        obtain ⟨hFB, hl2⟩ := e1
        subst hl2
        have hsz_le : sz ≤ s.memory_size := by
          have h := e4
          rw [← hFB] at h
          exact h
        have hregs : (allocate_process s pid sz
              AllocationMethod.SEGMENTATION).1.allocated_processes =
            [(pid, ProcInfo.segmentation sz blk.start blk.«end»)] := by
          show (_allocate_process_segmentation s pid sz).1.allocated_processes
            = _
          rw [heq]
          show dictInsert pid _ s.allocated_processes = _
          rw [hreg]
          rfl
        have hmemst : (allocate_process s pid sz
              AllocationMethod.SEGMENTATION).1.memory = mem' := by
          show (_allocate_process_segmentation s pid sz).1.memory = _
          rw [heq]
          rfl
        have hlook : dictLookup pid (allocate_process s pid sz
              AllocationMethod.SEGMENTATION).1.allocated_processes =
            some (ProcInfo.segmentation sz blk.start blk.«end») := by
          rw [hregs]
          show (if pid = pid then _ else _) = _
          rw [if_pos rfl]
        rcases e8 with ⟨x1, x2, x3⟩ | ⟨x1, x2, x3⟩
        · have hres : (segFreeFirst pid (allocate_process s pid sz
              AllocationMethod.SEGMENTATION).1.memory).2 = some blk := by
            rw [hmemst, x3]
            show (segFreeFirst pid [blk]).2 = some blk
            rw [segFreeFirst, if_pos e7]
          have hdeq := dealloc_seg_some_eq hlook hres
          refine ⟨by rw [hdeq], ?_⟩
          rw [hdeq]
          show _merge_free_blocks (segFreeFirst pid (allocate_process s pid sz
            AllocationMethod.SEGMENTATION).1.memory).1 = _
          rw [hmemst, x3]
          show _merge_free_blocks (segFreeFirst pid [blk]).1 = _
          rw [segFreeFirst_head e7]
          show _merge_free_blocks [{ blk with process_id := none }] = _
          rw [merge_single, x2, ← hFB]
        · have hres : (segFreeFirst pid (allocate_process s pid sz
              AllocationMethod.SEGMENTATION).1.memory).2 = some blk := by
            rw [hmemst, x3]
            show (segFreeFirst pid (blk :: _)).2 = some blk
            rw [segFreeFirst, if_pos e7]
          have hdeq := dealloc_seg_some_eq hlook hres
          refine ⟨by rw [hdeq], ?_⟩
          rw [hdeq]
          show _merge_free_blocks (segFreeFirst pid (allocate_process s pid sz
            AllocationMethod.SEGMENTATION).1.memory).1 = _
          rw [hmemst, x3]
          show _merge_free_blocks (segFreeFirst pid (blk ::
            [{ start := F.start + sz, «end» := F.«end», size := F.size - sz, process_id := none }])).1 = _
          rw [segFreeFirst_head e7]
          show _merge_free_blocks
            [{ blk with process_id := none },
              { start := F.start + sz, «end» := F.«end», size := F.size - sz, process_id := none }] = _
          rw [merge_two_free rfl rfl]
          rw [x2, ← hFB]
          show
            ([{ start := 0, «end» := s.memory_size - 1, size := sz + (s.memory_size - sz), process_id := none }] : List Block) = _
          rw [show sz + (s.memory_size - sz) = s.memory_size by omega]

/-- Concrete instance of C7: on a fresh (100, 10) engine,
allocate(1, 30, Segmentation) succeeds and the immediately following
deallocate(1) returns True and restores the single free block. -/
theorem claim_C7_witness :
    (deallocate_process (allocate_process (MemoryManager.init 100 10) 1 30
      AllocationMethod.SEGMENTATION).1 1).2 = true ∧
    (deallocate_process (allocate_process (MemoryManager.init 100 10) 1 30
      AllocationMethod.SEGMENTATION).1 1).1.memory =
      [{ start := 0, «end» := 99, size := 100, process_id := none }] :=
  claim_C7 (MemoryManager.init 100 10) 1 30 AllocationMethod.SEGMENTATION
    (by decide) (by decide) (by decide) (by decide) (by decide) (by decide)
    (by decide) (by decide) (by decide)
